import Mathlib

/-!
# JsonLit: a shallow embedding of `jsonlit.h`

The header holds a tokenizer (`TokenizeString` .. `TokenizeAll`), the dynamic
value `JsonObject` and a recursive-descent parser (`ParseJsonObject`, `Parse`,
`ParseJsonString`).

Modelling conventions.

* `std::string` is a `List Char`; a C++ `char` is a `Char` (a byte is a code
  point below 256). Positions, lengths and counts are `Nat`; the texts and
  token sequences considered are shorter than `2^31`, so the `int` counters of
  the source never wrap.
* Every function returns `Except Fault _`. A `Fault` records why no value came
  back: a C++ exception, a call of `std::terminate`, or an access outside a
  container (undefined behaviour in C++, where the model stops).
* Loops are structural recursions on a fuel argument, and `Fault.fuel` marks
  exhaustion. The callers pass a fuel that no run can use up:
  `ParseJsonString_ne_fuel` shows that no call ends in `Fault.fuel`.
* Storage and the call stack are not modelled: a theorem describes what a
  run computes when storage suffices. `ParseJsonObject` receives the token
  sequence by value, so the program copies it at every level of the
  recursion; the claim on the nesting depth is therefore stated for a bounded
  depth.
-/

namespace JsonLit

/-! ## Faults -/

/-- The ways a call can end without a value. -/
inductive Fault where
  /-- `operator[]` outside the container: undefined behaviour. -/
  | undefined : Fault
  /-- `std::out_of_range`, thrown by `substr` and by `std::stoi`. -/
  | out_of_range : Fault
  /-- `std::invalid_argument`, thrown by `std::stoi`. -/
  | invalid_argument : Fault
  /-- `std::runtime_error` with its message, thrown by the parser. -/
  | runtime_error (msg : String) : Fault
  /-- `throw;` with no exception in flight: `std::terminate`. -/
  | terminate : Fault
  /-- The fuel of a loop of the model ran out. -/
  | fuel : Fault
  deriving DecidableEq, Repr

/-! ## Strings -/

/-- The expression `src[pos]` on a `const std::string&`: the character at
`pos`, the null character at `pos = size()`, undefined beyond. -/
def charAt (src : List Char) (pos : Nat) : Except Fault Char :=
  match src[pos]? with
  | some c => .ok c
  | none => if pos = src.length then .ok (Char.ofNat 0) else .error .undefined

/-- The call `src.substr(pos, n)`: throws `std::out_of_range` when
`pos > size()`, else the at most `n` characters from `pos` on. -/
def substr (src : List Char) (pos n : Nat) : Except Fault (List Char) :=
  if src.length < pos then .error .out_of_range else .ok ((src.drop pos).take n)

/-- The C function `isdigit` in the "C" locale. -/
def isdigit (c : Char) : Bool := decide (48 ≤ c.toNat) && decide (c.toNat ≤ 57)

/-- The C function `isspace` in the "C" locale. -/
def isspace (c : Char) : Bool :=
  c.toNat = 32 || (decide (9 ≤ c.toNat) && decide (c.toNat ≤ 13))

/-- Value of a string of decimal digits, most significant first. -/
def decVal (ds : List Char) : Nat :=
  ds.foldl (fun acc c => 10 * acc + (c.toNat - 48)) 0

/-- The call `std::stoi(s)`: `strtol` in base 10 (leading white space, an
optional sign, then the longest run of digits); `std::invalid_argument` when
there is no digit, `std::out_of_range` when the value does not fit an `int`. -/
def stoi (s : List Char) : Except Fault Int :=
  let s1 := s.dropWhile isspace
  let neg : Bool := s1.head? = some '-'
  let s2 := if s1.head? = some '-' ∨ s1.head? = some '+' then s1.tail else s1
  let ds := s2.takeWhile isdigit
  if ds = [] then .error .invalid_argument
  else
    let v : Int := if neg then - (decVal ds : Int) else (decVal ds : Int)
    if v < -2147483648 ∨ 2147483647 < v then .error .out_of_range else .ok v

/-! ## Tokenizer -/

/-- The enum `TokenType`. -/
inductive TokenType where
  | UNKNOWN : TokenType
  | STRING : TokenType
  | NUMBER : TokenType
  | BOOL : TokenType
  | NONE : TokenType
  | OPERATOR : TokenType
  deriving DecidableEq, Repr

/-- The struct `Token`. -/
structure Token where
  type : TokenType
  value : List Char
  deriving DecidableEq, Repr

/-- A value-initialised `std::pair<int, Token>`: `r{}`. -/
def emptyResult : Nat × Token := (0, ⟨.UNKNOWN, []⟩)

/-- The `do { lenght++; pos++; } while (pos < src.size() && src[pos] != '"')`
loop of `TokenizeString`; returns `(lenght, pos)`. -/
def TokenizeString.scan (src : List Char) : Nat → Nat → Nat → Except Fault (Nat × Nat)
  | 0, _, _ => .error .fuel
  | fuel + 1, lenght, pos =>
    let lenght := lenght + 1
    let pos := pos + 1
    if pos < src.length then do
      let c ← charAt src pos
      if c ≠ '"' then TokenizeString.scan src fuel lenght pos else .ok (lenght, pos)
    else .ok (lenght, pos)

/-- The function `TokenizeString`. -/
def TokenizeString (src : List Char) (pos : Nat) : Except Fault (Nat × Token) := do
  let c ← charAt src pos
  if c = '"' then
    let pos := pos + 1
    let (lenght, pos) ← TokenizeString.scan src (src.length + 1) 0 pos
    let c ← charAt src pos
    if c ≠ '"' then
      .ok emptyResult
    else
      let value ← substr src (pos - lenght) lenght
      .ok (lenght + 2, ⟨.STRING, value⟩)
  else
    .ok emptyResult

/-- The `while (isdigit(src[pos]))` loop of `TokenizeNumber`; returns
`(length, pos)`. -/
def TokenizeNumber.scan (src : List Char) : Nat → Nat → Nat → Except Fault (Nat × Nat)
  | 0, _, _ => .error .fuel
  | fuel + 1, length, pos => do
    let c ← charAt src pos
    if isdigit c then
      let length := length + 1
      let pos := pos + 1
      if src.length ≤ pos then .ok (length, pos)
      else TokenizeNumber.scan src fuel length pos
    else .ok (length, pos)

/-- The function `TokenizeNumber`. -/
def TokenizeNumber (src : List Char) (pos : Nat) : Except Fault (Nat × Token) := do
  let (length, pos) ← TokenizeNumber.scan src (src.length + 1) 0 pos
  let value ← substr src (pos - length) length
  .ok (length, ⟨.NUMBER, value⟩)

/-- The function `TokenizeBool`. -/
def TokenizeBool (src : List Char) (pos : Nat) : Except Fault (Nat × Token) := do
  let s4 ← substr src pos 4
  if s4 = ['t', 'r', 'u', 'e'] then
    .ok (4, ⟨.BOOL, s4⟩)
  else do
    let s5 ← substr src pos 5
    if s5 = ['f', 'a', 'l', 's', 'e'] then .ok (5, ⟨.BOOL, s5⟩) else .ok emptyResult

/-- The function `TokenizeNull`. -/
def TokenizeNull (src : List Char) (pos : Nat) : Except Fault (Nat × Token) := do
  let s4 ← substr src pos 4
  if s4 = ['n', 'u', 'l', 'l'] then .ok (4, ⟨.NONE, s4⟩) else .ok emptyResult

/-- The vector `operators` of `TokenizeOperator`. -/
def operators : List Char := ['{', '}', '[', ']', ':', ',']

/-- The function `TokenizeOperator`. -/
def TokenizeOperator (src : List Char) (pos : Nat) : Except Fault (Nat × Token) := do
  let c ← charAt src pos
  if c ∈ operators then .ok (1, ⟨.OPERATOR, [c]⟩) else .ok emptyResult

/-- The vector `tokenizers` of `Tokenize`, in its order. -/
def tokenizers : List (List Char → Nat → Except Fault (Nat × Token)) :=
  [TokenizeString, TokenizeNumber, TokenizeBool, TokenizeNull, TokenizeOperator]

/-- The `for (const auto& tokenizer : tokenizers)` loop of `Tokenize`: `r` is
the result of the last matcher tried. -/
def Tokenize.run (src : List Char) (pos : Nat) :
    List (List Char → Nat → Except Fault (Nat × Token)) → Nat × Token →
      Except Fault (Nat × Token)
  | [], r => .ok r
  | tokenizer :: rest, _ => do
    let r ← tokenizer src pos
    if 0 < r.1 then .ok r else Tokenize.run src pos rest r

/-- The function `Tokenize`. -/
def Tokenize (src : List Char) (pos : Nat) : Except Fault (Nat × Token) := do
  let r ← Tokenize.run src pos tokenizers emptyResult
  if r.1 = 0 then do
    let c ← charAt src pos
    .ok (r.1 + 1, ⟨.UNKNOWN, [c]⟩)
  else .ok r

/-- The white-space loop at the head of the body of `TokenizeAll`: skips
space, newline and tab. -/
def TokenizeAll.skip (src : List Char) : Nat → Nat → Except Fault Nat
  | 0, _ => .error .fuel
  | fuel + 1, pos => do
    let c ← charAt src pos
    if c = ' ' ∨ c = '\n' ∨ c = '\t' then TokenizeAll.skip src fuel (pos + 1) else .ok pos

/-- The `do { ... } while (pos < src.size())` loop of `TokenizeAll`. -/
def TokenizeAll.loop (src : List Char) :
    Nat → Nat → List (Nat × Token) → Except Fault (List (Nat × Token))
  | 0, _, _ => .error .fuel
  | fuel + 1, pos, tokens => do
    let pos ← TokenizeAll.skip src (src.length + 1) pos
    let current ← Tokenize src pos
    let tokens := tokens ++ [current]
    let pos := pos + current.1
    if pos < src.length then TokenizeAll.loop src fuel pos tokens else .ok tokens

/-- The function `TokenizeAll`. -/
def TokenizeAll (src : List Char) : Except Fault (List (Nat × Token)) :=
  TokenizeAll.loop src (src.length + 1) 0 []

/-! ## Values -/

/-- The enum class `JsonObjectType`. -/
inductive JsonObjectType where
  | Unknown : JsonObjectType
  | Integer : JsonObjectType
  | String : JsonObjectType
  | Boolean : JsonObjectType
  | Object : JsonObjectType
  | Array : JsonObjectType
  deriving DecidableEq, Repr

/-- The struct `JsonObject`: what its `std::any` field can hold. `Unknown` is
the empty `std::any` of a fresh object; a `std::map` is the list of its
entries in iteration order. -/
inductive JsonObject where
  | Unknown : JsonObject
  | Integer (i : Int) : JsonObject
  | String (s : List Char) : JsonObject
  | Boolean (b : Bool) : JsonObject
  | Object (m : List (List Char × JsonObject)) : JsonObject
  | Array (a : List JsonObject) : JsonObject

/-- A default-constructed `JsonObject`, as in `JsonObject r{};`. -/
instance : Inhabited JsonObject := ⟨.Unknown⟩

namespace JsonObject

/-- The method `GetType`. -/
def GetType : JsonObject → JsonObjectType
  | .Unknown => .Unknown
  | .Integer _ => .Integer
  | .String _ => .String
  | .Boolean _ => .Boolean
  | .Object _ => .Object
  | .Array _ => .Array

/-- The method `ToInteger`. -/
def ToInteger : JsonObject → Except Fault Int
  | .Integer i => .ok i
  | _ => .error .terminate

/-- The method `ToString`. -/
def ToString : JsonObject → Except Fault (List Char)
  | .String s => .ok s
  | _ => .error .terminate

/-- The method `ToBoolean`. -/
def ToBoolean : JsonObject → Except Fault Bool
  | .Boolean b => .ok b
  | _ => .error .terminate

/-- The method `ToObject`. -/
def ToObject : JsonObject → Except Fault (List (List Char × JsonObject))
  | .Object m => .ok m
  | _ => .error .terminate

/-- The method `ToArray`. -/
def ToArray : JsonObject → Except Fault (List JsonObject)
  | .Array a => .ok a
  | _ => .error .terminate

/-- The overload `operator= (int integer)`. -/
def assignInt (_self : JsonObject) (integer : Int) : JsonObject := .Integer integer

/-- The overloads `operator= (const std::string& string)` and
`operator= (const char* string)`. -/
def assignString (_self : JsonObject) (string : List Char) : JsonObject := .String string

/-- The overload `operator= (bool boolean)`. -/
def assignBool (_self : JsonObject) (boolean : Bool) : JsonObject := .Boolean boolean

/-- The overload `operator= (const std::map<std::string, JsonObject>& object)`. -/
def assignObject (_self : JsonObject) (object : List (List Char × JsonObject)) : JsonObject :=
  .Object object

/-- The overload `operator= (const std::vector<JsonObject>& jsonArray)`. -/
def assignArray (_self : JsonObject) (jsonArray : List JsonObject) : JsonObject :=
  .Array jsonArray

end JsonObject

/-- The expression `v[idx]` on a `std::vector<JsonObject>`. -/
def vectorAt (v : List JsonObject) (idx : Nat) : Except Fault JsonObject :=
  match v[idx]? with
  | some x => .ok x
  | none => .error .undefined

/-- The call `m.insert(std::make_pair(k, v))` on a `std::map` ordered by
`std::less<std::string>`: the entry goes to its place in key order, and
nothing changes when the key is already there. The order `<` of `List Char`
is the lexicographic order by character code, as `std::string::compare`. -/
def mapInsert (k : List Char) (v : JsonObject) :
    List (List Char × JsonObject) → List (List Char × JsonObject)
  | [] => [(k, v)]
  | e :: rest =>
    if k < e.1 then (k, v) :: e :: rest
    else if e.1 < k then e :: mapInsert k v rest
    else e :: rest

/-! ## Parser -/

/-- The expression `tokens[position]` on the vector of tokens. -/
def tokAt (tokens : List (Nat × Token)) (position : Nat) : Except Fault (Nat × Token) :=
  match tokens[position]? with
  | some t => .ok t
  | none => .error .undefined

mutual

/-- The function `ParseJsonObject`. -/
def ParseJsonObject :
    Nat → List (Nat × Token) → Nat → Except Fault (Nat × JsonObject)
  | 0, _, _ => .error .fuel
  | fuel + 1, tokens, position => do
    let t ← tokAt tokens position
    if t.2.type = .STRING then
      .ok (1, .String t.2.value)
    else if t.2.type = .NUMBER then do
      let i ← stoi t.2.value
      .ok (1, .Integer i)
    else if t.2.type = .OPERATOR ∧ t.2.value = ['{'] then
      ParseJsonObject.objectLoop fuel tokens position position []
    else if t.2.type = .OPERATOR ∧ t.2.value = ['['] then
      ParseJsonObject.arrayLoop fuel tokens position position []
    else
      .error (.runtime_error "bad format.")
termination_by structural fuel => fuel

/-- The `while (tokens[position].second.value != "}")` loop of the object
branch, with the two statements after it. -/
def ParseJsonObject.objectLoop :
    Nat → List (Nat × Token) → Nat → Nat → List (List Char × JsonObject) →
      Except Fault (Nat × JsonObject)
  | 0, _, _, _, _ => .error .fuel
  | fuel + 1, tokens, initialPos, position, jsonObject => do
    let t ← tokAt tokens position
    if t.2.value ≠ ['}'] then do
      let position := position + 1
      let key ← tokAt tokens position
      if key.2.type ≠ .STRING then
        .error (.runtime_error "bad format.")
      else do
        let currentName := key.2.value
        let position := position + 1
        let sep ← tokAt tokens position
        if sep.2.type ≠ .OPERATOR then
          .error (.runtime_error "bad format")
        else do
          let position := position + 1
          let currentObject ← ParseJsonObject fuel tokens position
          let jsonObject := mapInsert currentName currentObject.2 jsonObject
          let position := position + currentObject.1
          if tokens.length ≤ position then
            .error (.runtime_error "\"\x7d\" missing.")
          else
            ParseJsonObject.objectLoop fuel tokens initialPos position jsonObject
    else
      .ok (position - initialPos + 1, .Object jsonObject)
termination_by structural fuel => fuel

/-- The `while (tokens[position].second.value != "]")` loop of the array
branch, with the two statements after it. -/
def ParseJsonObject.arrayLoop :
    Nat → List (Nat × Token) → Nat → Nat → List JsonObject →
      Except Fault (Nat × JsonObject)
  | 0, _, _, _, _ => .error .fuel
  | fuel + 1, tokens, initialPos, position, jsonArray => do
    let t ← tokAt tokens position
    if t.2.value ≠ [']'] then do
      let position := position + 1
      let jsonObject ← ParseJsonObject fuel tokens position
      let position := position + jsonObject.1
      let jsonArray := jsonArray ++ [jsonObject.2]
      if tokens.length ≤ position then
        .error (.runtime_error "\"]\" missing.")
      else
        ParseJsonObject.arrayLoop fuel tokens initialPos position jsonArray
    else
      .ok (position - initialPos + 1, .Array jsonArray)
termination_by structural fuel => fuel

end

/-- The function `Parse`. The fuel `2 * size + 2` covers every run
(`Parse_ne_fuel`): a call at position `p` needs at most
`2 * (size - p) + 1`. -/
def Parse (tokens : List (Nat × Token)) : Except Fault JsonObject := do
  let jsonObject ← ParseJsonObject (2 * tokens.length + 2) tokens 0
  .ok jsonObject.2

/-- The function `ParseJsonString`. -/
def ParseJsonString (src : List Char) : Except Fault JsonObject := do
  let tokens ← TokenizeAll src
  Parse tokens


/-! ## Vocabulary of the claims

What the statements below need besides the code: the lexemes of a text
without white space, decimal renderings, the texts of arrays and objects of
numbers (with commas and colons, or with other operator characters in their
place), nested arrays, the keys of a map and the lookup in it, the blank
characters, and the number literals of JSON. -/

/-- A lexeme: a run of digits, an operator character, or a string literal
given by the characters between its quotes. -/
inductive Piece where
  | num (ds : List Char) : Piece
  | op (c : Char) : Piece
  | str (s : List Char) : Piece

/-- The characters of a lexeme in the text. -/
def Piece.text : Piece → List Char
  | .num ds => ds
  | .op c => [c]
  | .str s => '"' :: (s ++ ['"'])

/-- The token of a lexeme, paired with its consumed length. -/
def Piece.token : Piece → Nat × Token
  | .num ds => (ds.length, ⟨.NUMBER, ds⟩)
  | .op c => (1, ⟨.OPERATOR, [c]⟩)
  | .str s => (s.length + 2, ⟨.STRING, s⟩)

/-- Whether the lexeme is a run of digits. -/
def Piece.isNum : Piece → Bool
  | .num _ => true
  | _ => false

/-- Well-formed lexemes: a non-empty run of digits, one of the six operator
characters, a non-empty string without a double quote. -/
def Piece.wf : Piece → Prop
  | .num ds => ds ≠ [] ∧ ∀ c ∈ ds, isdigit c = true
  | .op c => c ∈ operators
  | .str s => s ≠ [] ∧ '"' ∉ s

/-- The text of a sequence of lexemes, written one after the other. -/
def piecesText : List Piece → List Char
  | [] => []
  | p :: ps => p.text ++ piecesText ps

/-- A sequence of well-formed lexemes in which no digit run directly follows
another one (the two would read as one number). -/
def piecesOk : List Piece → Prop
  | [] => True
  | p :: ps => p.wf ∧ (p.isNum = true → ∀ q, ps.head? = some q → q.isNum = false) ∧ piecesOk ps

/-- The lexemes of the elements of an array of numbers: each digit run comes
after its separator, `sep` for the first and a comma for the others. -/
def arrayPieces : Char → List (List Char) → List Piece
  | _, [] => []
  | sep, ds :: rest => .op sep :: .num ds :: arrayPieces ',' rest

/-- A digit run that `std::stoi` accepts as an `int`. -/
def intDigits (ds : List Char) : Prop :=
  ds ≠ [] ∧ (∀ c ∈ ds, isdigit c = true) ∧ decVal ds ≤ 2147483647

/-- The lexemes of the members of an object of numbers: separator, key,
colon, digit run; `sep` before the first member and a comma before the
others. -/
def objectPieces : Char → List (List Char × List Char) → List Piece
  | _, [] => []
  | sep, m :: rest =>
    .op sep :: .str m.1 :: .op ':' :: .num m.2 :: objectPieces ',' rest

/-- The map after the members are inserted one by one, in their order. -/
def insertMembers (acc : List (List Char × JsonObject))
    (ms : List (List Char × List Char)) : List (List Char × JsonObject) :=
  ms.foldl (fun m kd => mapInsert kd.1 (.Integer (decVal kd.2)) m) acc

/-- The decimal rendering of a natural number: no sign, no leading zero. -/
def decimal (n : Nat) : List Char := Nat.toDigits 10 n

/-- The text `[n1,n2,...,nk]`. -/
def arrayText (ns : List Nat) : List Char :=
  '[' :: (List.intercalate [','] (ns.map decimal) ++ [']'])

/-- The text `"k":n` of one member. -/
def memberText (m : List Char × Nat) : List Char :=
  '"' :: (m.1 ++ '"' :: ':' :: decimal m.2)

/-- The text `{"k1":n1,...,"km":nm}`. -/
def objectText (ms : List (List Char × Nat)) : List Char :=
  '{' :: (List.intercalate [','] (ms.map memberText) ++ ['}'])

/-- A member as key and digit run. -/
def memberDigits (m : List Char × Nat) : List Char × List Char := (m.1, decimal m.2)

/-- The keys of a map in iteration order. -/
def mapKeys (m : List (List Char × JsonObject)) : List (List Char) := m.map Prod.fst

/-- Drops a non-empty run of digits from the head of a text; `none` when the
text does not start with a digit. -/
def dropDigits (t : List Char) : Option (List Char) :=
  if t.takeWhile isdigit = [] then none else some (t.dropWhile isdigit)

/-- A JSON number literal in the words of the specification: an optional
leading `-`, one or more digits, an optional `.` followed by one or more
digits, an optional exponent `e` or `E` with an optional sign and one or more
digits. -/
def jsonNumberLiteral (t : List Char) : Bool :=
  let t0 := if t.head? = some '-' then t.tail else t
  match dropDigits t0 with
  | none => false
  | some t1 =>
    match (if t1.head? = some '.' then dropDigits t1.tail else some t1) with
    | none => false
    | some t2 =>
      if t2.head? = some 'e' ∨ t2.head? = some 'E' then
        let t3 := t2.tail
        let t4 := if t3.head? = some '+' ∨ t3.head? = some '-' then t3.tail else t3
        match dropDigits t4 with
        | none => false
        | some t5 => t5.isEmpty
      else t2.isEmpty

/-- The text of `d` opening brackets, the digit 1 and `d` closing brackets. -/
def nestedText (d : Nat) : List Char :=
  List.replicate d '[' ++ '1' :: List.replicate d ']'

/-- The value `v` inside `d` arrays of one element each. -/
def nest : Nat → JsonObject → JsonObject
  | 0, v => v
  | d + 1, v => .Array [nest d v]

/-- The lexemes of `nestedText d`. -/
def nestedPieces (d : Nat) : List Piece :=
  List.replicate d (Piece.op '[') ++ Piece.num ['1'] :: List.replicate d (Piece.op ']')

/-- The lookup `m.find(k)` of a `std::map`: the value of the entry whose key
is equivalent to `k` under the order of the map (neither is less than the
other), if there is one. -/
def mapFind (k : List Char) : List (List Char × JsonObject) → Option JsonObject
  | [] => none
  | e :: rest => if ¬ k < e.1 ∧ ¬ e.1 < k then some e.2 else mapFind k rest

/-- The characters that the white-space loop of `TokenizeAll` steps over:
space, newline and tab. -/
def isBlank (c : Char) : Bool := decide (c = ' ' ∨ c = '\n' ∨ c = '\t')

/-- The lexemes of array elements that come each after a separator character
of its own. -/
def sepArrayPieces : List (Char × List Char) → List Piece
  | [] => []
  | e :: rest => .op e.1 :: .num e.2 :: sepArrayPieces rest

/-- The lexemes of object members that come each after a separator character
of its own and have a character of their own in the place of the colon:
separator, key, colon character, digit run. -/
def sepObjectPieces : List (Char × List Char × Char × List Char) → List Piece
  | [] => []
  | m :: rest =>
    .op m.1 :: .str m.2.1 :: .op m.2.2.1 :: .num m.2.2.2 :: sepObjectPieces rest

/-- The elements of an array text, each written after its separator
character. -/
def looseArrayBody : List (Char × Nat) → List Char
  | [] => []
  | e :: rest => e.1 :: (decimal e.2 ++ looseArrayBody rest)

/-- The text of an array whose elements are written each after a character of
its own (the opening bracket for the first), closed by a bracket. -/
def looseArrayText (items : List (Char × Nat)) : List Char :=
  looseArrayBody items ++ [']']

/-- The members of an object text, each written as separator character, key
between double quotes, colon character, number. -/
def looseObjectBody : List (Char × List Char × Char × Nat) → List Char
  | [] => []
  | m :: rest =>
    m.1 :: '"' :: (m.2.1 ++ '"' :: m.2.2.1 :: (decimal m.2.2.2 ++ looseObjectBody rest))

/-- The text of an object whose members are written each after a character of
its own (the opening brace for the first) and with a character of their own
in the place of the colon, closed by a brace. -/
def looseObjectText (members : List (Char × List Char × Char × Nat)) : List Char :=
  looseObjectBody members ++ ['}']

/-- An array item with its number as a digit run. -/
def itemDigits (e : Char × Nat) : Char × List Char := (e.1, decimal e.2)

/-- An object member with its number as a digit run. -/
def looseDigits (m : Char × List Char × Char × Nat) : Char × List Char × Char × List Char :=
  (m.1, m.2.1, m.2.2.1, decimal m.2.2.2)

/-! ## Basic facts about strings -/

@[simp] theorem ok_bind {α β : Type} (a : α) (f : α → Except Fault β) :
    (Except.ok a >>= f) = f a := rfl

@[simp] theorem error_bind {α β : Type} (e : Fault) (f : α → Except Fault β) :
    ((Except.error e : Except Fault α) >>= f) = Except.error e := rfl

theorem charAt_append_cons (pre : List Char) (c : Char) (suf : List Char) :
    charAt (pre ++ c :: suf) pre.length = .ok c := by
  have h : (pre ++ c :: suf)[pre.length]? = some c := by
    rw [List.getElem?_append_right (le_refl _)]; simp
  simp [charAt, h]

theorem charAt_length (src : List Char) : charAt src src.length = .ok (Char.ofNat 0) := by
  have h : src[src.length]? = none := by simp
  simp [charAt, h]

/-- Reading at the end of a prefix gives the head of the rest, or the null
character when nothing is left. -/
theorem charAt_append (pre suf : List Char) :
    charAt (pre ++ suf) pre.length = .ok (suf.headD (Char.ofNat 0)) := by
  cases suf with
  | nil => simpa using charAt_length pre
  | cons c t => simpa using charAt_append_cons pre c t

theorem substr_append (pre suf : List Char) (n : Nat) :
    substr (pre ++ suf) pre.length n = .ok (suf.take n) := by
  simp [substr]

theorem decVal_append_singleton (xs : List Char) (c : Char) :
    decVal (xs ++ [c]) = 10 * decVal xs + (c.toNat - 48) := by
  simp [decVal, List.foldl_append]

/-! ## The matchers on a text split at the position -/

theorem charAt_split {src : List Char} {c : Char} {pos : Nat} (pre suf : List Char)
    (hsrc : src = pre ++ c :: suf) (hpos : pos = pre.length) : charAt src pos = .ok c := by
  subst hsrc hpos; exact charAt_append_cons pre c suf

theorem isdigit_null : isdigit (Char.ofNat 0) = false := by decide

theorem TokenizeNumber_scan_split (suf : List Char) :
    ∀ (src pre : List Char) (fuel length pos : Nat), src = pre ++ suf → pos = pre.length →
      suf.length < fuel →
      TokenizeNumber.scan src fuel length pos =
        .ok (length + (suf.takeWhile isdigit).length,
          pos + (suf.takeWhile isdigit).length) := by
  induction suf with
  | nil =>
    intro src pre fuel length pos hsrc hpos hf
    obtain ⟨f, rfl⟩ : ∃ f, fuel = f + 1 := ⟨fuel - 1, by omega⟩
    have h : charAt src pos = .ok (Char.ofNat 0) := by
      subst hsrc hpos; simpa using charAt_length pre
    unfold TokenizeNumber.scan
    rw [h]
    simp [isdigit_null]
  | cons c t ih =>
    intro src pre fuel length pos hsrc hpos hf
    obtain ⟨f, rfl⟩ : ∃ f, fuel = f + 1 := ⟨fuel - 1, by omega⟩
    have h : charAt src pos = .ok c := charAt_split pre t hsrc hpos
    have hlen : src.length = pos + 1 + t.length := by subst hsrc hpos; simp; omega
    simp only [List.length_cons] at hf
    unfold TokenizeNumber.scan
    rw [h]
    by_cases hc : isdigit c = true
    · by_cases ht : t = []
      · subst ht
        simp [hc, hlen]
      · have hpos' : 0 < t.length := List.length_pos.mpr ht
        have hle : ¬ src.length ≤ pos + 1 := by omega
        have hrec := ih src (pre ++ [c]) f (length + 1) (pos + 1) (by simp [hsrc])
          (by simp [hpos]) (by omega)
        simp only [ok_bind, hc, if_true, hle, if_false, hrec, List.takeWhile_cons,
          List.length_cons]
        congr 2 <;> omega
    · simp [hc]

/-- The number matcher takes the longest run of digits at the position. -/
theorem TokenizeNumber_append (pre suf : List Char) :
    TokenizeNumber (pre ++ suf) pre.length =
      .ok ((suf.takeWhile isdigit).length, ⟨.NUMBER, suf.takeWhile isdigit⟩) := by
  have hscan := TokenizeNumber_scan_split suf (pre ++ suf) pre ((pre ++ suf).length + 1) 0
    pre.length rfl rfl (by simp; omega)
  have htake : suf.take (suf.takeWhile isdigit).length = suf.takeWhile isdigit :=
    ((List.prefix_iff_eq_take).mp (List.takeWhile_prefix isdigit)).symm
  have hsub := substr_append pre suf (suf.takeWhile isdigit).length
  unfold TokenizeNumber
  rw [hscan]
  simp only [ok_bind, Nat.zero_add, Nat.add_sub_cancel, hsub, htake]

theorem TokenizeString_scan_split (s : List Char) :
    ∀ (src pre : List Char) (x : Char) (rest : List Char) (fuel lenght pos : Nat),
      src = pre ++ x :: (s ++ '"' :: rest) → pos = pre.length →
      '"' ∉ s → s.length < fuel →
      TokenizeString.scan src fuel lenght pos =
        .ok (lenght + s.length + 1, pos + s.length + 1) := by
  induction s with
  | nil =>
    intro src pre x rest fuel lenght pos hsrc hpos _ hf
    obtain ⟨f, rfl⟩ : ∃ f, fuel = f + 1 := ⟨fuel - 1, by omega⟩
    have h : charAt src (pos + 1) = .ok '"' :=
      charAt_split (pre ++ [x]) (rest) (by simp [hsrc]) (by simp [hpos])
    have hlt : pos + 1 < src.length := by subst hsrc hpos; simp
    unfold TokenizeString.scan
    simp only [hlt, if_true, h, ok_bind]
    simp
  | cons y s ih =>
    intro src pre x rest fuel lenght pos hsrc hpos hq hf
    obtain ⟨f, rfl⟩ : ∃ f, fuel = f + 1 := ⟨fuel - 1, by omega⟩
    have hy : y ≠ '"' := fun e => hq (by simp [e])
    have hs : '"' ∉ s := fun e => hq (by simp [e])
    have h : charAt src (pos + 1) = .ok y :=
      charAt_split (pre ++ [x]) (s ++ '"' :: rest) (by simp [hsrc])
        (by simp [hpos])
    have hlt : pos + 1 < src.length := by subst hsrc hpos; simp
    simp only [List.length_cons] at hf
    have hrec := ih src (pre ++ [x]) y rest f (lenght + 1) (pos + 1) (by simp [hsrc])
      (by simp [hpos]) hs (by omega)
    unfold TokenizeString.scan
    simp only [hlt, if_true, h, ok_bind, ne_eq, hy, not_false_eq_true, hrec, List.length_cons]
    congr 2 <;> omega

/-- The string matcher on a literal with at least one character between the
quotes: the first character after the opening quote is taken unseen, the
literal ends at the next double quote. -/
theorem TokenizeString_append (pre : List Char) (x : Char) (s rest : List Char)
    (hq : '"' ∉ s) :
    TokenizeString (pre ++ '"' :: x :: (s ++ '"' :: rest)) pre.length =
      .ok (s.length + 3, ⟨.STRING, x :: s⟩) := by
  generalize hsrc : pre ++ '"' :: x :: (s ++ '"' :: rest) = src
  have h0 : charAt src pre.length = .ok '"' :=
    charAt_split pre (x :: (s ++ '"' :: rest)) hsrc.symm rfl
  have hscan := TokenizeString_scan_split s src (pre ++ ['"']) x rest (src.length + 1) 0
    (pre.length + 1) (by simp [← hsrc]) (by simp) hq (by subst hsrc; simp; omega)
  have h1 : charAt src (pre.length + 1 + s.length + 1) = .ok '"' :=
    charAt_split (pre ++ '"' :: x :: s) (rest) (by simp [← hsrc])
      (by simp; omega)
  have hsub : substr src (pre.length + 1) (s.length + 1) = .ok (x :: s) := by
    have := substr_append (pre ++ ['"']) (x :: (s ++ '"' :: rest)) (s.length + 1)
    simpa [hsrc] using this
  have hpos : pre.length + 1 + s.length + 1 - (0 + s.length + 1) = pre.length + 1 := by omega
  unfold TokenizeString
  rw [h0]
  simp only [ok_bind, if_true]
  rw [hscan]
  simp only [ok_bind]
  rw [h1]
  simp only [ok_bind, ne_eq, not_true_eq_false, if_false, hpos]
  rw [Nat.zero_add, hsub]
  simp

theorem TokenizeString_nomatch (pre suf : List Char) (h : suf.head? ≠ some '"') :
    TokenizeString (pre ++ suf) pre.length = .ok emptyResult := by
  have h0 := charAt_append pre suf
  have hc : suf.headD (Char.ofNat 0) ≠ '"' := by
    cases suf with
    | nil => decide
    | cons c t => simpa using h
  unfold TokenizeString
  rw [h0]
  simp only [ok_bind, hc, if_false]

theorem TokenizeBool_nomatch (pre suf : List Char) (ht : suf.head? ≠ some 't')
    (hf : suf.head? ≠ some 'f') :
    TokenizeBool (pre ++ suf) pre.length = .ok emptyResult := by
  have h4 := substr_append pre suf 4
  have h5 := substr_append pre suf 5
  have e4 : suf.take 4 ≠ ['t', 'r', 'u', 'e'] := by
    cases suf with
    | nil => simp
    | cons c t => intro e; simp at e ht; exact ht e.1
  have e5 : suf.take 5 ≠ ['f', 'a', 'l', 's', 'e'] := by
    cases suf with
    | nil => simp
    | cons c t => intro e; simp at e hf; exact hf e.1
  unfold TokenizeBool
  rw [h4]
  simp only [ok_bind, e4, if_false]
  rw [h5]
  simp only [ok_bind, e5, if_false]

theorem TokenizeNull_nomatch (pre suf : List Char) (hn : suf.head? ≠ some 'n') :
    TokenizeNull (pre ++ suf) pre.length = .ok emptyResult := by
  have h4 := substr_append pre suf 4
  have e4 : suf.take 4 ≠ ['n', 'u', 'l', 'l'] := by
    cases suf with
    | nil => simp
    | cons c t => intro e; simp at e hn; exact hn e.1
  unfold TokenizeNull
  rw [h4]
  simp only [ok_bind, e4, if_false]

theorem TokenizeOperator_append (pre : List Char) (c : Char) (rest : List Char)
    (hc : c ∈ operators) :
    TokenizeOperator (pre ++ c :: rest) pre.length = .ok (1, ⟨.OPERATOR, [c]⟩) := by
  have h0 := charAt_append_cons pre c rest
  unfold TokenizeOperator
  rw [h0]
  simp only [ok_bind, hc, if_true]

/-! ## `Tokenize` on the three kinds of lexeme the parser accepts -/

theorem operators_facts {c : Char} (hc : c ∈ operators) :
    c ≠ '"' ∧ isdigit c = false ∧ c ≠ 't' ∧ c ≠ 'f' ∧ c ≠ 'n' ∧
      ¬ (c = ' ' ∨ c = '\n' ∨ c = '\t') := by
  simp only [operators, List.mem_cons, List.mem_singleton, List.not_mem_nil, or_false] at hc
  rcases hc with rfl | rfl | rfl | rfl | rfl | rfl <;> decide

theorem isdigit_facts {c : Char} (hc : isdigit c = true) :
    c ≠ '"' ∧ c ≠ 't' ∧ c ≠ 'f' ∧ c ≠ 'n' ∧ ¬ (c = ' ' ∨ c = '\n' ∨ c = '\t') ∧
      isspace c = false ∧ c ≠ '-' ∧ c ≠ '+' := by
  have h : 48 ≤ c.toNat ∧ c.toNat ≤ 57 := by simpa [isdigit] using hc
  refine ⟨?_, ?_, ?_, ?_, ?_, ?_, ?_, ?_⟩
  · rintro rfl; revert h; decide
  · rintro rfl; revert h; decide
  · rintro rfl; revert h; decide
  · rintro rfl; revert h; decide
  · rintro (rfl | rfl | rfl) <;> revert h <;> decide
  · simp only [isspace, Bool.or_eq_false_iff, decide_eq_false_iff_not, Bool.and_eq_false_iff]
    omega
  · rintro rfl; revert h; decide
  · rintro rfl; revert h; decide

theorem takeWhile_digits_append (ds rest : List Char) (hds : ∀ c ∈ ds, isdigit c = true)
    (hrest : ∀ c, rest.head? = some c → isdigit c = false) :
    (ds ++ rest).takeWhile isdigit = ds := by
  rw [List.takeWhile_append_of_pos hds]
  cases rest with
  | nil => simp
  | cons c t => simp [List.takeWhile_cons, hrest c rfl]

/-- A run of digits that no digit follows becomes one NUMBER token. -/
theorem Tokenize_number (pre ds rest : List Char) (hne : ds ≠ [])
    (hds : ∀ c ∈ ds, isdigit c = true)
    (hrest : ∀ c, rest.head? = some c → isdigit c = false) :
    Tokenize (pre ++ (ds ++ rest)) pre.length = .ok (ds.length, ⟨.NUMBER, ds⟩) := by
  obtain ⟨d, t, rfl⟩ := List.exists_cons_of_ne_nil hne
  have hd := isdigit_facts (hds d (by simp))
  have h1 := TokenizeString_nomatch pre (d :: t ++ rest) (by simpa using hd.1)
  have h2 := TokenizeNumber_append pre (d :: t ++ rest)
  rw [takeWhile_digits_append (d :: t) rest hds hrest] at h2
  unfold Tokenize
  simp only [tokenizers, Tokenize.run, h1, h2, ok_bind, emptyResult]
  simp

/-- An operator character becomes one OPERATOR token. -/
theorem Tokenize_operator (pre : List Char) (c : Char) (rest : List Char)
    (hc : c ∈ operators) :
    Tokenize (pre ++ c :: rest) pre.length = .ok (1, ⟨.OPERATOR, [c]⟩) := by
  have hf := operators_facts hc
  have h1 := TokenizeString_nomatch pre (c :: rest) (by simpa using hf.1)
  have h2 := TokenizeNumber_append pre (c :: rest)
  have h3 := TokenizeBool_nomatch pre (c :: rest) (by simpa using hf.2.2.1)
    (by simpa using hf.2.2.2.1)
  have h4 := TokenizeNull_nomatch pre (c :: rest) (by simpa using hf.2.2.2.2.1)
  have h5 := TokenizeOperator_append pre c rest hc
  simp only [List.takeWhile_cons, hf.2.1] at h2
  unfold Tokenize
  simp only [tokenizers, Tokenize.run, h1, h2, h3, h4, h5, ok_bind, emptyResult]
  simp

/-- A string literal with at least one character between the quotes, none of
them after the first a double quote, becomes one STRING token. -/
theorem Tokenize_string (pre : List Char) (x : Char) (s rest : List Char) (hq : '"' ∉ s) :
    Tokenize (pre ++ '"' :: x :: (s ++ '"' :: rest)) pre.length =
      .ok (s.length + 3, ⟨.STRING, x :: s⟩) := by
  have h1 := TokenizeString_append pre x s rest hq
  unfold Tokenize
  simp only [tokenizers, Tokenize.run, h1, ok_bind]
  simp

/-! ## Texts made of lexemes without white space

The documents of the claims (`123`, `[1,2,3]`, `{"a":1,"b":2}`) are sequences
of digit runs, operator characters and string literals. `Piece` names such a
lexeme, `piecesText` writes a sequence of them out, and `TokenizeAll_pieces`
shows that `TokenizeAll` gives back one token for each. -/

theorem Piece.text_length {p : Piece} : p.text.length = p.token.1 := by
  cases p <;> simp [Piece.text, Piece.token]

theorem Piece.text_head {p : Piece} (hp : p.wf) (rest : List Char) :
    ∃ c t, p.text ++ rest = c :: t ∧ ¬ (c = ' ' ∨ c = '\n' ∨ c = '\t') ∧
      (p.isNum = false → isdigit c = false) := by
  cases p with
  | num ds =>
    obtain ⟨d, t, rfl⟩ := List.exists_cons_of_ne_nil hp.1
    exact ⟨d, t ++ rest, by simp [Piece.text], (isdigit_facts (hp.2 d (by simp))).2.2.2.2.1,
      by simp [Piece.isNum]⟩
  | op c =>
    exact ⟨c, rest, by simp [Piece.text], (operators_facts hp).2.2.2.2.2,
      fun _ => (operators_facts hp).2.1⟩
  | str s =>
    exact ⟨'"', s ++ '"' :: rest, by simp [Piece.text], by decide, fun _ => by decide⟩

theorem Piece.token_pos {p : Piece} (hp : p.wf) : 0 < p.token.1 := by
  cases p with
  | num ds => exact List.length_pos.mpr hp.1
  | op c => simp [Piece.token]
  | str s => simp [Piece.token]

theorem piecesText_head (ps : List Piece) (hok : piecesOk ps) (c : Char)
    (hq : ∀ q, ps.head? = some q → q.isNum = false)
    (hc : (piecesText ps).head? = some c) : isdigit c = false := by
  cases ps with
  | nil => simp [piecesText] at hc
  | cons q qs =>
    obtain ⟨c', t, ht, _, hd⟩ := Piece.text_head hok.1 (piecesText qs)
    simp only [piecesText, ht, List.head?_cons, Option.some.injEq] at hc
    subst hc
    exact hd (hq q rfl)

theorem Tokenize_piece (pre : List Char) (p : Piece) (rest : List Char) (hp : p.wf)
    (hrest : p.isNum = true → ∀ c, rest.head? = some c → isdigit c = false) :
    Tokenize (pre ++ (p.text ++ rest)) pre.length = .ok p.token := by
  cases p with
  | num ds => exact Tokenize_number pre ds rest hp.1 hp.2 (hrest rfl)
  | op c => exact Tokenize_operator pre c rest hp
  | str s =>
    obtain ⟨x, t, rfl⟩ := List.exists_cons_of_ne_nil hp.1
    have hq : '"' ∉ t := fun e => hp.2 (by simp [e])
    have h := Tokenize_string pre x t rest hq
    simp only [Piece.text, Piece.token, List.cons_append, List.append_assoc,
      List.singleton_append, List.length_cons, List.nil_append] at h ⊢
    rw [h]

theorem TokenizeAll_skip_stop (src : List Char) (fuel pos : Nat) (c : Char)
    (h : charAt src pos = .ok c) (hc : ¬ (c = ' ' ∨ c = '\n' ∨ c = '\t')) :
    TokenizeAll.skip src (fuel + 1) pos = .ok pos := by
  unfold TokenizeAll.skip
  rw [h]
  simp only [ok_bind, hc, if_false]

theorem TokenizeAll_loop_pieces (ps : List Piece) :
    ∀ (src pre : List Char) (acc : List (Nat × Token)) (fuel pos : Nat),
      ps ≠ [] → piecesOk ps → src = pre ++ piecesText ps → pos = pre.length →
      ps.length ≤ fuel →
      TokenizeAll.loop src fuel pos acc = .ok (acc ++ ps.map Piece.token) := by
  induction ps with
  | nil => intro _ _ _ _ _ h; exact absurd rfl h
  | cons p rest ih =>
    intro src pre acc fuel pos _ hok hsrc hpos hf
    obtain ⟨f, rfl⟩ : ∃ f, fuel = f + 1 := ⟨fuel - 1, by simp at hf; omega⟩
    obtain ⟨hp, hadj, hrest⟩ := hok
    obtain ⟨c, t, ht, hws, _⟩ := Piece.text_head hp (piecesText rest)
    have hskip : TokenizeAll.skip src (src.length + 1) pos = .ok pos :=
      TokenizeAll_skip_stop src src.length pos c
        (charAt_split (pre) (t) (by rw [hsrc, piecesText, ht]) hpos) hws
    have htok : Tokenize src pos = .ok p.token := by
      rw [hsrc, hpos, piecesText]
      exact Tokenize_piece pre p (piecesText rest) hp
        (fun hn c hc => piecesText_head rest hrest c (hadj hn) hc)
    have hlen : src.length = pos + p.token.1 + (piecesText rest).length := by
      rw [hsrc, hpos, piecesText, ← Piece.text_length]; simp; omega
    unfold TokenizeAll.loop
    rw [hskip]
    simp only [ok_bind]
    rw [htok]
    simp only [ok_bind]
    by_cases hr : rest = []
    · subst hr
      have : ¬ (pos + p.token.1 < src.length) := by
        simp [piecesText] at hlen; omega
      simp [this]
    · obtain ⟨q, qs, rfl⟩ := List.exists_cons_of_ne_nil hr
      obtain ⟨c', t', ht', _, _⟩ := Piece.text_head hrest.1 (piecesText qs)
      have hlt : pos + p.token.1 < src.length := by
        rw [hlen, piecesText, ht']; simp
      have hrec := ih src (pre ++ p.text) (acc ++ [p.token]) f (pos + p.token.1) hr hrest
        (by rw [hsrc, piecesText]; simp) (by rw [hpos, ← Piece.text_length]; simp)
        (by simp at hf ⊢; omega)
      simp only [hlt, if_true, hrec]
      simp

theorem piecesText_length (ps : List Piece) (hok : piecesOk ps) :
    ps.length ≤ (piecesText ps).length := by
  induction ps with
  | nil => simp
  | cons p rest ih =>
    have h1 := Piece.token_pos hok.1
    have h2 := ih hok.2.2
    rw [← Piece.text_length] at h1
    simp only [piecesText, List.length_cons, List.length_append]
    omega

/-- A text made of well-formed lexemes is tokenized into exactly their
tokens, in order. -/
theorem TokenizeAll_pieces (ps : List Piece) (hne : ps ≠ []) (hok : piecesOk ps) :
    TokenizeAll (piecesText ps) = .ok (ps.map Piece.token) := by
  have h := TokenizeAll_loop_pieces ps (piecesText ps) [] [] ((piecesText ps).length + 1) 0
    hne hok rfl rfl (by have := piecesText_length ps hok; omega)
  simpa [TokenizeAll] using h

/-! ## The parser on number tokens, arrays of numbers and objects of numbers -/

theorem tokAt_split {tokens : List (Nat × Token)} {t : Nat × Token} {pos : Nat}
    (pre suf : List (Nat × Token))
    (htok : tokens = pre ++ t :: suf) (hpos : pos = pre.length) : tokAt tokens pos = .ok t := by
  subst htok hpos
  have h : (pre ++ t :: suf)[pre.length]? = some t := by
    rw [List.getElem?_append_right (le_refl _)]; simp
  simp [tokAt, h]

/-- On a non-empty run of digits `std::stoi` returns its decimal value when
that fits an `int`. -/
theorem stoi_digits (ds : List Char) (hne : ds ≠ []) (hds : ∀ c ∈ ds, isdigit c = true)
    (hr : decVal ds ≤ 2147483647) : stoi ds = .ok (decVal ds : Int) := by
  obtain ⟨d, t, rfl⟩ := List.exists_cons_of_ne_nil hne
  have hd := isdigit_facts (hds d (by simp))
  have h1 : (d :: t).dropWhile isspace = d :: t := by
    simp [List.dropWhile_cons, hd.2.2.2.2.2.1]
  have h2 : (d :: t).takeWhile isdigit = d :: t := by
    have := takeWhile_digits_append (d :: t) [] hds (by simp)
    simpa using this
  have h3 : ¬ ((decVal (d :: t) : Int) < -2147483648 ∨ 2147483647 < (decVal (d :: t) : Int)) := by
    omega
  unfold stoi
  simp only [h1, List.head?_cons, Option.some.injEq, hd.2.2.2.2.2.2.1, hd.2.2.2.2.2.2.2,
    or_self, if_false, h2, decide_False, h3]
  simp
  omega

theorem ParseJsonObject_number (fuel : Nat) (tokens : List (Nat × Token)) (pos k : Nat)
    (ds : List Char) (h : tokAt tokens pos = .ok (k, ⟨.NUMBER, ds⟩)) (hne : ds ≠ [])
    (hds : ∀ c ∈ ds, isdigit c = true) (hr : decVal ds ≤ 2147483647) :
    ParseJsonObject (fuel + 1) tokens pos = .ok (1, .Integer (decVal ds)) := by
  unfold ParseJsonObject
  rw [h]
  simp [stoi_digits ds hne hds hr]

theorem ParseJsonObject_string (fuel : Nat) (tokens : List (Nat × Token)) (pos k : Nat)
    (s : List Char) (h : tokAt tokens pos = .ok (k, ⟨.STRING, s⟩)) :
    ParseJsonObject (fuel + 1) tokens pos = .ok (1, .String s) := by
  unfold ParseJsonObject
  rw [h]
  simp

theorem arrayLoop_numbers (dss : List (List Char)) :
    ∀ (sep : Char) (tokens pre tail : List (Nat × Token)) (acc : List JsonObject)
      (fuel init pos : Nat),
      tokens = pre ++ ((arrayPieces sep dss ++ [Piece.op ']']).map Piece.token ++ tail) →
      pos = pre.length → sep ≠ ']' → (∀ ds ∈ dss, intDigits ds) → dss.length + 1 ≤ fuel →
      ParseJsonObject.arrayLoop fuel tokens init pos acc =
        .ok (pos + 2 * dss.length - init + 1,
          .Array (acc ++ dss.map (fun ds => .Integer (decVal ds)))) := by
  induction dss with
  | nil =>
    intro sep tokens pre tail acc fuel init pos htok hpos _ _ hf
    obtain ⟨f, rfl⟩ : ∃ f, fuel = f + 1 := ⟨fuel - 1, by simp at hf; omega⟩
    have h : tokAt tokens pos = .ok (1, ⟨.OPERATOR, [']']⟩) :=
      tokAt_split (pre) (tail) (by simp [htok, arrayPieces, Piece.token]) hpos
    unfold ParseJsonObject.arrayLoop
    rw [h]
    simp
  | cons ds rest ih =>
    intro sep tokens pre tail acc fuel init pos htok hpos hsep hds hf
    obtain ⟨f, rfl⟩ : ∃ f, fuel = f + 1 := ⟨fuel - 1, by simp at hf; omega⟩
    obtain ⟨g, rfl⟩ : ∃ g, f = g + 1 := ⟨f - 1, by simp at hf; omega⟩
    have hd := hds ds (by simp)
    have h0 : tokAt tokens pos = .ok (1, ⟨.OPERATOR, [sep]⟩) :=
      tokAt_split (pre)
        ((ds.length, ⟨.NUMBER, ds⟩) ::
          ((arrayPieces ',' rest ++ [Piece.op ']']).map Piece.token ++ tail))
        (by simp [htok, arrayPieces, Piece.token]) hpos
    have h1 : tokAt tokens (pos + 1) = .ok (ds.length, ⟨.NUMBER, ds⟩) :=
      tokAt_split (pre ++ [(1, ⟨.OPERATOR, [sep]⟩)])
        ((arrayPieces ',' rest ++ [Piece.op ']']).map Piece.token ++ tail)
        (by simp [htok, arrayPieces, Piece.token]) (by simp [hpos])
    have hnum := ParseJsonObject_number g tokens (pos + 1) ds.length ds h1 hd.1 hd.2.1 hd.2.2
    have hlen : ¬ tokens.length ≤ pos + 1 + 1 := by
      rw [htok, hpos]; simp [arrayPieces]; omega
    have hrec := ih ',' tokens
      (pre ++ [(1, ⟨.OPERATOR, [sep]⟩), (ds.length, ⟨.NUMBER, ds⟩)]) tail
      (acc ++ [.Integer (decVal ds)]) (g + 1) init (pos + 1 + 1)
      (by simp [htok, arrayPieces, Piece.token]) (by simp [hpos]) (by decide)
      (fun x hx => hds x (by simp [hx])) (by simp at hf ⊢; omega)
    unfold ParseJsonObject.arrayLoop
    rw [h0]
    simp only [ok_bind, ne_eq, List.cons.injEq, and_true, hsep, not_false_eq_true, if_true]
    rw [hnum]
    simp only [ok_bind, hlen, if_false, hrec]
    simp only [List.length_cons, List.map_cons, List.append_assoc, List.singleton_append]
    congr 2
    omega

theorem objectLoop_numbers (ms : List (List Char × List Char)) :
    ∀ (sep : Char) (tokens pre tail : List (Nat × Token))
      (acc : List (List Char × JsonObject)) (fuel init pos : Nat),
      tokens = pre ++ ((objectPieces sep ms ++ [Piece.op '}']).map Piece.token ++ tail) →
      pos = pre.length → sep ≠ '}' → (∀ m ∈ ms, intDigits m.2) → ms.length + 1 ≤ fuel →
      ParseJsonObject.objectLoop fuel tokens init pos acc =
        .ok (pos + 4 * ms.length - init + 1, .Object (insertMembers acc ms)) := by
  induction ms with
  | nil =>
    intro sep tokens pre tail acc fuel init pos htok hpos _ _ hf
    obtain ⟨f, rfl⟩ : ∃ f, fuel = f + 1 := ⟨fuel - 1, by simp at hf; omega⟩
    have h : tokAt tokens pos = .ok (1, ⟨.OPERATOR, ['}']⟩) :=
      tokAt_split (pre) (tail) (by simp [htok, objectPieces, Piece.token]) hpos
    unfold ParseJsonObject.objectLoop
    rw [h]
    simp [insertMembers]
  | cons m rest ih =>
    intro sep tokens pre tail acc fuel init pos htok hpos hsep hds hf
    obtain ⟨f, rfl⟩ : ∃ f, fuel = f + 1 := ⟨fuel - 1, by simp at hf; omega⟩
    obtain ⟨g, rfl⟩ : ∃ g, f = g + 1 := ⟨f - 1, by simp at hf; omega⟩
    obtain ⟨k, ds⟩ := m
    have hd : intDigits ds := hds (k, ds) (by simp)
    have h0 : tokAt tokens pos = .ok (1, ⟨.OPERATOR, [sep]⟩) :=
      tokAt_split (pre)
        ((k.length + 2, ⟨.STRING, k⟩) :: (1, ⟨.OPERATOR, [':']⟩) ::
          (ds.length, ⟨.NUMBER, ds⟩) ::
          ((objectPieces ',' rest ++ [Piece.op '}']).map Piece.token ++ tail))
        (by simp [htok, objectPieces, Piece.token]) hpos
    have h1 : tokAt tokens (pos + 1) = .ok (k.length + 2, ⟨.STRING, k⟩) :=
      tokAt_split (pre ++ [(1, ⟨.OPERATOR, [sep]⟩)])
        ((1, ⟨.OPERATOR, [':']⟩) :: (ds.length, ⟨.NUMBER, ds⟩) ::
          ((objectPieces ',' rest ++ [Piece.op '}']).map Piece.token ++ tail))
        (by simp [htok, objectPieces, Piece.token]) (by simp [hpos])
    have h2 : tokAt tokens (pos + 1 + 1) = .ok (1, ⟨.OPERATOR, [':']⟩) :=
      tokAt_split (pre ++ [(1, ⟨.OPERATOR, [sep]⟩), (k.length + 2, ⟨.STRING, k⟩)])
        ((ds.length, ⟨.NUMBER, ds⟩) ::
          ((objectPieces ',' rest ++ [Piece.op '}']).map Piece.token ++ tail))
        (by simp [htok, objectPieces, Piece.token]) (by simp [hpos])
    have h3 : tokAt tokens (pos + 1 + 1 + 1) = .ok (ds.length, ⟨.NUMBER, ds⟩) :=
      tokAt_split
        (pre ++ [(1, ⟨.OPERATOR, [sep]⟩), (k.length + 2, ⟨.STRING, k⟩),
          (1, ⟨.OPERATOR, [':']⟩)])
        ((objectPieces ',' rest ++ [Piece.op '}']).map Piece.token ++ tail)
        (by simp [htok, objectPieces, Piece.token]) (by simp [hpos])
    have hnum := ParseJsonObject_number g tokens (pos + 1 + 1 + 1) ds.length ds h3
      hd.1 hd.2.1 hd.2.2
    have hlen : ¬ tokens.length ≤ pos + 1 + 1 + 1 + 1 := by
      rw [htok, hpos]; simp [objectPieces]; omega
    have hrec := ih ',' tokens
      (pre ++ [(1, ⟨.OPERATOR, [sep]⟩), (k.length + 2, ⟨.STRING, k⟩),
        (1, ⟨.OPERATOR, [':']⟩), (ds.length, ⟨.NUMBER, ds⟩)]) tail
      (mapInsert k (.Integer (decVal ds)) acc) (g + 1) init (pos + 1 + 1 + 1 + 1)
      (by simp [htok, objectPieces, Piece.token]) (by simp [hpos]) (by decide)
      (fun x hx => hds x (by simp [hx])) (by simp at hf ⊢; omega)
    unfold ParseJsonObject.objectLoop
    rw [h0]
    simp only [ok_bind, ne_eq, List.cons.injEq, and_true, hsep, not_false_eq_true, if_true]
    rw [h1]
    simp only [ok_bind, ne_eq, not_true_eq_false, if_false]
    rw [h2]
    simp only [ok_bind, ne_eq, not_true_eq_false, if_false]
    rw [hnum]
    simp only [ok_bind, hlen, if_false, hrec]
    simp only [List.length_cons, insertMembers, List.foldl_cons]
    congr 2
    omega

theorem arrayPieces_length (dss : List (List Char)) :
    ∀ sep : Char, (arrayPieces sep dss).length = 2 * dss.length := by
  induction dss with
  | nil => intro sep; rfl
  | cons ds rest ih => intro sep; simp [arrayPieces, ih ',']; omega

theorem objectPieces_length (ms : List (List Char × List Char)) :
    ∀ sep : Char, (objectPieces sep ms).length = 4 * ms.length := by
  induction ms with
  | nil => intro sep; rfl
  | cons m rest ih => intro sep; simp [objectPieces, ih ',']; omega

theorem arrayPieces_ok (dss : List (List Char)) :
    ∀ sep : Char, sep ∈ operators → (∀ ds ∈ dss, intDigits ds) →
      piecesOk (arrayPieces sep dss ++ [Piece.op ']']) := by
  induction dss with
  | nil =>
    intro sep _ _
    simp [arrayPieces, piecesOk, Piece.wf, operators]
  | cons ds rest ih =>
    intro sep hsep hds
    have hd := hds ds (by simp)
    have hrec := ih ',' (by simp [operators]) (fun x hx => hds x (by simp [hx]))
    refine ⟨hsep, by simp [Piece.isNum], ⟨hd.1, hd.2.1⟩, ?_, hrec⟩
    intro _ q hq
    cases rest with
    | nil => simp [arrayPieces] at hq; subst hq; rfl
    | cons y ys => simp [arrayPieces] at hq; subst hq; rfl

theorem objectPieces_ok (ms : List (List Char × List Char)) :
    ∀ sep : Char, sep ∈ operators →
      (∀ m ∈ ms, (m.1 ≠ [] ∧ '"' ∉ m.1) ∧ intDigits m.2) →
      piecesOk (objectPieces sep ms ++ [Piece.op '}']) := by
  induction ms with
  | nil =>
    intro sep _ _
    simp [objectPieces, piecesOk, Piece.wf, operators]
  | cons m rest ih =>
    intro sep hsep hms
    have hm := hms m (by simp)
    have hrec := ih ',' (by simp [operators]) (fun x hx => hms x (by simp [hx]))
    refine ⟨hsep, by simp [Piece.isNum], hm.1, by simp [Piece.isNum], ?_,
      by simp [Piece.isNum], ⟨hm.2.1, hm.2.2.1⟩, ?_, hrec⟩
    · simp [Piece.wf, operators]
    · intro _ q hq
      cases rest with
      | nil => simp [objectPieces] at hq; subst hq; rfl
      | cons y ys => simp [objectPieces] at hq; subst hq; rfl

/-- A text that is one run of digits in `int` range parses to that Integer. -/
theorem ParseJsonString_digits (ds : List Char) (hd : intDigits ds) :
    ParseJsonString ds = .ok (.Integer (decVal ds)) := by
  have htok := TokenizeAll_pieces [Piece.num ds] (by simp)
    ⟨⟨hd.1, hd.2.1⟩, by simp, trivial⟩
  simp only [piecesText, List.append_nil, Piece.text, List.map_cons, List.map_nil,
    Piece.token] at htok
  have hp := ParseJsonObject_number (2 * 1 + 1) [(ds.length, ⟨.NUMBER, ds⟩)] 0 ds.length ds
    rfl hd.1 hd.2.1 hd.2.2
  unfold ParseJsonString
  rw [htok]
  simp only [ok_bind, Parse, List.length_singleton]
  rw [hp]
  rfl

/-- The text of an array of numbers parses to the Array of their values, in
the order of the text. -/
theorem ParseJsonString_arrayPieces (dss : List (List Char)) (hne : dss ≠ [])
    (hds : ∀ ds ∈ dss, intDigits ds) :
    ParseJsonString (piecesText (arrayPieces '[' dss ++ [Piece.op ']'])) =
      .ok (.Array (dss.map (fun ds => .Integer (decVal ds)))) := by
  obtain ⟨d, rest, rfl⟩ := List.exists_cons_of_ne_nil hne
  have htok := TokenizeAll_pieces (arrayPieces '[' (d :: rest) ++ [Piece.op ']'])
    (by simp [arrayPieces]) (arrayPieces_ok (d :: rest) '[' (by simp [operators]) hds)
  generalize htoks : (arrayPieces '[' (d :: rest) ++ [Piece.op ']']).map Piece.token = tokens
    at htok
  have h0 : tokAt tokens 0 = .ok (1, ⟨.OPERATOR, ['[']⟩) :=
    tokAt_split ([])
      ((d.length, ⟨.NUMBER, d⟩) ::
        (arrayPieces ',' rest ++ [Piece.op ']']).map Piece.token)
      (by simp [← htoks, arrayPieces, Piece.token]) rfl
  have hloop := arrayLoop_numbers (d :: rest) '[' tokens [] [] [] (2 * tokens.length + 1) 0 0
    (by simp [← htoks]) rfl (by decide) hds
    (by rw [← htoks]; simp [arrayPieces_length]; omega)
  unfold ParseJsonString
  rw [htok]
  simp only [ok_bind, Parse]
  unfold ParseJsonObject
  rw [h0]
  simp only [ok_bind]
  rw [if_neg (by decide), if_neg (by decide), if_neg (by decide), if_pos (by decide), hloop]
  simp

/-- The text of an object of numbers parses to the Object obtained by
inserting the members in the order of the text. -/
theorem ParseJsonString_objectPieces (ms : List (List Char × List Char)) (hne : ms ≠ [])
    (hms : ∀ m ∈ ms, (m.1 ≠ [] ∧ '"' ∉ m.1) ∧ intDigits m.2) :
    ParseJsonString (piecesText (objectPieces '{' ms ++ [Piece.op '}'])) =
      .ok (.Object (insertMembers [] ms)) := by
  obtain ⟨m, rest, rfl⟩ := List.exists_cons_of_ne_nil hne
  have htok := TokenizeAll_pieces (objectPieces '{' (m :: rest) ++ [Piece.op '}'])
    (by simp [objectPieces]) (objectPieces_ok (m :: rest) '{' (by simp [operators]) hms)
  generalize htoks : (objectPieces '{' (m :: rest) ++ [Piece.op '}']).map Piece.token = tokens
    at htok
  have h0 : tokAt tokens 0 = .ok (1, ⟨.OPERATOR, ['{']⟩) :=
    tokAt_split ([])
      ((m.1.length + 2, ⟨.STRING, m.1⟩) :: (1, ⟨.OPERATOR, [':']⟩) ::
        (m.2.length, ⟨.NUMBER, m.2⟩) ::
        (objectPieces ',' rest ++ [Piece.op '}']).map Piece.token)
      (by simp [← htoks, objectPieces, Piece.token]) rfl
  have hloop := objectLoop_numbers (m :: rest) '{' tokens [] [] [] (2 * tokens.length + 1) 0 0
    (by simp [← htoks]) rfl (by decide) (fun x hx => (hms x hx).2)
    (by rw [← htoks]; simp [objectPieces_length]; omega)
  unfold ParseJsonString
  rw [htok]
  simp only [ok_bind, Parse]
  unfold ParseJsonObject
  rw [h0]
  simp only [ok_bind]
  rw [if_neg (by decide), if_neg (by decide), if_pos (by decide), hloop]
  simp

/-! ## Decimal renderings and the texts of the claims -/

theorem digitChar_facts (k : Nat) (hk : k < 10) :
    isdigit (Nat.digitChar k) = true ∧ (Nat.digitChar k).toNat - 48 = k := by
  interval_cases k <;> decide

theorem toDigitsCore_spec (fuel : Nat) :
    ∀ (n : Nat) (acc : List Char), n < fuel →
      ∃ xs, Nat.toDigitsCore 10 fuel n acc = xs ++ acc ∧ xs ≠ [] ∧
        (∀ c ∈ xs, isdigit c = true) ∧ decVal xs = n := by
  induction fuel with
  | zero => intro n acc h; omega
  | succ f ih =>
    intro n acc hn
    have hd := digitChar_facts (n % 10) (Nat.mod_lt _ (by decide))
    unfold Nat.toDigitsCore
    by_cases h0 : n / 10 = 0
    · refine ⟨[Nat.digitChar (n % 10)], by simp [h0], by simp, by simpa using hd.1, ?_⟩
      simp only [decVal, List.foldl_cons, List.foldl_nil, hd.2]
      omega
    · obtain ⟨xs, hxs, hne, hdig, hval⟩ := ih (n / 10) (Nat.digitChar (n % 10) :: acc)
        (by omega)
      refine ⟨xs ++ [Nat.digitChar (n % 10)], by simp [h0, hxs], by simp, ?_, ?_⟩
      · intro c hc
        rcases List.mem_append.mp hc with h | h
        · exact hdig c h
        · simp only [List.mem_singleton] at h; subst h; exact hd.1
      · rw [decVal_append_singleton, hval, hd.2]
        omega

/-- The decimal rendering is a non-empty run of digits with the value of the
number. -/
theorem decimal_spec (n : Nat) :
    decimal n ≠ [] ∧ (∀ c ∈ decimal n, isdigit c = true) ∧ decVal (decimal n) = n := by
  obtain ⟨xs, hxs, hne, hdig, hval⟩ := toDigitsCore_spec (n + 1) n [] (by omega)
  have h : decimal n = xs := by simpa [decimal, Nat.toDigits] using hxs
  rw [h]
  exact ⟨hne, hdig, hval⟩

theorem decimal_intDigits (n : Nat) (hn : n ≤ 2147483647) : intDigits (decimal n) := by
  obtain ⟨h1, h2, h3⟩ := decimal_spec n
  exact ⟨h1, h2, by rw [h3]; exact hn⟩

theorem piecesText_append (ps qs : List Piece) :
    piecesText (ps ++ qs) = piecesText ps ++ piecesText qs := by
  induction ps with
  | nil => rfl
  | cons p rest ih => simp [piecesText, ih]

theorem piecesText_arrayPieces (dss : List (List Char)) :
    ∀ sep : Char, dss ≠ [] →
      piecesText (arrayPieces sep dss) = sep :: List.intercalate [','] dss := by
  induction dss with
  | nil => intro _ h; exact absurd rfl h
  | cons d rest ih =>
    intro sep _
    cases rest with
    | nil => simp [arrayPieces, piecesText, Piece.text, List.intercalate]
    | cons y ys =>
      have h := ih ',' (by simp)
      simp only [arrayPieces, piecesText, Piece.text] at h ⊢
      rw [h]
      simp [List.intercalate, List.intersperse]

theorem arrayText_eq (ns : List Nat) (hne : ns ≠ []) :
    arrayText ns = piecesText (arrayPieces '[' (ns.map decimal) ++ [Piece.op ']']) := by
  rw [piecesText_append, piecesText_arrayPieces _ _ (by simpa using hne)]
  simp [arrayText, piecesText, Piece.text]

theorem piecesText_objectPieces (ms : List (List Char × Nat)) :
    ∀ sep : Char, ms ≠ [] →
      piecesText (objectPieces sep (ms.map memberDigits)) =
        sep :: List.intercalate [','] (ms.map memberText) := by
  induction ms with
  | nil => intro _ h; exact absurd rfl h
  | cons m rest ih =>
    intro sep _
    cases rest with
    | nil =>
      simp [objectPieces, piecesText, Piece.text, List.intercalate, memberText, memberDigits]
    | cons y ys =>
      have h := ih ',' (by simp)
      simp only [List.map_cons, objectPieces, piecesText, Piece.text] at h ⊢
      rw [h]
      simp [List.intercalate, List.intersperse, memberText, memberDigits]

theorem objectText_eq (ms : List (List Char × Nat)) (hne : ms ≠ []) :
    objectText ms =
      piecesText (objectPieces '{' (ms.map memberDigits) ++ [Piece.op '}']) := by
  rw [piecesText_append, piecesText_objectPieces _ _ hne]
  simp [objectText, piecesText, Piece.text]

/-! ## The map: keys stay in ascending order, entries are never replaced -/

theorem mem_mapKeys_mapInsert (k : List Char) (v : JsonObject)
    (m : List (List Char × JsonObject)) (x : List Char) :
    x ∈ mapKeys (mapInsert k v m) ↔ x = k ∨ x ∈ mapKeys m := by
  induction m with
  | nil => simp [mapInsert, mapKeys]
  | cons e rest ih =>
    unfold mapInsert
    by_cases h1 : k < e.1
    · simp [h1, mapKeys]
    · by_cases h2 : e.1 < k
      · simp only [h1, h2, if_false, if_true]
        simp only [mapKeys, List.map_cons, List.mem_cons] at ih ⊢
        rw [ih]
        tauto
      · have hk : k = e.1 := by
          rcases lt_trichotomy k e.1 with h | h | h
          · exact absurd h h1
          · exact h
          · exact absurd h h2
        simp only [h1, h2, if_false, mapKeys, List.map_cons, List.mem_cons]
        constructor
        · intro h; exact Or.inr h
        · rintro (h | h)
          · exact Or.inl (h.trans hk)
          · exact h

theorem mapInsert_sorted (k : List Char) (v : JsonObject)
    (m : List (List Char × JsonObject)) (hs : (mapKeys m).Pairwise (· < ·)) :
    (mapKeys (mapInsert k v m)).Pairwise (· < ·) := by
  induction m with
  | nil => simp [mapInsert, mapKeys]
  | cons e rest ih =>
    have hs' : (∀ y ∈ mapKeys rest, e.1 < y) ∧ (mapKeys rest).Pairwise (· < ·) := by
      simpa [mapKeys] using hs
    unfold mapInsert
    by_cases h1 : k < e.1
    · simp only [h1, if_true, mapKeys, List.map_cons, List.pairwise_cons]
      refine ⟨?_, ?_, hs'.2⟩
      · intro y hy
        rcases List.mem_cons.mp hy with h | h
        · rw [h]; exact h1
        · exact lt_trans h1 (hs'.1 y h)
      · exact hs'.1
    · by_cases h2 : e.1 < k
      · simp only [h1, h2, if_false, if_true]
        have hrec := ih hs'.2
        have hmem := mem_mapKeys_mapInsert k v rest
        simp only [mapKeys, List.map_cons, List.pairwise_cons] at hrec hmem ⊢
        refine ⟨?_, hrec⟩
        intro y hy
        rcases (hmem y).mp hy with h | h
        · rw [h]; exact h2
        · exact hs'.1 y h
      · simp only [h1, h2, if_false]; exact hs

theorem mem_mapInsert_of_mem (k : List Char) (v : JsonObject)
    (m : List (List Char × JsonObject)) (e : List Char × JsonObject) (he : e ∈ m) :
    e ∈ mapInsert k v m := by
  induction m with
  | nil => simp at he
  | cons a rest ih =>
    unfold mapInsert
    by_cases h1 : k < a.1
    · simp only [h1, if_true]; exact List.mem_cons_of_mem _ he
    · by_cases h2 : a.1 < k
      · simp only [h1, h2, if_false, if_true]
        rcases List.mem_cons.mp he with h | h
        · rw [h]; exact List.mem_cons_self _ _
        · exact List.mem_cons_of_mem _ (ih h)
      · simp only [h1, h2, if_false]; exact he

theorem insertMembers_sorted (ms : List (List Char × List Char)) :
    ∀ acc : List (List Char × JsonObject), (mapKeys acc).Pairwise (· < ·) →
      (mapKeys (insertMembers acc ms)).Pairwise (· < ·) := by
  induction ms with
  | nil => intro acc h; exact h
  | cons m rest ih =>
    intro acc h
    exact ih _ (mapInsert_sorted m.1 _ acc h)

theorem mem_mapKeys_insertMembers (ms : List (List Char × List Char)) :
    ∀ (acc : List (List Char × JsonObject)) (x : List Char),
      x ∈ mapKeys (insertMembers acc ms) ↔ x ∈ mapKeys acc ∨ x ∈ ms.map Prod.fst := by
  induction ms with
  | nil => intro acc x; simp [insertMembers]
  | cons m rest ih =>
    intro acc x
    have h := ih (mapInsert m.1 (.Integer (decVal m.2)) acc) x
    simp only [insertMembers, List.foldl_cons] at h ⊢
    rw [h, mem_mapKeys_mapInsert]
    simp only [List.map_cons, List.mem_cons]
    tauto

theorem mem_insertMembers_of_mem (ms : List (List Char × List Char)) :
    ∀ (acc : List (List Char × JsonObject)) (e : List Char × JsonObject),
      e ∈ acc → e ∈ insertMembers acc ms := by
  induction ms with
  | nil => intro acc e h; exact h
  | cons m rest ih =>
    intro acc e h
    exact ih _ e (mem_mapInsert_of_mem m.1 _ acc e h)

theorem pairwise_lt_nodup (l : List (List Char)) (h : l.Pairwise (· < ·)) : l.Nodup :=
  h.imp (fun hab => ne_of_lt hab)

/-! ## Tokens after a parsed value are never looked at -/

theorem bind_eq_ok {α β : Type} {x : Except Fault α} {f : α → Except Fault β} {r : β}
    (h : (x >>= f) = .ok r) : ∃ a, x = .ok a ∧ f a = .ok r := by
  cases x with
  | error e => cases h
  | ok a => exact ⟨a, rfl, h⟩

theorem tokAt_append {tokens : List (Nat × Token)} {pos : Nat} {t : Nat × Token}
    (extra : List (Nat × Token)) (h : tokAt tokens pos = .ok t) :
    tokAt (tokens ++ extra) pos = .ok t := by
  unfold tokAt at h ⊢
  cases hg : tokens[pos]? with
  | none => rw [hg] at h; cases h
  | some a =>
    rw [hg] at h
    have hlt : pos < tokens.length := (List.getElem?_eq_some_iff.mp hg).1
    rw [List.getElem?_append_left hlt, hg]
    exact h

/-- A successful run stays the same when the fuel grows and when tokens are
appended to the sequence. -/
theorem parse_frame (fuel : Nat) :
    (∀ (tokens extra : List (Nat × Token)) (pos fuel' : Nat) (r : Nat × JsonObject),
      fuel ≤ fuel' → ParseJsonObject fuel tokens pos = .ok r →
      ParseJsonObject fuel' (tokens ++ extra) pos = .ok r) ∧
    (∀ (tokens extra : List (Nat × Token)) (init pos fuel' : Nat)
      (acc : List (List Char × JsonObject)) (r : Nat × JsonObject),
      fuel ≤ fuel' → ParseJsonObject.objectLoop fuel tokens init pos acc = .ok r →
      ParseJsonObject.objectLoop fuel' (tokens ++ extra) init pos acc = .ok r) ∧
    (∀ (tokens extra : List (Nat × Token)) (init pos fuel' : Nat)
      (acc : List JsonObject) (r : Nat × JsonObject),
      fuel ≤ fuel' → ParseJsonObject.arrayLoop fuel tokens init pos acc = .ok r →
      ParseJsonObject.arrayLoop fuel' (tokens ++ extra) init pos acc = .ok r) := by
  induction fuel with
  | zero =>
    refine ⟨?_, ?_, ?_⟩
    · intro tokens extra pos fuel' r _ h; unfold ParseJsonObject at h; cases h
    · intro tokens extra init pos fuel' acc r _ h
      unfold ParseJsonObject.objectLoop at h; cases h
    · intro tokens extra init pos fuel' acc r _ h
      unfold ParseJsonObject.arrayLoop at h; cases h
  | succ f ih =>
    obtain ⟨ihP, ihO, ihA⟩ := ih
    refine ⟨?_, ?_, ?_⟩
    · intro tokens extra pos fuel' r hf h
      obtain ⟨g, rfl⟩ : ∃ g, fuel' = g + 1 := ⟨fuel' - 1, by omega⟩
      have hfg : f ≤ g := by omega
      unfold ParseJsonObject at h ⊢
      obtain ⟨t, ht, h⟩ := bind_eq_ok h
      rw [tokAt_append extra ht]
      simp only [ok_bind] at h ⊢
      split_ifs at h ⊢
      · exact h
      · exact h
      · exact ihO tokens extra pos pos g [] r hfg h
      · exact ihA tokens extra pos pos g [] r hfg h
    · intro tokens extra init pos fuel' acc r hf h
      obtain ⟨g, rfl⟩ : ∃ g, fuel' = g + 1 := ⟨fuel' - 1, by omega⟩
      have hfg : f ≤ g := by omega
      unfold ParseJsonObject.objectLoop at h ⊢
      obtain ⟨t, ht, h⟩ := bind_eq_ok h
      rw [tokAt_append extra ht]
      simp only [ok_bind] at h ⊢
      by_cases hclose : t.2.value ≠ ['}']
      · rw [if_pos hclose] at h ⊢
        obtain ⟨key, hkey, h⟩ := bind_eq_ok h
        rw [tokAt_append extra hkey]
        simp only [ok_bind] at h ⊢
        by_cases hk : key.2.type ≠ .STRING
        · rw [if_pos hk] at h; cases h
        · rw [if_neg hk] at h ⊢
          obtain ⟨sep, hsep, h⟩ := bind_eq_ok h
          rw [tokAt_append extra hsep]
          simp only [ok_bind] at h ⊢
          by_cases hs : sep.2.type ≠ .OPERATOR
          · rw [if_pos hs] at h; cases h
          · rw [if_neg hs] at h ⊢
            obtain ⟨cur, hcur, h⟩ := bind_eq_ok h
            rw [ihP tokens extra _ g cur hfg hcur]
            simp only [ok_bind] at h ⊢
            by_cases hlen : tokens.length ≤ pos + 1 + 1 + 1 + cur.1
            · rw [if_pos hlen] at h; cases h
            · have hlen' : ¬ (tokens ++ extra).length ≤ pos + 1 + 1 + 1 + cur.1 := by
                simp only [List.length_append]; omega
              rw [if_neg hlen] at h
              rw [if_neg hlen']
              exact ihO tokens extra init _ g _ r hfg h
      · rw [if_neg hclose] at h ⊢
        exact h
    · intro tokens extra init pos fuel' acc r hf h
      obtain ⟨g, rfl⟩ : ∃ g, fuel' = g + 1 := ⟨fuel' - 1, by omega⟩
      have hfg : f ≤ g := by omega
      unfold ParseJsonObject.arrayLoop at h ⊢
      obtain ⟨t, ht, h⟩ := bind_eq_ok h
      rw [tokAt_append extra ht]
      simp only [ok_bind] at h ⊢
      by_cases hclose : t.2.value ≠ [']']
      · rw [if_pos hclose] at h ⊢
        obtain ⟨cur, hcur, h⟩ := bind_eq_ok h
        rw [ihP tokens extra _ g cur hfg hcur]
        simp only [ok_bind] at h ⊢
        by_cases hlen : tokens.length ≤ pos + 1 + cur.1
        · rw [if_pos hlen] at h; cases h
        · have hlen' : ¬ (tokens ++ extra).length ≤ pos + 1 + cur.1 := by
            simp only [List.length_append]; omega
          rw [if_neg hlen] at h
          rw [if_neg hlen']
          exact ihA tokens extra init _ g _ r hfg h
      · rw [if_neg hclose] at h ⊢
        exact h

/-- When `Parse` returns a value on a token sequence, it returns the same
value on every sequence that extends it. -/
theorem Parse_append (tokens extra : List (Nat × Token)) (v : JsonObject)
    (h : Parse tokens = .ok v) : Parse (tokens ++ extra) = .ok v := by
  unfold Parse at h ⊢
  obtain ⟨r, hr, h⟩ := bind_eq_ok h
  rw [(parse_frame _).1 tokens extra 0 (2 * (tokens ++ extra).length + 2) r
    (by simp only [List.length_append]; omega) hr]
  exact h

/-! ## The documents of the claims -/

/-- The text of an array of numbers in `int` range parses to the Array of
the numbers. -/
theorem ParseJsonString_arrayText (ns : List Nat) (hne : ns ≠ [])
    (hr : ∀ n ∈ ns, n ≤ 2147483647) :
    ParseJsonString (arrayText ns) =
      .ok (.Array (ns.map (fun n : Nat => JsonObject.Integer (n : Int)))) := by
  have h := ParseJsonString_arrayPieces (ns.map decimal) (by simpa using hne)
    (by
      intro ds hds
      obtain ⟨n, hn, rfl⟩ := List.mem_map.mp hds
      exact decimal_intDigits n (hr n hn))
  rw [← arrayText_eq ns hne] at h
  rw [h]
  simp [List.map_map, Function.comp_def, (decimal_spec _).2.2]

/-- The text of an object of numbers in `int` range parses to the Object
that results from inserting its members in the order of the text. -/
theorem ParseJsonString_objectText (ms : List (List Char × Nat)) (hne : ms ≠ [])
    (hk : ∀ m ∈ ms, m.1 ≠ [] ∧ '"' ∉ m.1) (hn : ∀ m ∈ ms, m.2 ≤ 2147483647) :
    ParseJsonString (objectText ms) =
      .ok (.Object (insertMembers [] (ms.map memberDigits))) := by
  have h := ParseJsonString_objectPieces (ms.map memberDigits) (by simpa using hne)
    (by
      intro m hm
      obtain ⟨x, hx, rfl⟩ := List.mem_map.mp hm
      exact ⟨hk x hx, decimal_intDigits x.2 (hn x hx)⟩)
  rw [← objectText_eq ms hne] at h
  exact h

theorem map_fst_memberDigits (ms : List (List Char × Nat)) :
    (ms.map memberDigits).map Prod.fst = ms.map Prod.fst := by
  simp [List.map_map, Function.comp_def, memberDigits]

/-! ## The fuel is never used up

Every loop moves its position forward, so the fuel that `TokenizeString`,
`TokenizeNumber`, `TokenizeAll` and `Parse` hand to their loops is enough on
every input: no call ends in `Fault.fuel`. -/

theorem bind_ne_fuel {α β : Type} {x : Except Fault α} {f : α → Except Fault β}
    (hx : x ≠ .error .fuel) (hf : ∀ a, x = .ok a → f a ≠ .error .fuel) :
    (x >>= f) ≠ .error .fuel := by
  cases x with
  | error e =>
    intro h
    apply hx
    simpa using h
  | ok a => simpa using hf a rfl

theorem charAt_ne_fuel (src : List Char) (pos : Nat) : charAt src pos ≠ .error .fuel := by
  unfold charAt
  split
  · simp
  · split <;> simp

theorem substr_ne_fuel (src : List Char) (pos n : Nat) : substr src pos n ≠ .error .fuel := by
  unfold substr
  split <;> simp

theorem tokAt_ne_fuel (tokens : List (Nat × Token)) (pos : Nat) :
    tokAt tokens pos ≠ .error .fuel := by
  unfold tokAt
  split <;> simp

theorem stoi_ne_fuel (s : List Char) : stoi s ≠ .error .fuel := by
  intro h
  unfold stoi at h
  simp only at h
  split_ifs at h <;> simp at h

theorem TokenizeString_scan_ne_fuel (src : List Char) (fuel : Nat) :
    ∀ lenght pos : Nat, 1 ≤ fuel → src.length ≤ pos + fuel →
      TokenizeString.scan src fuel lenght pos ≠ .error .fuel := by
  induction fuel with
  | zero => intro _ _ h; omega
  | succ f ih =>
    intro lenght pos _ hlen
    unfold TokenizeString.scan
    simp only
    split
    · refine bind_ne_fuel (charAt_ne_fuel _ _) ?_
      intro c _
      split
      · exact ih _ _ (by omega) (by omega)
      · simp
    · simp

theorem TokenizeNumber_scan_ne_fuel (src : List Char) (fuel : Nat) :
    ∀ length pos : Nat, 1 ≤ fuel → src.length ≤ pos + fuel →
      TokenizeNumber.scan src fuel length pos ≠ .error .fuel := by
  induction fuel with
  | zero => intro _ _ h; omega
  | succ f ih =>
    intro length pos _ hlen
    unfold TokenizeNumber.scan
    refine bind_ne_fuel (charAt_ne_fuel _ _) ?_
    intro c _
    split
    · simp only
      split
      · simp
      · exact ih _ _ (by omega) (by omega)
    · simp

theorem TokenizeString_ne_fuel (src : List Char) (pos : Nat) :
    TokenizeString src pos ≠ .error .fuel := by
  unfold TokenizeString
  refine bind_ne_fuel (charAt_ne_fuel _ _) ?_
  intro c _
  split
  · refine bind_ne_fuel (TokenizeString_scan_ne_fuel src _ _ _ (by omega) (by omega)) ?_
    intro r _
    refine bind_ne_fuel (charAt_ne_fuel _ _) ?_
    intro c' _
    split
    · simp
    · exact bind_ne_fuel (substr_ne_fuel _ _ _) (fun _ _ => by simp)
  · simp

theorem TokenizeNumber_ne_fuel (src : List Char) (pos : Nat) :
    TokenizeNumber src pos ≠ .error .fuel := by
  unfold TokenizeNumber
  refine bind_ne_fuel (TokenizeNumber_scan_ne_fuel src _ _ _ (by omega) (by omega)) ?_
  intro r _
  exact bind_ne_fuel (substr_ne_fuel _ _ _) (fun _ _ => by simp)

theorem TokenizeBool_ne_fuel (src : List Char) (pos : Nat) :
    TokenizeBool src pos ≠ .error .fuel := by
  unfold TokenizeBool
  refine bind_ne_fuel (substr_ne_fuel _ _ _) ?_
  intro s4 _
  split
  · simp
  · refine bind_ne_fuel (substr_ne_fuel _ _ _) ?_
    intro s5 _
    split <;> simp

theorem TokenizeNull_ne_fuel (src : List Char) (pos : Nat) :
    TokenizeNull src pos ≠ .error .fuel := by
  unfold TokenizeNull
  refine bind_ne_fuel (substr_ne_fuel _ _ _) ?_
  intro s4 _
  split <;> simp

theorem TokenizeOperator_ne_fuel (src : List Char) (pos : Nat) :
    TokenizeOperator src pos ≠ .error .fuel := by
  unfold TokenizeOperator
  refine bind_ne_fuel (charAt_ne_fuel _ _) ?_
  intro c _
  split <;> simp

theorem Tokenize_run_ne_fuel (src : List Char) (pos : Nat)
    (ts : List (List Char → Nat → Except Fault (Nat × Token)))
    (hts : ∀ t ∈ ts, t src pos ≠ .error .fuel) :
    ∀ r, Tokenize.run src pos ts r ≠ .error .fuel := by
  induction ts with
  | nil => intro r; simp [Tokenize.run]
  | cons t rest ih =>
    intro r
    unfold Tokenize.run
    refine bind_ne_fuel (hts t (by simp)) ?_
    intro r' _
    split
    · simp
    · exact ih (fun t' ht' => hts t' (by simp [ht'])) r'

theorem Tokenize_ne_fuel (src : List Char) (pos : Nat) : Tokenize src pos ≠ .error .fuel := by
  unfold Tokenize
  refine bind_ne_fuel (Tokenize_run_ne_fuel src pos tokenizers ?_ _) ?_
  · intro t ht
    simp only [tokenizers, List.mem_cons, List.mem_singleton, List.not_mem_nil, or_false] at ht
    rcases ht with rfl | rfl | rfl | rfl | rfl
    · exact TokenizeString_ne_fuel src pos
    · exact TokenizeNumber_ne_fuel src pos
    · exact TokenizeBool_ne_fuel src pos
    · exact TokenizeNull_ne_fuel src pos
    · exact TokenizeOperator_ne_fuel src pos
  · intro r _
    split
    · exact bind_ne_fuel (charAt_ne_fuel _ _) (fun _ _ => by simp)
    · simp

/-- The token that `Tokenize` returns has a consumed length of at least 1. -/
theorem Tokenize_consumed_pos (src : List Char) (pos : Nat) (r : Nat × Token)
    (h : Tokenize src pos = .ok r) : 1 ≤ r.1 := by
  unfold Tokenize at h
  obtain ⟨r0, _, h⟩ := bind_eq_ok h
  split at h
  · obtain ⟨c, _, h⟩ := bind_eq_ok h
    simp only [Except.ok.injEq] at h
    rw [← h]
    simp
  · simp only [Except.ok.injEq] at h
    rw [← h]
    omega

theorem TokenizeAll_skip_spec (src : List Char) (fuel : Nat) :
    ∀ pos : Nat, 1 ≤ fuel → src.length + 1 ≤ pos + fuel →
      TokenizeAll.skip src fuel pos ≠ .error .fuel ∧
      ∀ p, TokenizeAll.skip src fuel pos = .ok p → pos ≤ p := by
  induction fuel with
  | zero => intro _ h; omega
  | succ f ih =>
    intro pos _ hlen
    unfold TokenizeAll.skip
    cases hc : charAt src pos with
    | error e =>
      have := charAt_ne_fuel src pos
      rw [hc] at this
      exact ⟨by simpa using this, by intro p hp; simp at hp⟩
    | ok c =>
      simp only [ok_bind]
      split
      · have hlt : pos < src.length := by
          by_contra hge
          have hnone : src[pos]? = none := List.getElem?_eq_none (by omega)
          unfold charAt at hc
          rw [hnone] at hc
          simp only at hc
          split at hc
          · simp only [Except.ok.injEq] at hc
            subst hc
            rename_i hws
            revert hws
            decide
          · cases hc
        obtain ⟨h1, h2⟩ := ih (pos + 1) (by omega) (by omega)
        exact ⟨h1, fun p hp => by have := h2 p hp; omega⟩
      · exact ⟨by simp, by intro p hp; simp at hp; omega⟩

theorem TokenizeAll_loop_ne_fuel (src : List Char) (fuel : Nat) :
    ∀ (pos : Nat) (tokens : List (Nat × Token)), 1 ≤ fuel → src.length ≤ pos + fuel →
      TokenizeAll.loop src fuel pos tokens ≠ .error .fuel := by
  induction fuel with
  | zero => intro _ _ h; omega
  | succ f ih =>
    intro pos tokens _ hlen
    obtain ⟨hs1, hs2⟩ := TokenizeAll_skip_spec src (src.length + 1) pos (by omega) (by omega)
    unfold TokenizeAll.loop
    refine bind_ne_fuel hs1 ?_
    intro p hp
    refine bind_ne_fuel (Tokenize_ne_fuel _ _) ?_
    intro r hr
    have h1 := hs2 p hp
    have h2 := Tokenize_consumed_pos src p r hr
    simp only
    split
    · exact ih _ _ (by omega) (by omega)
    · simp

/-- The tokenizer of the model never runs out of fuel. -/
theorem TokenizeAll_ne_fuel (src : List Char) : TokenizeAll src ≠ .error .fuel :=
  TokenizeAll_loop_ne_fuel src _ 0 [] (by omega) (by omega)

theorem tokAt_ok_lt {tokens : List (Nat × Token)} {pos : Nat} {t : Nat × Token}
    (h : tokAt tokens pos = .ok t) : pos < tokens.length := by
  unfold tokAt at h
  cases hg : tokens[pos]? with
  | none => rw [hg] at h; cases h
  | some a => exact (List.getElem?_eq_some_iff.mp hg).1

/-- A successful call reports at least one consumed token. -/
theorem parse_consumed_pos (fuel : Nat) :
    (∀ (tokens : List (Nat × Token)) (pos : Nat) (r : Nat × JsonObject),
      ParseJsonObject fuel tokens pos = .ok r → 1 ≤ r.1) ∧
    (∀ (tokens : List (Nat × Token)) (init pos : Nat)
      (acc : List (List Char × JsonObject)) (r : Nat × JsonObject),
      ParseJsonObject.objectLoop fuel tokens init pos acc = .ok r → 1 ≤ r.1) ∧
    (∀ (tokens : List (Nat × Token)) (init pos : Nat) (acc : List JsonObject)
      (r : Nat × JsonObject),
      ParseJsonObject.arrayLoop fuel tokens init pos acc = .ok r → 1 ≤ r.1) := by
  induction fuel with
  | zero =>
    refine ⟨?_, ?_, ?_⟩
    · intro tokens pos r h; unfold ParseJsonObject at h; cases h
    · intro tokens init pos acc r h; unfold ParseJsonObject.objectLoop at h; cases h
    · intro tokens init pos acc r h; unfold ParseJsonObject.arrayLoop at h; cases h
  | succ f ih =>
    obtain ⟨ihP, ihO, ihA⟩ := ih
    refine ⟨?_, ?_, ?_⟩
    · intro tokens pos r h
      unfold ParseJsonObject at h
      obtain ⟨t, _, h⟩ := bind_eq_ok h
      split_ifs at h
      · simp only [Except.ok.injEq] at h; rw [← h]
      · obtain ⟨i, _, h⟩ := bind_eq_ok h
        simp only [Except.ok.injEq] at h; rw [← h]
      · exact ihO _ _ _ _ r h
      · exact ihA _ _ _ _ r h
    · intro tokens init pos acc r h
      unfold ParseJsonObject.objectLoop at h
      obtain ⟨t, _, h⟩ := bind_eq_ok h
      split_ifs at h
      · obtain ⟨key, _, h⟩ := bind_eq_ok h
        split_ifs at h
        obtain ⟨sep, _, h⟩ := bind_eq_ok h
        split_ifs at h
        obtain ⟨cur, _, h⟩ := bind_eq_ok h
        simp only at h
        split_ifs at h
        exact ihO _ _ _ _ r h
      · simp only [Except.ok.injEq] at h; rw [← h]; simp
    · intro tokens init pos acc r h
      unfold ParseJsonObject.arrayLoop at h
      obtain ⟨t, _, h⟩ := bind_eq_ok h
      split_ifs at h
      · obtain ⟨cur, _, h⟩ := bind_eq_ok h
        simp only at h
        split_ifs at h
        exact ihA _ _ _ _ r h
      · simp only [Except.ok.injEq] at h; rw [← h]; simp

/-- With a fuel of twice the number of tokens from the position on, plus
one, the parser does not run out of fuel. -/
theorem parse_ne_fuel (fuel : Nat) :
    (∀ (tokens : List (Nat × Token)) (pos : Nat),
      2 * (tokens.length - pos) + 1 ≤ fuel →
      ParseJsonObject fuel tokens pos ≠ .error .fuel) ∧
    (∀ (tokens : List (Nat × Token)) (init pos : Nat)
      (acc : List (List Char × JsonObject)),
      pos < tokens.length → 2 * (tokens.length - pos) ≤ fuel →
      ParseJsonObject.objectLoop fuel tokens init pos acc ≠ .error .fuel) ∧
    (∀ (tokens : List (Nat × Token)) (init pos : Nat) (acc : List JsonObject),
      pos < tokens.length → 2 * (tokens.length - pos) ≤ fuel →
      ParseJsonObject.arrayLoop fuel tokens init pos acc ≠ .error .fuel) := by
  induction fuel with
  | zero =>
    refine ⟨?_, ?_, ?_⟩
    · intro tokens pos h; omega
    · intro tokens init pos acc h1 h2; omega
    · intro tokens init pos acc h1 h2; omega
  | succ f ih =>
    obtain ⟨ihP, ihO, ihA⟩ := ih
    refine ⟨?_, ?_, ?_⟩
    · intro tokens pos hf
      unfold ParseJsonObject
      refine bind_ne_fuel (tokAt_ne_fuel _ _) ?_
      intro t ht
      have hlt := tokAt_ok_lt ht
      split_ifs
      · simp
      · exact bind_ne_fuel (stoi_ne_fuel _) (fun _ _ => by simp)
      · exact ihO _ _ _ _ hlt (by omega)
      · exact ihA _ _ _ _ hlt (by omega)
      · simp
    · intro tokens init pos acc hlt hf
      unfold ParseJsonObject.objectLoop
      refine bind_ne_fuel (tokAt_ne_fuel _ _) ?_
      intro t _
      split_ifs
      · refine bind_ne_fuel (tokAt_ne_fuel _ _) ?_
        intro key _
        split_ifs
        · simp
        · refine bind_ne_fuel (tokAt_ne_fuel _ _) ?_
          intro sep _
          split_ifs
          · simp
          · refine bind_ne_fuel (ihP _ _ (by omega)) ?_
            intro cur hcur
            have hpos := (parse_consumed_pos f).1 _ _ _ hcur
            simp only
            split_ifs with hlen
            · simp
            · exact ihO _ _ _ _ (by omega) (by omega)
      · simp
    · intro tokens init pos acc hlt hf
      unfold ParseJsonObject.arrayLoop
      refine bind_ne_fuel (tokAt_ne_fuel _ _) ?_
      intro t _
      split_ifs
      · refine bind_ne_fuel (ihP _ _ (by omega)) ?_
        intro cur hcur
        have hpos := (parse_consumed_pos f).1 _ _ _ hcur
        simp only
        split_ifs with hlen
        · simp
        · exact ihA _ _ _ _ (by omega) (by omega)
      · simp

/-- The parser of the model never runs out of fuel. -/
theorem Parse_ne_fuel (tokens : List (Nat × Token)) : Parse tokens ≠ .error .fuel := by
  unfold Parse
  exact bind_ne_fuel ((parse_ne_fuel _).1 tokens 0 (by omega)) (fun _ _ => by simp)

/-- No call of `ParseJsonString` ends because the model ran out of fuel:
whatever it returns is what the code does. -/
theorem ParseJsonString_ne_fuel (src : List Char) : ParseJsonString src ≠ .error .fuel := by
  unfold ParseJsonString
  exact bind_ne_fuel (TokenizeAll_ne_fuel src) (fun tokens _ => Parse_ne_fuel tokens)

/-! ## Nested arrays -/

theorem nestedPieces_succ (d : Nat) :
    nestedPieces (d + 1) = Piece.op '[' :: (nestedPieces d ++ [Piece.op ']']) := by
  unfold nestedPieces
  rw [List.replicate_succ, List.replicate_succ' d (Piece.op ']')]
  simp

theorem nestedPieces_length (d : Nat) : (nestedPieces d).length = 2 * d + 1 := by
  simp [nestedPieces]; omega

theorem piecesText_nestedPieces (d : Nat) : piecesText (nestedPieces d) = nestedText d := by
  have hrep : ∀ (c : Char) (n : Nat),
      piecesText (List.replicate n (Piece.op c)) = List.replicate n c := by
    intro c n
    induction n with
    | zero => rfl
    | succ n ih => simp [List.replicate_succ, piecesText, Piece.text, ih]
  simp [nestedPieces, nestedText, piecesText_append, piecesText, Piece.text, hrep]

theorem piecesOk_replicate_op (c : Char) (hc : c ∈ operators) (n : Nat) (rest : List Piece)
    (hrest : piecesOk rest) : piecesOk (List.replicate n (Piece.op c) ++ rest) := by
  induction n with
  | zero => simpa using hrest
  | succ n ih =>
    simp only [List.replicate_succ, List.cons_append]
    exact ⟨hc, by simp [Piece.isNum], ih⟩

theorem piecesOk_nestedPieces (d : Nat) : piecesOk (nestedPieces d) := by
  refine piecesOk_replicate_op '[' (by simp [operators]) d _ ⟨⟨by simp, by decide⟩, ?_, ?_⟩
  · intro _ q hq
    cases d with
    | zero => simp at hq
    | succ n =>
      simp only [List.replicate_succ, List.head?_cons, Option.some.injEq] at hq
      subst hq; rfl
  · have := piecesOk_replicate_op ']' (by simp [operators]) d [] trivial
    simpa using this

theorem ParseJsonObject_nested (d : Nat) :
    ∀ (tokens pre tail : List (Nat × Token)) (fuel pos : Nat),
      tokens = pre ++ ((nestedPieces d).map Piece.token ++ tail) → pos = pre.length →
      2 * d + 1 ≤ fuel →
      ParseJsonObject fuel tokens pos = .ok (2 * d + 1, nest d (.Integer 1)) := by
  induction d with
  | zero =>
    intro tokens pre tail fuel pos htok hpos hf
    obtain ⟨f, rfl⟩ : ∃ f, fuel = f + 1 := ⟨fuel - 1, by omega⟩
    have h : tokAt tokens pos = .ok (1, ⟨.NUMBER, ['1']⟩) :=
      tokAt_split pre tail (by simp [htok, nestedPieces, Piece.token]) hpos
    exact ParseJsonObject_number f tokens pos 1 ['1'] h (by simp) (by decide) (by decide)
  | succ d ih =>
    intro tokens pre tail fuel pos htok hpos hf
    obtain ⟨f, rfl⟩ : ∃ f, fuel = f + 3 := ⟨fuel - 3, by omega⟩
    have hlen := nestedPieces_length d
    have h0 : tokAt tokens pos = .ok (1, ⟨.OPERATOR, ['[']⟩) :=
      tokAt_split pre (((nestedPieces d).map Piece.token ++ [(1, ⟨.OPERATOR, [']']⟩)]) ++ tail)
        (by simp [htok, nestedPieces_succ, Piece.token]) hpos
    have hin := ih tokens (pre ++ [(1, ⟨.OPERATOR, ['[']⟩)])
      ((1, ⟨.OPERATOR, [']']⟩) :: tail) (f + 1) (pos + 1)
      (by simp [htok, nestedPieces_succ, Piece.token]) (by simp [hpos]) (by omega)
    have h1 : tokAt tokens (pos + 1 + (2 * d + 1)) = .ok (1, ⟨.OPERATOR, [']']⟩) :=
      tokAt_split (pre ++ (1, ⟨.OPERATOR, ['[']⟩) :: (nestedPieces d).map Piece.token) tail
        (by simp [htok, nestedPieces_succ, Piece.token]) (by simp [hpos, hlen]; omega)
    have hsize : ¬ tokens.length ≤ pos + 1 + (2 * d + 1) := by
      rw [htok, hpos]; simp [nestedPieces_succ, hlen]; omega
    unfold ParseJsonObject
    rw [h0]
    simp only [ok_bind]
    rw [if_neg (by decide), if_neg (by decide), if_neg (by decide), if_pos (by decide)]
    unfold ParseJsonObject.arrayLoop
    rw [h0]
    simp only [ok_bind]
    rw [if_pos (by decide), hin]
    simp only [ok_bind]
    rw [if_neg hsize]
    unfold ParseJsonObject.arrayLoop
    rw [h1]
    simp only [ok_bind]
    rw [if_neg (by decide)]
    simp only [List.nil_append, nest]
    congr 2
    omega

/-- The text with `d` arrays around the digit 1 parses to the Integer 1
inside `d` arrays, for every `d`. This is a fact of the model, in which
storage and the call stack are unbounded. -/
theorem ParseJsonString_nested (d : Nat) :
    ParseJsonString (nestedText d) = .ok (nest d (.Integer 1)) := by
  have htok := TokenizeAll_pieces (nestedPieces d) (by simp [nestedPieces])
    (piecesOk_nestedPieces d)
  rw [piecesText_nestedPieces] at htok
  have hp := ParseJsonObject_nested d ((nestedPieces d).map Piece.token) [] []
    (2 * ((nestedPieces d).map Piece.token).length + 2) 0 (by simp) rfl
    (by simp [nestedPieces_length]; omega)
  unfold ParseJsonString
  rw [htok]
  simp only [ok_bind, Parse]
  rw [hp]
  rfl

/-! ## Lookup in the map of an object -/

theorem mem_mapInsert_self (k : List Char) (v : JsonObject)
    (m : List (List Char × JsonObject)) (hk : k ∉ mapKeys m) : (k, v) ∈ mapInsert k v m := by
  induction m with
  | nil => simp [mapInsert]
  | cons e rest ih =>
    have hne : k ≠ e.1 := fun h => hk (by simp [mapKeys, h])
    have hrest : k ∉ mapKeys rest := by
      intro h
      apply hk
      simp only [mapKeys, List.map_cons, List.mem_cons]
      exact Or.inr h
    unfold mapInsert
    by_cases h1 : k < e.1
    · simp only [h1, if_true]; exact List.mem_cons_self _ _
    · by_cases h2 : e.1 < k
      · simp only [h1, h2, if_false, if_true]
        exact List.mem_cons_of_mem _ (ih hrest)
      · rcases lt_trichotomy k e.1 with h | h | h
        · exact absurd h h1
        · exact absurd h hne
        · exact absurd h h2

theorem mapFind_of_mem (k : List Char) (v : JsonObject) (m : List (List Char × JsonObject))
    (hnd : (mapKeys m).Nodup) (hmem : (k, v) ∈ m) : mapFind k m = some v := by
  induction m with
  | nil => simp at hmem
  | cons e rest ih =>
    have hnd' : e.1 ∉ mapKeys rest ∧ (mapKeys rest).Nodup := by
      simpa [mapKeys] using hnd
    unfold mapFind
    rcases List.mem_cons.mp hmem with h | h
    · subst h
      simp
    · have hkr : k ∈ mapKeys rest := List.mem_map.mpr ⟨(k, v), h, rfl⟩
      have hne : k ≠ e.1 := fun he => hnd'.1 (he ▸ hkr)
      have hcond : ¬ (¬ k < e.1 ∧ ¬ e.1 < k) := by
        rintro ⟨h1, h2⟩
        rcases lt_trichotomy k e.1 with h' | h' | h'
        · exact h1 h'
        · exact hne h'
        · exact h2 h'
      rw [if_neg hcond]
      exact ih hnd'.2 h

theorem insertMembers_append (acc : List (List Char × JsonObject))
    (a b : List (List Char × List Char)) :
    insertMembers acc (a ++ b) = insertMembers (insertMembers acc a) b := by
  simp [insertMembers, List.foldl_append]

/-- The first member with a given key is the one whose value the map of the
object holds for that key. -/
theorem mapFind_insertMembers_first (pre post : List (List Char × List Char))
    (k ds : List Char) (hpre : k ∉ pre.map Prod.fst) :
    mapFind k (insertMembers [] (pre ++ (k, ds) :: post)) = some (.Integer (decVal ds)) := by
  have hsorted := insertMembers_sorted (pre ++ (k, ds) :: post) [] (by simp [mapKeys])
  apply mapFind_of_mem k _ _ (pairwise_lt_nodup _ hsorted)
  have hnot : k ∉ mapKeys (insertMembers [] pre) := by
    rw [mem_mapKeys_insertMembers]
    simpa [mapKeys] using hpre
  have h1 := mem_mapInsert_self k (.Integer (decVal ds)) _ hnot
  have h2 := mem_insertMembers_of_mem post _ _ h1
  rw [insertMembers_append]
  simpa [insertMembers] using h2

/-! ## The string matcher without a closing quote, and the matchers inside the text -/

theorem TokenizeString_scan_open (rest : List Char) :
    ∀ (src pre : List Char) (x : Char) (fuel lenght pos : Nat),
      src = pre ++ x :: rest → pos = pre.length → '"' ∉ rest → rest.length < fuel →
      TokenizeString.scan src fuel lenght pos =
        .ok (lenght + rest.length + 1, pos + rest.length + 1) := by
  induction rest with
  | nil =>
    intro src pre x fuel lenght pos hsrc hpos _ hf
    obtain ⟨f, rfl⟩ : ∃ f, fuel = f + 1 := ⟨fuel - 1, by omega⟩
    have hlt : ¬ pos + 1 < src.length := by subst hsrc hpos; simp
    unfold TokenizeString.scan
    simp only [hlt, if_false]
    simp
  | cons y r ih =>
    intro src pre x fuel lenght pos hsrc hpos hq hf
    obtain ⟨f, rfl⟩ : ∃ f, fuel = f + 1 := ⟨fuel - 1, by omega⟩
    have hy : y ≠ '"' := fun e => hq (by simp [e])
    have hr : '"' ∉ r := fun e => hq (by simp [e])
    have h : charAt src (pos + 1) = .ok y :=
      charAt_split (pre ++ [x]) r (by simp [hsrc]) (by simp [hpos])
    have hlt : pos + 1 < src.length := by subst hsrc hpos; simp
    simp only [List.length_cons] at hf
    have hrec := ih src (pre ++ [x]) y f (lenght + 1) (pos + 1) (by simp [hsrc])
      (by simp [hpos]) hr (by omega)
    unfold TokenizeString.scan
    simp only [hlt, if_true, h, ok_bind, ne_eq, hy, not_false_eq_true, hrec, List.length_cons]
    congr 2 <;> omega

/-- A double quote with at least one character after it and no double quote
among the characters after the first of them: the string matcher reaches the
end of the text and reports no match. -/
theorem TokenizeString_open (pre : List Char) (x : Char) (rest : List Char)
    (hq : '"' ∉ rest) :
    TokenizeString (pre ++ '"' :: x :: rest) pre.length = .ok emptyResult := by
  generalize hsrc : pre ++ '"' :: x :: rest = src
  have h0 : charAt src pre.length = .ok '"' := charAt_split pre (x :: rest) hsrc.symm rfl
  have hscan := TokenizeString_scan_open rest src (pre ++ ['"']) x (src.length + 1) 0
    (pre.length + 1) (by simp [← hsrc]) (by simp) hq (by subst hsrc; simp; omega)
  have hlen : pre.length + 1 + rest.length + 1 = src.length := by
    subst hsrc; simp; omega
  have h1 : charAt src (pre.length + 1 + rest.length + 1) = .ok (Char.ofNat 0) := by
    rw [hlen]; exact charAt_length src
  unfold TokenizeString
  rw [h0]
  simp only [ok_bind, if_true]
  rw [hscan]
  simp only [ok_bind]
  rw [h1]
  simp only [ok_bind]
  rw [if_pos (by decide)]

theorem split_at_first_quote (rest : List Char) (h : '"' ∈ rest) :
    ∃ s t, rest = s ++ '"' :: t ∧ '"' ∉ s := by
  induction rest with
  | nil => simp at h
  | cons c r ih =>
    by_cases hc : c = '"'
    · exact ⟨[], r, by simp [hc], by simp⟩
    · have hr : '"' ∈ r := by
        rcases List.mem_cons.mp h with h' | h'
        · exact absurd h'.symm hc
        · exact h'
      obtain ⟨s, t, hst, hs⟩ := ih hr
      refine ⟨c :: s, t, by simp [hst], ?_⟩
      intro hmem
      rcases List.mem_cons.mp hmem with h' | h'
      · exact hc h'.symm
      · exact hs h'

/-- The string matcher returns a result at every position inside the text,
except at a double quote that is the last character of the text. -/
theorem TokenizeString_ok (pre suf : List Char) (hq : suf ≠ ['"']) :
    ∃ r, TokenizeString (pre ++ suf) pre.length = .ok r := by
  by_cases hh : suf.head? = some '"'
  · obtain ⟨body, rfl⟩ : ∃ body, suf = '"' :: body := by
      cases suf with
      | nil => simp at hh
      | cons c t => simp at hh; exact ⟨t, by rw [hh]⟩
    cases body with
    | nil => exact absurd rfl hq
    | cons x rest =>
      by_cases hr : '"' ∈ rest
      · obtain ⟨s, t, hst, hs⟩ := split_at_first_quote rest hr
        exact ⟨_, by rw [hst]; exact TokenizeString_append pre x s t hs⟩
      · exact ⟨_, TokenizeString_open pre x rest hr⟩
  · exact ⟨_, TokenizeString_nomatch pre suf hh⟩

theorem TokenizeBool_ok (pre suf : List Char) :
    ∃ r, TokenizeBool (pre ++ suf) pre.length = .ok r := by
  unfold TokenizeBool
  rw [substr_append pre suf 4]
  simp only [ok_bind]
  split
  · exact ⟨_, rfl⟩
  · rw [substr_append pre suf 5]
    simp only [ok_bind]
    split <;> exact ⟨_, rfl⟩

theorem TokenizeNull_ok (pre suf : List Char) :
    ∃ r, TokenizeNull (pre ++ suf) pre.length = .ok r := by
  unfold TokenizeNull
  rw [substr_append pre suf 4]
  simp only [ok_bind]
  split <;> exact ⟨_, rfl⟩

theorem TokenizeOperator_ok (pre suf : List Char) :
    ∃ r, TokenizeOperator (pre ++ suf) pre.length = .ok r := by
  unfold TokenizeOperator
  rw [charAt_append pre suf]
  simp only [ok_bind]
  split <;> exact ⟨_, rfl⟩

/-- At every position inside the text that is not a double quote at the very
end of the text the five matchers return, and `Tokenize` returns the result
of the first of them, in the order string, number, boolean, null, operator,
that consumed at least one character, and otherwise an UNKNOWN token of
consumed length 1 whose lexeme is the character at the position. -/
theorem Tokenize_first_match (src : List Char) (pos : Nat) (hpos : pos ≤ src.length)
    (hq : src.drop pos ≠ ['"']) :
    ∃ rs rn rb rl ro c,
      TokenizeString src pos = .ok rs ∧ TokenizeNumber src pos = .ok rn ∧
      TokenizeBool src pos = .ok rb ∧ TokenizeNull src pos = .ok rl ∧
      TokenizeOperator src pos = .ok ro ∧ charAt src pos = .ok c ∧
      Tokenize src pos = .ok
        (if 0 < rs.1 then rs else if 0 < rn.1 then rn else if 0 < rb.1 then rb
          else if 0 < rl.1 then rl else if 0 < ro.1 then ro
          else (1, ⟨.UNKNOWN, [c]⟩)) := by
  have hsrc : src = src.take pos ++ src.drop pos := (List.take_append_drop pos src).symm
  have hlen : (src.take pos).length = pos := by simp [hpos]
  obtain ⟨rs, hs⟩ := TokenizeString_ok (src.take pos) (src.drop pos) hq
  have hn := TokenizeNumber_append (src.take pos) (src.drop pos)
  obtain ⟨rb, hb⟩ := TokenizeBool_ok (src.take pos) (src.drop pos)
  obtain ⟨rl, hl⟩ := TokenizeNull_ok (src.take pos) (src.drop pos)
  obtain ⟨ro, ho⟩ := TokenizeOperator_ok (src.take pos) (src.drop pos)
  have hc := charAt_append (src.take pos) (src.drop pos)
  rw [← hsrc, hlen] at hs hn hb hl ho hc
  clear hsrc hlen hq
  obtain ⟨rn, hn⟩ : ∃ rn, TokenizeNumber src pos = .ok rn := ⟨_, hn⟩
  refine ⟨rs, rn, rb, rl, ro, _, hs, hn, hb, hl, ho, hc, ?_⟩
  unfold Tokenize
  simp only [tokenizers, Tokenize.run, hs, hn, hb, hl, ho, hc, ok_bind]
  split_ifs with h1 h2 h3 h4 h5 <;> simp only [ok_bind]
  · rw [if_neg (by omega)]
  · rw [if_neg (by omega)]
  · rw [if_neg (by omega)]
  · rw [if_neg (by omega)]
  · rw [if_neg (by omega)]
  · have h0 : ro.1 = 0 := by omega
    rw [if_pos h0, h0]

theorem TokenizeAll_skip_ok (src : List Char) (fuel : Nat) :
    ∀ pos : Nat, pos ≤ src.length → src.length + 1 ≤ pos + fuel →
      ∃ p, TokenizeAll.skip src fuel pos = .ok p ∧ pos ≤ p ∧ p ≤ src.length := by
  induction fuel with
  | zero => intro pos h1 h2; omega
  | succ f ih =>
    intro pos hpos hf
    have hsrc : src = src.take pos ++ src.drop pos := (List.take_append_drop pos src).symm
    have hlen : (src.take pos).length = pos := by simp [hpos]
    have hc := charAt_append (src.take pos) (src.drop pos)
    rw [← hsrc, hlen] at hc
    unfold TokenizeAll.skip
    rw [hc]
    simp only [ok_bind]
    split
    · rename_i hws
      have hlt : pos < src.length := by
        by_contra hge
        have hd : src.drop pos = [] := List.drop_eq_nil_of_le (by omega)
        rw [hd] at hws
        revert hws
        decide
      obtain ⟨p, hp, h1, h2⟩ := ih (pos + 1) (by omega) (by omega)
      exact ⟨p, hp, by omega, h2⟩
    · exact ⟨pos, rfl, le_refl _, hpos⟩

theorem drop_ne_quote_of_getLast (src : List Char) (pos : Nat)
    (hlast : src.getLast? ≠ some '"') : src.drop pos ≠ ['"'] := by
  intro h
  apply hlast
  have hsrc : src = src.take pos ++ ['"'] := by
    rw [← h]; exact (List.take_append_drop pos src).symm
  rw [hsrc]
  simp

theorem TokenizeAll_loop_ok (src : List Char) (hlast : src.getLast? ≠ some '"')
    (fuel : Nat) :
    ∀ (pos : Nat) (tokens : List (Nat × Token)), pos ≤ src.length → 1 ≤ fuel →
      src.length ≤ pos + fuel →
      ∃ toks, TokenizeAll.loop src fuel pos tokens = .ok toks := by
  induction fuel with
  | zero => intro _ _ _ h; omega
  | succ f ih =>
    intro pos tokens hpos _ hf
    obtain ⟨p, hp, h1, h2⟩ := TokenizeAll_skip_ok src (src.length + 1) pos hpos (by omega)
    obtain ⟨rs, rn, rb, rl, ro, c, _, _, _, _, _, _, ht⟩ :=
      Tokenize_first_match src p h2 (drop_ne_quote_of_getLast src p hlast)
    obtain ⟨r, ht⟩ : ∃ r, Tokenize src p = .ok r := ⟨_, ht⟩
    have hr := Tokenize_consumed_pos src p r ht
    unfold TokenizeAll.loop
    rw [hp]
    simp only [ok_bind]
    rw [ht]
    simp only [ok_bind]
    by_cases hlt : p + r.1 < src.length
    · rw [if_pos hlt]
      exact ih _ _ (by omega) (by omega) (by omega)
    · rw [if_neg hlt]
      exact ⟨_, rfl⟩

/-- `TokenizeAll` returns a token sequence for every text whose last
character is not a double quote. -/
theorem TokenizeAll_ok (src : List Char) (hlast : src.getLast? ≠ some '"') :
    ∃ toks, TokenizeAll src = .ok toks :=
  TokenizeAll_loop_ok src hlast _ 0 [] (Nat.zero_le _) (by omega) (by omega)

/-! ## The tokenizer looks only at the text from the position on -/

theorem charAt_beyond (src : List Char) (pos : Nat) (h : src.length < pos) :
    charAt src pos = .error .undefined := by
  have hnone : src[pos]? = none := List.getElem?_eq_none (by omega)
  unfold charAt
  rw [hnone]
  simp only
  rw [if_neg (by omega)]

/-- At a double quote that is the last character of the text the string
matcher reads the text two places after the quote, one place beyond the
terminating null character. -/
theorem TokenizeString_lone (pre : List Char) :
    TokenizeString (pre ++ ['"']) pre.length = .error .undefined := by
  have h0 := charAt_append_cons pre '"' []
  have hlt : ¬ pre.length + 1 + 1 < (pre ++ ['"']).length := by simp
  have h1 := charAt_beyond (pre ++ ['"']) (pre.length + 1 + 1) (by simp)
  unfold TokenizeString
  rw [h0]
  simp only [ok_bind, if_true]
  unfold TokenizeString.scan
  simp only [hlt, if_false, ok_bind]
  rw [h1]
  rfl

theorem TokenizeString_suffix (pre suf : List Char) :
    TokenizeString (pre ++ suf) pre.length = TokenizeString suf 0 := by
  by_cases hh : suf.head? = some '"'
  · obtain ⟨body, rfl⟩ : ∃ body, suf = '"' :: body := by
      cases suf with
      | nil => simp at hh
      | cons c t => simp at hh; exact ⟨t, by rw [hh]⟩
    cases body with
    | nil =>
      rw [TokenizeString_lone pre]
      exact (TokenizeString_lone []).symm
    | cons x rest =>
      by_cases hr : '"' ∈ rest
      · obtain ⟨s, t, hst, hs⟩ := split_at_first_quote rest hr
        rw [hst, TokenizeString_append pre x s t hs]
        exact (TokenizeString_append [] x s t hs).symm
      · rw [TokenizeString_open pre x rest hr]
        exact (TokenizeString_open [] x rest hr).symm
  · rw [TokenizeString_nomatch pre suf hh]
    exact (TokenizeString_nomatch [] suf hh).symm

theorem TokenizeNumber_suffix (pre suf : List Char) :
    TokenizeNumber (pre ++ suf) pre.length = TokenizeNumber suf 0 := by
  rw [TokenizeNumber_append pre suf]
  exact (TokenizeNumber_append [] suf).symm

theorem TokenizeBool_suffix (pre suf : List Char) :
    TokenizeBool (pre ++ suf) pre.length = TokenizeBool suf 0 := by
  have h4 := substr_append pre suf 4
  have h5 := substr_append pre suf 5
  have g4 := substr_append [] suf 4
  have g5 := substr_append [] suf 5
  simp only [List.nil_append, List.length_nil] at g4 g5
  unfold TokenizeBool
  rw [h4, h5, g4, g5]

theorem TokenizeNull_suffix (pre suf : List Char) :
    TokenizeNull (pre ++ suf) pre.length = TokenizeNull suf 0 := by
  have h4 := substr_append pre suf 4
  have g4 := substr_append [] suf 4
  simp only [List.nil_append, List.length_nil] at g4
  unfold TokenizeNull
  rw [h4, g4]

theorem TokenizeOperator_suffix (pre suf : List Char) :
    TokenizeOperator (pre ++ suf) pre.length = TokenizeOperator suf 0 := by
  have h := charAt_append pre suf
  have g := charAt_append [] suf
  simp only [List.nil_append, List.length_nil] at g
  unfold TokenizeOperator
  rw [h, g]

/-- What `Tokenize` returns depends only on the text from the position on. -/
theorem Tokenize_suffix (pre suf : List Char) :
    Tokenize (pre ++ suf) pre.length = Tokenize suf 0 := by
  have h := charAt_append pre suf
  have g := charAt_append [] suf
  simp only [List.nil_append, List.length_nil] at g
  unfold Tokenize
  simp only [tokenizers, Tokenize.run, TokenizeString_suffix pre suf,
    TokenizeNumber_suffix pre suf, TokenizeBool_suffix pre suf, TokenizeNull_suffix pre suf,
    TokenizeOperator_suffix pre suf, h, g]

theorem Tokenize_shift (w t : List Char) (p : Nat) (hp : p ≤ t.length) :
    Tokenize (w ++ t) (w.length + p) = Tokenize t p := by
  have h1 := Tokenize_suffix (w ++ t.take p) (t.drop p)
  have h2 := Tokenize_suffix (t.take p) (t.drop p)
  simp only [List.append_assoc, List.take_append_drop, List.length_append, List.length_take,
    Nat.min_eq_left hp] at h1 h2
  rw [h1, h2]

/-- The white-space loop stops after the blank characters at the position. -/
theorem TokenizeAll_skip_eq (suf : List Char) :
    ∀ (src pre : List Char) (fuel pos : Nat), src = pre ++ suf → pos = pre.length →
      suf.length < fuel →
      TokenizeAll.skip src fuel pos = .ok (pos + (suf.takeWhile isBlank).length) := by
  induction suf with
  | nil =>
    intro src pre fuel pos hsrc hpos hf
    obtain ⟨f, rfl⟩ : ∃ f, fuel = f + 1 := ⟨fuel - 1, by omega⟩
    have h : charAt src pos = .ok (Char.ofNat 0) := by
      subst hsrc hpos; simpa using charAt_length pre
    unfold TokenizeAll.skip
    rw [h]
    simp only [ok_bind]
    rw [if_neg (by decide)]
    simp
  | cons c r ih =>
    intro src pre fuel pos hsrc hpos hf
    obtain ⟨f, rfl⟩ : ∃ f, fuel = f + 1 := ⟨fuel - 1, by omega⟩
    have h : charAt src pos = .ok c := charAt_split pre r hsrc hpos
    simp only [List.length_cons] at hf
    unfold TokenizeAll.skip
    rw [h]
    simp only [ok_bind]
    by_cases hc : c = ' ' ∨ c = '\n' ∨ c = '\t'
    · have hb : isBlank c = true := by simp [isBlank, hc]
      rw [if_pos hc, ih src (pre ++ [c]) f (pos + 1) (by simp [hsrc]) (by simp [hpos])
        (by omega)]
      simp only [List.takeWhile_cons, hb, if_true, List.length_cons]
      congr 1
      omega
    · have hb : isBlank c = false := by simp [isBlank, hc]
      rw [if_neg hc]
      simp [List.takeWhile_cons, hb]

theorem TokenizeAll_skip_at (src : List Char) (pos : Nat) (hpos : pos ≤ src.length) :
    TokenizeAll.skip src (src.length + 1) pos =
      .ok (pos + ((src.drop pos).takeWhile isBlank).length) :=
  TokenizeAll_skip_eq (src.drop pos) src (src.take pos) (src.length + 1) pos
    (List.take_append_drop pos src).symm (by simp [hpos]) (by simp; omega)

theorem takeWhile_isBlank_length_le (l : List Char) : (l.takeWhile isBlank).length ≤ l.length :=
  (List.takeWhile_sublist isBlank).length_le

/-- A run that does not use up its fuel is the same with more fuel. -/
theorem TokenizeAll_loop_fuel (src : List Char) (fuel : Nat) :
    ∀ (fuel' pos : Nat) (tokens : List (Nat × Token)), fuel ≤ fuel' →
      TokenizeAll.loop src fuel pos tokens ≠ .error .fuel →
      TokenizeAll.loop src fuel' pos tokens = TokenizeAll.loop src fuel pos tokens := by
  induction fuel with
  | zero =>
    intro fuel' pos tokens _ h
    exact absurd (by unfold TokenizeAll.loop; rfl) h
  | succ f ih =>
    intro fuel' pos tokens hf h
    obtain ⟨g, rfl⟩ : ∃ g, fuel' = g + 1 := ⟨fuel' - 1, by omega⟩
    unfold TokenizeAll.loop at h ⊢
    cases hs : TokenizeAll.skip src (src.length + 1) pos with
    | error e => rfl
    | ok p =>
      rw [hs] at h
      simp only [ok_bind] at h ⊢
      cases ht : Tokenize src p with
      | error e => rfl
      | ok r =>
        rw [ht] at h
        simp only [ok_bind] at h ⊢
        by_cases hlt : p + r.1 < src.length
        · simp only [hlt, if_true] at h ⊢
          exact ih g _ _ (by omega) h
        · simp only [hlt, if_false]

theorem TokenizeAll_loop_shift (w t : List Char) (fuel : Nat) :
    ∀ (p : Nat) (tokens : List (Nat × Token)), p ≤ t.length →
      TokenizeAll.loop (w ++ t) fuel (w.length + p) tokens =
        TokenizeAll.loop t fuel p tokens := by
  induction fuel with
  | zero => intro p tokens _; unfold TokenizeAll.loop; rfl
  | succ f ih =>
    intro p tokens hp
    have hdrop : (w ++ t).drop (w.length + p) = t.drop p := by
      rw [List.drop_append]
    have hk := takeWhile_isBlank_length_le (t.drop p)
    have hdl : (t.drop p).length = t.length - p := List.length_drop p t
    have hs1 := TokenizeAll_skip_at (w ++ t) (w.length + p) (by simp; omega)
    have hs2 := TokenizeAll_skip_at t p hp
    rw [hdrop] at hs1
    have hT := Tokenize_shift w t (p + ((t.drop p).takeWhile isBlank).length) (by omega)
    unfold TokenizeAll.loop
    rw [hs1, hs2]
    simp only [ok_bind]
    rw [show w.length + p + ((t.drop p).takeWhile isBlank).length =
      w.length + (p + ((t.drop p).takeWhile isBlank).length) by omega, hT]
    cases ht : Tokenize t (p + ((t.drop p).takeWhile isBlank).length) with
    | error e => rfl
    | ok r =>
      simp only [ok_bind, List.length_append]
      by_cases hlt : p + ((t.drop p).takeWhile isBlank).length + r.1 < t.length
      · have hlt' : w.length + (p + ((t.drop p).takeWhile isBlank).length) + r.1 <
            w.length + t.length := by omega
        rw [if_pos hlt, if_pos hlt']
        rw [show w.length + (p + ((t.drop p).takeWhile isBlank).length) + r.1 =
          w.length + (p + ((t.drop p).takeWhile isBlank).length + r.1) by omega]
        exact ih _ _ (by omega)
      · have hlt' : ¬ w.length + (p + ((t.drop p).takeWhile isBlank).length) + r.1 <
            w.length + t.length := by omega
        rw [if_neg hlt, if_neg hlt']

theorem TokenizeAll_loop_blank (w t : List Char) (hw : ∀ c ∈ w, isBlank c = true)
    (fuel : Nat) (tokens : List (Nat × Token)) :
    TokenizeAll.loop (w ++ t) fuel 0 tokens =
      TokenizeAll.loop (w ++ t) fuel w.length tokens := by
  cases fuel with
  | zero => unfold TokenizeAll.loop; rfl
  | succ f =>
    have hs1 := TokenizeAll_skip_at (w ++ t) 0 (Nat.zero_le _)
    have hs2 := TokenizeAll_skip_at (w ++ t) w.length (by simp)
    have hd : (w ++ t).drop w.length = t := by simp
    have hk : ((w ++ t).takeWhile isBlank).length =
        w.length + (t.takeWhile isBlank).length := by
      rw [List.takeWhile_append_of_pos hw, List.length_append]
    rw [List.drop_zero, hk, Nat.zero_add] at hs1
    rw [hd] at hs2
    unfold TokenizeAll.loop
    rw [hs1, hs2]

/-- Blank characters in front of a text leave its token sequence as it is. -/
theorem TokenizeAll_blank_prefix (w t : List Char) (hw : ∀ c ∈ w, isBlank c = true) :
    TokenizeAll (w ++ t) = TokenizeAll t := by
  unfold TokenizeAll
  rw [TokenizeAll_loop_blank w t hw, ← Nat.add_zero w.length,
    TokenizeAll_loop_shift w t _ 0 [] (Nat.zero_le _)]
  exact TokenizeAll_loop_fuel t (t.length + 1) _ 0 [] (by simp)
    (TokenizeAll_ne_fuel t)

/-! ## Separators are compared with the closing bracket only -/

theorem arrayLoop_items (items : List (Char × List Char)) :
    ∀ (tokens pre tail : List (Nat × Token)) (acc : List JsonObject)
      (fuel init pos : Nat),
      tokens = pre ++ ((sepArrayPieces items ++ [Piece.op ']']).map Piece.token ++ tail) →
      pos = pre.length → (∀ e ∈ items, e.1 ≠ ']' ∧ intDigits e.2) →
      items.length + 1 ≤ fuel →
      ParseJsonObject.arrayLoop fuel tokens init pos acc =
        .ok (pos + 2 * items.length - init + 1,
          .Array (acc ++ items.map (fun e => .Integer (decVal e.2)))) := by
  induction items with
  | nil =>
    intro tokens pre tail acc fuel init pos htok hpos _ hf
    obtain ⟨f, rfl⟩ : ∃ f, fuel = f + 1 := ⟨fuel - 1, by simp at hf; omega⟩
    have h : tokAt tokens pos = .ok (1, ⟨.OPERATOR, [']']⟩) :=
      tokAt_split pre tail (by simp [htok, sepArrayPieces, Piece.token]) hpos
    unfold ParseJsonObject.arrayLoop
    rw [h]
    simp
  | cons e rest ih =>
    intro tokens pre tail acc fuel init pos htok hpos hitems hf
    obtain ⟨f, rfl⟩ : ∃ f, fuel = f + 1 := ⟨fuel - 1, by simp at hf; omega⟩
    obtain ⟨g, rfl⟩ : ∃ g, f = g + 1 := ⟨f - 1, by simp at hf; omega⟩
    obtain ⟨sep, ds⟩ := e
    have hd := hitems (sep, ds) (by simp)
    have hsep : sep ≠ ']' := hd.1
    have h0 : tokAt tokens pos = .ok (1, ⟨.OPERATOR, [sep]⟩) :=
      tokAt_split pre
        ((ds.length, ⟨.NUMBER, ds⟩) ::
          ((sepArrayPieces rest ++ [Piece.op ']']).map Piece.token ++ tail))
        (by simp [htok, sepArrayPieces, Piece.token]) hpos
    have h1 : tokAt tokens (pos + 1) = .ok (ds.length, ⟨.NUMBER, ds⟩) :=
      tokAt_split (pre ++ [(1, ⟨.OPERATOR, [sep]⟩)])
        ((sepArrayPieces rest ++ [Piece.op ']']).map Piece.token ++ tail)
        (by simp [htok, sepArrayPieces, Piece.token]) (by simp [hpos])
    have hnum := ParseJsonObject_number g tokens (pos + 1) ds.length ds h1 hd.2.1 hd.2.2.1
      hd.2.2.2
    have hlen : ¬ tokens.length ≤ pos + 1 + 1 := by
      rw [htok, hpos]; simp [sepArrayPieces]; omega
    have hrec := ih tokens
      (pre ++ [(1, ⟨.OPERATOR, [sep]⟩), (ds.length, ⟨.NUMBER, ds⟩)]) tail
      (acc ++ [.Integer (decVal ds)]) (g + 1) init (pos + 1 + 1)
      (by simp [htok, sepArrayPieces, Piece.token]) (by simp [hpos])
      (fun x hx => hitems x (by simp [hx])) (by simp at hf ⊢; omega)
    unfold ParseJsonObject.arrayLoop
    rw [h0]
    simp only [ok_bind, ne_eq, List.cons.injEq, and_true, hsep, not_false_eq_true, if_true]
    rw [hnum]
    simp only [ok_bind, hlen, if_false, hrec]
    simp only [List.length_cons, List.map_cons, List.append_assoc, List.singleton_append]
    congr 2
    omega

theorem objectLoop_members (ms : List (Char × List Char × Char × List Char)) :
    ∀ (tokens pre tail : List (Nat × Token)) (acc : List (List Char × JsonObject))
      (fuel init pos : Nat),
      tokens = pre ++ ((sepObjectPieces ms ++ [Piece.op '}']).map Piece.token ++ tail) →
      pos = pre.length → (∀ m ∈ ms, m.1 ≠ '}' ∧ intDigits m.2.2.2) →
      ms.length + 1 ≤ fuel →
      ParseJsonObject.objectLoop fuel tokens init pos acc =
        .ok (pos + 4 * ms.length - init + 1,
          .Object (insertMembers acc (ms.map fun m => (m.2.1, m.2.2.2)))) := by
  induction ms with
  | nil =>
    intro tokens pre tail acc fuel init pos htok hpos _ hf
    obtain ⟨f, rfl⟩ : ∃ f, fuel = f + 1 := ⟨fuel - 1, by simp at hf; omega⟩
    have h : tokAt tokens pos = .ok (1, ⟨.OPERATOR, ['}']⟩) :=
      tokAt_split pre tail (by simp [htok, sepObjectPieces, Piece.token]) hpos
    unfold ParseJsonObject.objectLoop
    rw [h]
    simp [insertMembers]
  | cons m rest ih =>
    intro tokens pre tail acc fuel init pos htok hpos hms hf
    obtain ⟨f, rfl⟩ : ∃ f, fuel = f + 1 := ⟨fuel - 1, by simp at hf; omega⟩
    obtain ⟨g, rfl⟩ : ∃ g, f = g + 1 := ⟨f - 1, by simp at hf; omega⟩
    obtain ⟨sep, k, col, ds⟩ := m
    have hd := hms (sep, k, col, ds) (by simp)
    have hsep : sep ≠ '}' := hd.1
    have h0 : tokAt tokens pos = .ok (1, ⟨.OPERATOR, [sep]⟩) :=
      tokAt_split pre
        ((k.length + 2, ⟨.STRING, k⟩) :: (1, ⟨.OPERATOR, [col]⟩) ::
          (ds.length, ⟨.NUMBER, ds⟩) ::
          ((sepObjectPieces rest ++ [Piece.op '}']).map Piece.token ++ tail))
        (by simp [htok, sepObjectPieces, Piece.token]) hpos
    have h1 : tokAt tokens (pos + 1) = .ok (k.length + 2, ⟨.STRING, k⟩) :=
      tokAt_split (pre ++ [(1, ⟨.OPERATOR, [sep]⟩)])
        ((1, ⟨.OPERATOR, [col]⟩) :: (ds.length, ⟨.NUMBER, ds⟩) ::
          ((sepObjectPieces rest ++ [Piece.op '}']).map Piece.token ++ tail))
        (by simp [htok, sepObjectPieces, Piece.token]) (by simp [hpos])
    have h2 : tokAt tokens (pos + 1 + 1) = .ok (1, ⟨.OPERATOR, [col]⟩) :=
      tokAt_split (pre ++ [(1, ⟨.OPERATOR, [sep]⟩), (k.length + 2, ⟨.STRING, k⟩)])
        ((ds.length, ⟨.NUMBER, ds⟩) ::
          ((sepObjectPieces rest ++ [Piece.op '}']).map Piece.token ++ tail))
        (by simp [htok, sepObjectPieces, Piece.token]) (by simp [hpos])
    have h3 : tokAt tokens (pos + 1 + 1 + 1) = .ok (ds.length, ⟨.NUMBER, ds⟩) :=
      tokAt_split
        (pre ++ [(1, ⟨.OPERATOR, [sep]⟩), (k.length + 2, ⟨.STRING, k⟩),
          (1, ⟨.OPERATOR, [col]⟩)])
        ((sepObjectPieces rest ++ [Piece.op '}']).map Piece.token ++ tail)
        (by simp [htok, sepObjectPieces, Piece.token]) (by simp [hpos])
    have hnum := ParseJsonObject_number g tokens (pos + 1 + 1 + 1) ds.length ds h3
      hd.2.1 hd.2.2.1 hd.2.2.2
    have hlen : ¬ tokens.length ≤ pos + 1 + 1 + 1 + 1 := by
      rw [htok, hpos]; simp [sepObjectPieces]; omega
    have hrec := ih tokens
      (pre ++ [(1, ⟨.OPERATOR, [sep]⟩), (k.length + 2, ⟨.STRING, k⟩),
        (1, ⟨.OPERATOR, [col]⟩), (ds.length, ⟨.NUMBER, ds⟩)]) tail
      (mapInsert k (.Integer (decVal ds)) acc) (g + 1) init (pos + 1 + 1 + 1 + 1)
      (by simp [htok, sepObjectPieces, Piece.token]) (by simp [hpos])
      (fun x hx => hms x (by simp [hx])) (by simp at hf ⊢; omega)
    unfold ParseJsonObject.objectLoop
    rw [h0]
    simp only [ok_bind, ne_eq, List.cons.injEq, and_true, hsep, not_false_eq_true, if_true]
    rw [h1]
    simp only [ok_bind, ne_eq, not_true_eq_false, if_false]
    rw [h2]
    simp only [ok_bind, ne_eq, not_true_eq_false, if_false]
    rw [hnum]
    simp only [ok_bind, hlen, if_false, hrec]
    simp only [List.length_cons, insertMembers, List.foldl_cons, List.map_cons]
    congr 2
    omega

theorem sepArrayPieces_length (items : List (Char × List Char)) :
    (sepArrayPieces items).length = 2 * items.length := by
  induction items with
  | nil => rfl
  | cons e rest ih => simp [sepArrayPieces, ih]; omega

theorem sepObjectPieces_length (ms : List (Char × List Char × Char × List Char)) :
    (sepObjectPieces ms).length = 4 * ms.length := by
  induction ms with
  | nil => rfl
  | cons m rest ih => simp [sepObjectPieces, ih]; omega

theorem sepArrayPieces_ok (items : List (Char × List Char))
    (h : ∀ e ∈ items, e.1 ∈ operators ∧ intDigits e.2) :
    piecesOk (sepArrayPieces items ++ [Piece.op ']']) := by
  induction items with
  | nil => simp [sepArrayPieces, piecesOk, Piece.wf, operators]
  | cons e rest ih =>
    have he := h e (by simp)
    have hrec := ih (fun x hx => h x (by simp [hx]))
    refine ⟨he.1, by simp [Piece.isNum], ⟨he.2.1, he.2.2.1⟩, ?_, hrec⟩
    intro _ q hq
    cases rest with
    | nil => simp [sepArrayPieces] at hq; subst hq; rfl
    | cons y ys => simp [sepArrayPieces] at hq; subst hq; rfl

theorem sepObjectPieces_ok (ms : List (Char × List Char × Char × List Char))
    (h : ∀ m ∈ ms, m.1 ∈ operators ∧ (m.2.1 ≠ [] ∧ '"' ∉ m.2.1) ∧ m.2.2.1 ∈ operators ∧
      intDigits m.2.2.2) :
    piecesOk (sepObjectPieces ms ++ [Piece.op '}']) := by
  induction ms with
  | nil => simp [sepObjectPieces, piecesOk, Piece.wf, operators]
  | cons m rest ih =>
    have hm := h m (by simp)
    have hrec := ih (fun x hx => h x (by simp [hx]))
    refine ⟨hm.1, by simp [Piece.isNum], hm.2.1, by simp [Piece.isNum], hm.2.2.1,
      by simp [Piece.isNum], ⟨hm.2.2.2.1, hm.2.2.2.2.1⟩, ?_, hrec⟩
    intro _ q hq
    cases rest with
    | nil => simp [sepObjectPieces] at hq; subst hq; rfl
    | cons y ys => simp [sepObjectPieces] at hq; subst hq; rfl

theorem looseArrayText_eq (items : List (Char × Nat)) :
    looseArrayText items =
      piecesText (sepArrayPieces (items.map itemDigits) ++ [Piece.op ']']) := by
  have h : ∀ l : List (Char × Nat),
      piecesText (sepArrayPieces (l.map itemDigits)) = looseArrayBody l := by
    intro l
    induction l with
    | nil => rfl
    | cons e rest ih =>
      simp [sepArrayPieces, piecesText, Piece.text, looseArrayBody, itemDigits, ← ih]
  rw [piecesText_append, h]
  simp [looseArrayText, piecesText, Piece.text]

theorem looseObjectText_eq (ms : List (Char × List Char × Char × Nat)) :
    looseObjectText ms =
      piecesText (sepObjectPieces (ms.map looseDigits) ++ [Piece.op '}']) := by
  have h : ∀ l : List (Char × List Char × Char × Nat),
      piecesText (sepObjectPieces (l.map looseDigits)) = looseObjectBody l := by
    intro l
    induction l with
    | nil => rfl
    | cons e rest ih =>
      simp [sepObjectPieces, piecesText, Piece.text, looseObjectBody, looseDigits, ← ih]
  rw [piecesText_append, h]
  simp [looseObjectText, piecesText, Piece.text]

theorem ParseJsonString_looseArray (n : Nat) (rest : List (Char × Nat))
    (hn : n ≤ 2147483647)
    (hrest : ∀ e ∈ rest, e.1 ∈ operators ∧ e.1 ≠ ']' ∧ e.2 ≤ 2147483647) :
    ParseJsonString (looseArrayText (('[', n) :: rest)) =
      .ok (.Array ((n :: rest.map Prod.snd).map fun x : Nat => JsonObject.Integer (x : Int))) := by
  have hall : ∀ e ∈ (('[', n) :: rest).map itemDigits,
      e.1 ∈ operators ∧ e.1 ≠ ']' ∧ intDigits e.2 := by
    intro e he
    obtain ⟨x, hx, rfl⟩ := List.mem_map.mp he
    rcases List.mem_cons.mp hx with h | h
    · subst h
      exact ⟨by simp [itemDigits, operators], by simp [itemDigits],
        decimal_intDigits n hn⟩
    · exact ⟨(hrest x h).1, (hrest x h).2.1, decimal_intDigits x.2 (hrest x h).2.2⟩
  have htok := TokenizeAll_pieces
    (sepArrayPieces ((('[', n) :: rest).map itemDigits) ++ [Piece.op ']'])
    (by simp [sepArrayPieces])
    (sepArrayPieces_ok _ (fun e he => ⟨(hall e he).1, (hall e he).2.2⟩))
  rw [← looseArrayText_eq] at htok
  generalize htoks :
    (sepArrayPieces ((('[', n) :: rest).map itemDigits) ++ [Piece.op ']']).map Piece.token =
      tokens at htok
  have h0 : tokAt tokens 0 = .ok (1, ⟨.OPERATOR, ['[']⟩) :=
    tokAt_split []
      (((decimal n).length, ⟨.NUMBER, decimal n⟩) ::
        (sepArrayPieces (rest.map itemDigits) ++ [Piece.op ']']).map Piece.token)
      (by simp [← htoks, sepArrayPieces, Piece.token, itemDigits]) rfl
  have hloop := arrayLoop_items ((('[', n) :: rest).map itemDigits) tokens [] [] []
    (2 * tokens.length + 1) 0 0 (by simp [← htoks]) rfl
    (fun e he => ⟨(hall e he).2.1, (hall e he).2.2⟩)
    (by rw [← htoks]; simp [sepArrayPieces_length]; omega)
  unfold ParseJsonString
  rw [htok]
  simp only [ok_bind, Parse]
  unfold ParseJsonObject
  rw [h0]
  simp only [ok_bind]
  rw [if_neg (by decide), if_neg (by decide), if_neg (by decide), if_pos (by decide), hloop]
  simp [itemDigits, List.map_map, Function.comp_def, (decimal_spec _).2.2]

theorem ParseJsonString_looseObject (k : List Char) (col : Char) (v : Nat)
    (more : List (Char × List Char × Char × Nat))
    (hmem : ∀ m ∈ ('{', k, col, v) :: more,
      m.1 ∈ operators ∧ m.1 ≠ '}' ∧ (m.2.1 ≠ [] ∧ '"' ∉ m.2.1) ∧ m.2.2.1 ∈ operators ∧
        m.2.2.2 ≤ 2147483647) :
    ParseJsonString (looseObjectText (('{', k, col, v) :: more)) =
      .ok (.Object (insertMembers []
        ((((k, v) :: more.map fun m => (m.2.1, m.2.2.2))).map memberDigits))) := by
  have hall : ∀ m ∈ (('{', k, col, v) :: more).map looseDigits,
      m.1 ∈ operators ∧ m.1 ≠ '}' ∧ (m.2.1 ≠ [] ∧ '"' ∉ m.2.1) ∧ m.2.2.1 ∈ operators ∧
        intDigits m.2.2.2 := by
    intro m hm
    obtain ⟨x, hx, rfl⟩ := List.mem_map.mp hm
    have h := hmem x hx
    exact ⟨h.1, h.2.1, h.2.2.1, h.2.2.2.1, decimal_intDigits _ h.2.2.2.2⟩
  have htok := TokenizeAll_pieces
    (sepObjectPieces ((('{', k, col, v) :: more).map looseDigits) ++ [Piece.op '}'])
    (by simp [sepObjectPieces])
    (sepObjectPieces_ok _ (fun m hm => ⟨(hall m hm).1, (hall m hm).2.2.1, (hall m hm).2.2.2.1,
      (hall m hm).2.2.2.2⟩))
  rw [← looseObjectText_eq] at htok
  generalize htoks :
    (sepObjectPieces ((('{', k, col, v) :: more).map looseDigits) ++
      [Piece.op '}']).map Piece.token = tokens at htok
  have h0 : tokAt tokens 0 = .ok (1, ⟨.OPERATOR, ['{']⟩) :=
    tokAt_split []
      ((k.length + 2, ⟨.STRING, k⟩) :: (1, ⟨.OPERATOR, [col]⟩) ::
        ((decimal v).length, ⟨.NUMBER, decimal v⟩) ::
        (sepObjectPieces (more.map looseDigits) ++ [Piece.op '}']).map Piece.token)
      (by simp [← htoks, sepObjectPieces, Piece.token, looseDigits]) rfl
  have hloop := objectLoop_members ((('{', k, col, v) :: more).map looseDigits) tokens [] [] []
    (2 * tokens.length + 1) 0 0 (by simp [← htoks]) rfl
    (fun m hm => ⟨(hall m hm).2.1, (hall m hm).2.2.2.2⟩)
    (by rw [← htoks]; simp [sepObjectPieces_length]; omega)
  unfold ParseJsonString
  rw [htok]
  simp only [ok_bind, Parse]
  unfold ParseJsonObject
  rw [h0]
  simp only [ok_bind]
  rw [if_neg (by decide), if_neg (by decide), if_pos (by decide), hloop]
  simp [looseDigits, memberDigits, List.map_map, Function.comp_def]

/-- In an object, a token of a kind other than OPERATOR after a key ends the
parse in the runtime_error "bad format". -/
theorem objectLoop_key_guard (tokens : List (Nat × Token)) (init pos fuel : Nat)
    (acc : List (List Char × JsonObject)) (t key sep : Nat × Token)
    (h0 : tokAt tokens pos = .ok t) (hopen : t.2.value ≠ ['}'])
    (h1 : tokAt tokens (pos + 1) = .ok key) (hkey : key.2.type = .STRING)
    (h2 : tokAt tokens (pos + 1 + 1) = .ok sep) (hsep : sep.2.type ≠ .OPERATOR) :
    ParseJsonObject.objectLoop (fuel + 1) tokens init pos acc =
      .error (.runtime_error "bad format") := by
  unfold ParseJsonObject.objectLoop
  rw [h0]
  simp only [ok_bind]
  rw [if_pos hopen, h1]
  simp only [ok_bind]
  rw [if_neg (by simp [hkey]), h2]
  simp only [ok_bind]
  rw [if_pos hsep]

/-! ## The last token of a container -/

/-- When a container is parsed, at least one token is consumed, the consumed
tokens lie inside the sequence, and the last of them has the lexeme of the
closing bracket (its kind is not looked at). -/
theorem container_closed_by_lexeme (fuel : Nat) :
    (∀ (tokens : List (Nat × Token)) (p : Nat) (r : Nat × JsonObject),
      ParseJsonObject fuel tokens p = .ok r →
      (∀ a, r.2 = .Array a → 1 ≤ r.1 ∧ p + r.1 ≤ tokens.length ∧
        ∃ t, tokAt tokens (p + r.1 - 1) = .ok t ∧ t.2.value = [']']) ∧
      (∀ m, r.2 = .Object m → 1 ≤ r.1 ∧ p + r.1 ≤ tokens.length ∧
        ∃ t, tokAt tokens (p + r.1 - 1) = .ok t ∧ t.2.value = ['}'])) ∧
    (∀ (tokens : List (Nat × Token)) (init pos : Nat)
      (acc : List (List Char × JsonObject)) (r : Nat × JsonObject),
      init ≤ pos → ParseJsonObject.objectLoop fuel tokens init pos acc = .ok r →
      (∃ m, r.2 = .Object m) ∧ 1 ≤ r.1 ∧ init + r.1 ≤ tokens.length ∧
        ∃ t, tokAt tokens (init + r.1 - 1) = .ok t ∧ t.2.value = ['}']) ∧
    (∀ (tokens : List (Nat × Token)) (init pos : Nat) (acc : List JsonObject)
      (r : Nat × JsonObject),
      init ≤ pos → ParseJsonObject.arrayLoop fuel tokens init pos acc = .ok r →
      (∃ a, r.2 = .Array a) ∧ 1 ≤ r.1 ∧ init + r.1 ≤ tokens.length ∧
        ∃ t, tokAt tokens (init + r.1 - 1) = .ok t ∧ t.2.value = [']']) := by
  induction fuel with
  | zero =>
    refine ⟨?_, ?_, ?_⟩
    · intro tokens p r h; unfold ParseJsonObject at h; cases h
    · intro tokens init pos acc r _ h; unfold ParseJsonObject.objectLoop at h; cases h
    · intro tokens init pos acc r _ h; unfold ParseJsonObject.arrayLoop at h; cases h
  | succ f ih =>
    obtain ⟨_, ihO, ihA⟩ := ih
    refine ⟨?_, ?_, ?_⟩
    · intro tokens p r h
      unfold ParseJsonObject at h
      obtain ⟨t, _, h⟩ := bind_eq_ok h
      split_ifs at h
      · simp only [Except.ok.injEq] at h
        rw [← h]
        exact ⟨fun a ha => (by cases ha), fun m hm => (by cases hm)⟩
      · obtain ⟨i, _, h⟩ := bind_eq_ok h
        simp only [Except.ok.injEq] at h
        rw [← h]
        exact ⟨fun a ha => (by cases ha), fun m hm => (by cases hm)⟩
      · obtain ⟨⟨m, hm⟩, h1, h2, h3⟩ := ihO tokens p p [] r (le_refl _) h
        exact ⟨fun a ha => (by rw [hm] at ha; cases ha), fun _ _ => ⟨h1, h2, h3⟩⟩
      · obtain ⟨⟨a, ha⟩, h1, h2, h3⟩ := ihA tokens p p [] r (le_refl _) h
        exact ⟨fun _ _ => ⟨h1, h2, h3⟩, fun m hm => by rw [ha] at hm; cases hm⟩
    · intro tokens init pos acc r hle h
      unfold ParseJsonObject.objectLoop at h
      obtain ⟨t, ht, h⟩ := bind_eq_ok h
      split_ifs at h with hclose
      · obtain ⟨key, _, h⟩ := bind_eq_ok h
        split_ifs at h
        obtain ⟨sep, _, h⟩ := bind_eq_ok h
        split_ifs at h
        obtain ⟨cur, _, h⟩ := bind_eq_ok h
        simp only at h
        split_ifs at h
        exact ihO tokens init _ _ r (by omega) h
      · simp only [Except.ok.injEq] at h
        have hlt := tokAt_ok_lt ht
        have hv : t.2.value = ['}'] := by
          by_contra hne
          exact hclose hne
        rw [← h]
        refine ⟨⟨_, rfl⟩, by simp, by simp only; omega, t, ?_, hv⟩
        simp only
        rw [show init + (pos - init + 1) - 1 = pos by omega]
        exact ht
    · intro tokens init pos acc r hle h
      unfold ParseJsonObject.arrayLoop at h
      obtain ⟨t, ht, h⟩ := bind_eq_ok h
      split_ifs at h with hclose
      · obtain ⟨cur, _, h⟩ := bind_eq_ok h
        simp only at h
        split_ifs at h
        exact ihA tokens init _ _ r (by omega) h
      · simp only [Except.ok.injEq] at h
        have hlt := tokAt_ok_lt ht
        have hv : t.2.value = [']'] := by
          by_contra hne
          exact hclose hne
        rw [← h]
        refine ⟨⟨_, rfl⟩, by simp, by simp only; omega, t, ?_, hv⟩
        simp only
        rw [show init + (pos - init + 1) - 1 = pos by omega]
        exact ht

/-! ## Claims C1 to C10 -/

/-- Claim C1, evaluated on the code: the texts null, true and false are
tokenized into one NONE or BOOL token, `ParseJsonObject` has no branch for
these two kinds, and `ParseJsonString` ends in the runtime_error
"bad format." instead of returning a value. -/
theorem literals_rejected :
    TokenizeAll ['n', 'u', 'l', 'l'] = .ok [(4, ⟨.NONE, ['n', 'u', 'l', 'l']⟩)] ∧
    TokenizeAll ['t', 'r', 'u', 'e'] = .ok [(4, ⟨.BOOL, ['t', 'r', 'u', 'e']⟩)] ∧
    TokenizeAll ['f', 'a', 'l', 's', 'e'] = .ok [(5, ⟨.BOOL, ['f', 'a', 'l', 's', 'e']⟩)] ∧
    ParseJsonString ['n', 'u', 'l', 'l'] = .error (.runtime_error "bad format.") ∧
    ParseJsonString ['t', 'r', 'u', 'e'] = .error (.runtime_error "bad format.") ∧
    ParseJsonString ['f', 'a', 'l', 's', 'e'] = .error (.runtime_error "bad format.") :=
  ⟨rfl, rfl, rfl, rfl, rfl, rfl⟩

/-- Claim C2: for every non-empty string `d` of decimal digits whose value
is at most 2147483647, leading zeros allowed, `ParseJsonString d` succeeds
and returns a value with `GetType = Integer` and `ToInteger` the value of
`d`. -/
theorem digits_parse_to_integer (d : List Char) (hne : d ≠ [])
    (hds : ∀ c ∈ d, isdigit c = true) (hr : decVal d ≤ 2147483647) :
    ∃ v, ParseJsonString d = .ok v ∧ v.GetType = .Integer ∧
      v.ToInteger = .ok (decVal d : Int) :=
  ⟨.Integer (decVal d), ParseJsonString_digits d ⟨hne, hds, hr⟩, rfl, rfl⟩

/-- Claim C2 on the texts 123, 0 and 007: the values are 123, 0 and 7. -/
theorem digits_parse_to_integer_witness :
    (['1', '2', '3'] ≠ [] ∧ (∀ c ∈ ['1', '2', '3'], isdigit c = true) ∧
      decVal ['1', '2', '3'] ≤ 2147483647 ∧
      ∃ v, ParseJsonString ['1', '2', '3'] = .ok v ∧ v.GetType = .Integer ∧
        v.ToInteger = .ok 123) ∧
    (∃ v, ParseJsonString ['0'] = .ok v ∧ v.GetType = .Integer ∧ v.ToInteger = .ok 0) ∧
    (∃ v, ParseJsonString ['0', '0', '7'] = .ok v ∧ v.GetType = .Integer ∧
      v.ToInteger = .ok 7) :=
  ⟨⟨by decide, by decide, by decide,
      digits_parse_to_integer ['1', '2', '3'] (by decide) (by decide) (by decide)⟩,
    digits_parse_to_integer ['0'] (by decide) (by decide) (by decide),
    digits_parse_to_integer ['0', '0', '7'] (by decide) (by decide) (by decide)⟩

/-- Claim C3 fails on the text -12.5e3: it is a JSON number literal, yet
`TokenizeAll` returns six tokens, the first of kind UNKNOWN, and
`ParseJsonString` ends in the runtime_error "bad format.". -/
theorem number_literal_counterexample :
    jsonNumberLiteral ['-', '1', '2', '.', '5', 'e', '3'] = true ∧
    TokenizeAll ['-', '1', '2', '.', '5', 'e', '3'] =
      .ok [(1, ⟨.UNKNOWN, ['-']⟩), (2, ⟨.NUMBER, ['1', '2']⟩), (1, ⟨.UNKNOWN, ['.']⟩),
        (1, ⟨.NUMBER, ['5']⟩), (1, ⟨.UNKNOWN, ['e']⟩), (1, ⟨.NUMBER, ['3']⟩)] ∧
    ParseJsonString ['-', '1', '2', '.', '5', 'e', '3'] =
      .error (.runtime_error "bad format.") :=
  ⟨by decide, rfl, rfl⟩

/-- Claim C3 as amended: for every JSON number literal made of digits only
(no sign, fraction or exponent) `TokenizeAll` returns exactly one token, of
kind NUMBER, whose lexeme is the whole text, and `ParseJsonString` returns
the Integer of its value when the value is at most 2147483647. -/
theorem digit_literal_one_token (t : List Char) (hlit : jsonNumberLiteral t = true)
    (hds : ∀ c ∈ t, isdigit c = true) :
    TokenizeAll t = .ok [(t.length, ⟨.NUMBER, t⟩)] ∧
      (decVal t ≤ 2147483647 → ParseJsonString t = .ok (.Integer (decVal t))) := by
  have hne : t ≠ [] := by
    rintro rfl
    revert hlit
    decide
  refine ⟨?_, fun hr => ParseJsonString_digits t ⟨hne, hds, hr⟩⟩
  have h := TokenizeAll_pieces [Piece.num t] (by simp) ⟨⟨hne, hds⟩, by simp, trivial⟩
  simpa [piecesText, Piece.text, Piece.token] using h

/-- Claim C3 as amended, on the text 123. -/
theorem digit_literal_one_token_witness :
    jsonNumberLiteral ['1', '2', '3'] = true ∧ (∀ c ∈ ['1', '2', '3'], isdigit c = true) ∧
      TokenizeAll ['1', '2', '3'] = .ok [(3, ⟨.NUMBER, ['1', '2', '3']⟩)] ∧
      (decVal ['1', '2', '3'] ≤ 2147483647 →
        ParseJsonString ['1', '2', '3'] = .ok (.Integer 123)) :=
  ⟨by decide, by decide, digit_literal_one_token ['1', '2', '3'] (by decide) (by decide)⟩

/-- Claim C4 fails on the text quote, a, backslash, n, b, quote: `ToString`
of the result is the four characters a, backslash, n, b and not a, newline,
b; and in the text quote, a, backslash, quote, b, quote the literal ends at
the quote that follows the backslash. -/
theorem escape_counterexample :
    (ParseJsonString ['"', 'a', '\\', 'n', 'b', '"'] >>= JsonObject.ToString) =
      .ok ['a', '\\', 'n', 'b'] ∧
    ['a', '\\', 'n', 'b'] ≠ ['a', '\n', 'b'] ∧
    Tokenize ['"', 'a', '\\', '"', 'b', '"'] 0 = .ok (4, ⟨.STRING, ['a', '\\']⟩) :=
  ⟨rfl, by decide, rfl⟩

/-- Claim C4 as amended: the string matcher decodes nothing. For every
non-empty `t` without a double quote, backslashes included as they are,
`ParseJsonString` of `t` between double quotes returns the String `t`, whose
`ToString` is `t` itself; and wherever `t` stands between double quotes in a
text, after any prefix `pre` and before any rest, the scan that starts at
the opening quote yields the STRING token with lexeme `t` and consumed
length `|t| + 2`: the literal ends at the closing quote also when the last
character of `t` is a backslash, so a backslash-escaped double quote does
terminate the literal. -/
theorem string_literal_raw (pre t rest : List Char) (hne : t ≠ []) (hq : '"' ∉ t) :
    ParseJsonString ('"' :: (t ++ ['"'])) = .ok (.String t) ∧
      (ParseJsonString ('"' :: (t ++ ['"'])) >>= JsonObject.ToString) = .ok t ∧
      Tokenize (pre ++ '"' :: (t ++ '"' :: rest)) pre.length =
        .ok (t.length + 2, ⟨.STRING, t⟩) := by
  have hparse : ParseJsonString ('"' :: (t ++ ['"'])) = .ok (.String t) := by
    have h := TokenizeAll_pieces [Piece.str t] (by simp) ⟨⟨hne, hq⟩, by simp, trivial⟩
    simp only [piecesText, List.append_nil, Piece.text, List.map_cons, List.map_nil,
      Piece.token] at h
    have hp := ParseJsonObject_string (2 * 1 + 1) [(t.length + 2, ⟨.STRING, t⟩)] 0
      (t.length + 2) t rfl
    unfold ParseJsonString
    rw [h]
    simp only [ok_bind, Parse, List.length_singleton]
    rw [hp]
    rfl
  refine ⟨hparse, ?_, ?_⟩
  · rw [hparse]
    rfl
  · have h := Tokenize_piece pre (Piece.str t) rest ⟨hne, hq⟩ (by simp [Piece.isNum])
    simpa [Piece.text, Piece.token] using h

/-- Claim C4 as amended, on the text quote, a, backslash, n, b, quote, and on
the literal quote, a, backslash, quote that stands at position 2 of the text
bracket, blank, quote, a, backslash, quote, b, quote, bracket. -/
theorem string_literal_raw_witness :
    (['a', '\\', 'n', 'b'] ≠ [] ∧ '"' ∉ ['a', '\\', 'n', 'b'] ∧
      ParseJsonString ['"', 'a', '\\', 'n', 'b', '"'] = .ok (.String ['a', '\\', 'n', 'b']) ∧
      (ParseJsonString ['"', 'a', '\\', 'n', 'b', '"'] >>= JsonObject.ToString) =
        .ok ['a', '\\', 'n', 'b']) ∧
    Tokenize ['[', ' ', '"', 'a', '\\', '"', 'b', '"', ']'] 2 =
      .ok (4, ⟨.STRING, ['a', '\\']⟩) :=
  ⟨⟨by decide, by decide,
      (string_literal_raw [] ['a', '\\', 'n', 'b'] [] (by decide) (by decide)).1,
      (string_literal_raw [] ['a', '\\', 'n', 'b'] [] (by decide) (by decide)).2.1⟩,
    (string_literal_raw ['[', ' '] ['a', '\\'] ['b', '"', ']'] (by decide) (by decide)).2.2⟩

/-- Claim C5, evaluated on the code at the empty literal (two double
quotes): `TokenizeString` matches nothing, because its do-while loop steps
over the closing quote before looking at it; `Tokenize` makes the opening
quote an UNKNOWN token; the scan that starts at the second quote then reads
`src[3]` in a text of size 2, and no String value comes back. -/
theorem empty_string_literal_lost :
    TokenizeString ['"', '"'] 0 = .ok emptyResult ∧
    Tokenize ['"', '"'] 0 = .ok (1, ⟨.UNKNOWN, ['"']⟩) ∧
    TokenizeString ['"', '"'] 1 = .error .undefined ∧
    TokenizeAll ['"', '"'] = .error .undefined ∧
    ParseJsonString ['"', '"'] = .error .undefined :=
  ⟨rfl, rfl, rfl, rfl, rfl⟩

/-- Claim C6: for every non-empty list `ns` of integers in 0..2147483647,
`ParseJsonString` of the text `[n1,n2,...,nk]` succeeds and returns a value
with `GetType = Array` whose `ToArray` has length `k` and holds the Integer
`ni` at index `i`, for every `i`: the elements are in source order. -/
theorem array_of_integers (ns : List Nat) (hne : ns ≠ [])
    (hr : ∀ n ∈ ns, n ≤ 2147483647) :
    ∃ v a, ParseJsonString (arrayText ns) = .ok v ∧ v.GetType = .Array ∧
      v.ToArray = .ok a ∧ a.length = ns.length ∧
      ∀ i (hi : i < ns.length), vectorAt a i = .ok (.Integer (ns[i] : Nat)) := by
  refine ⟨_, _, ParseJsonString_arrayText ns hne hr, rfl, rfl, by simp, ?_⟩
  intro i hi
  simp [vectorAt, hi]

/-- Claim C6 on the text `[1,2,3]`: the element at index 1 has `ToInteger`
equal to 2. -/
theorem array_of_integers_witness :
    ([1, 2, 3] ≠ [] ∧ (∀ n ∈ [1, 2, 3], n ≤ 2147483647) ∧
      ∃ v a, ParseJsonString (arrayText [1, 2, 3]) = .ok v ∧ v.GetType = .Array ∧
        v.ToArray = .ok a ∧ a.length = [1, 2, 3].length ∧
        ∀ i (hi : i < [1, 2, 3].length),
          vectorAt a i = .ok (.Integer (([1, 2, 3] : List Nat)[i] : Nat))) ∧
    arrayText [1, 2, 3] = ['[', '1', ',', '2', ',', '3', ']'] ∧
    (ParseJsonString ['[', '1', ',', '2', ',', '3', ']'] >>= JsonObject.ToArray >>=
      (fun a => vectorAt a 1) >>= JsonObject.ToInteger) = .ok 2 :=
  ⟨⟨by decide, by simp, array_of_integers [1, 2, 3] (by decide) (by simp)⟩, by rfl, by
    rw [show ParseJsonString ['[', '1', ',', '2', ',', '3', ']'] =
      .ok (.Array [.Integer 1, .Integer 2, .Integer 3]) from
      ParseJsonString_arrayText [1, 2, 3] (by decide) (by simp)]
    rfl⟩

/-- Claim C7, evaluated on the code: on the texts `[]` and `{}` the loop
of the container tests the opening token, enters its body, and the closing
token is rejected where an element or a key is expected: both calls end in
the runtime_error "bad format.". -/
theorem empty_containers_rejected :
    ParseJsonString ['[', ']'] = .error (.runtime_error "bad format.") ∧
    ParseJsonString ['{', '}'] = .error (.runtime_error "bad format.") :=
  ⟨rfl, rfl⟩

/-- Claim C8 fails on the object with the members b, 1 and a, 2 in this
order in the text: the keys are distinct, the source order is b then a, and
the Object iterates a then b. -/
theorem key_order_counterexample :
    objectText [(['b'], 1), (['a'], 2)] =
      ['{', '"', 'b', '"', ':', '1', ',', '"', 'a', '"', ':', '2', '}'] ∧
    ([(['b'], 1), (['a'], 2)] : List (List Char × Nat)).map Prod.fst = [['b'], ['a']] ∧
    ([['b'], ['a']] : List (List Char)).Nodup ∧
    (ParseJsonString (objectText [(['b'], 1), (['a'], 2)]) >>= JsonObject.ToObject) =
      .ok [(['a'], .Integer 2), (['b'], .Integer 1)] ∧
    mapKeys [(['a'], .Integer 2), (['b'], .Integer 1)] = [['a'], ['b']] ∧
    ([['a'], ['b']] : List (List Char)) ≠ [['b'], ['a']] :=
  ⟨rfl, rfl, by decide, rfl, rfl, by decide⟩

/-- Claim C8 as amended: for every object document
`{"k1":n1,...,"km":nm}` with pairwise distinct keys (non-empty, without
double quote) and integers in 0..2147483647, `ParseJsonString` returns an
Object that iterates exactly the keys of the text in strictly ascending
order, the lexicographic order of `std::string`, whatever their order in the
text. -/
theorem object_keys_ascending (ms : List (List Char × Nat)) (hne : ms ≠ [])
    (hk : ∀ m ∈ ms, m.1 ≠ [] ∧ '"' ∉ m.1) (hn : ∀ m ∈ ms, m.2 ≤ 2147483647)
    (hd : (ms.map Prod.fst).Nodup) :
    ∃ v m, ParseJsonString (objectText ms) = .ok v ∧ v.GetType = .Object ∧
      v.ToObject = .ok m ∧ (mapKeys m).Pairwise (· < ·) ∧
      (mapKeys m).Perm (ms.map Prod.fst) := by
  have hs := insertMembers_sorted (ms.map memberDigits) [] (by simp [mapKeys])
  refine ⟨_, _, ParseJsonString_objectText ms hne hk hn, rfl, rfl, hs, ?_⟩
  rw [List.perm_ext_iff_of_nodup (pairwise_lt_nodup _ hs) hd]
  intro k
  rw [mem_mapKeys_insertMembers, map_fst_memberDigits]
  simp [mapKeys]

/-- Claim C8 as amended, on the members a, 1 and b, 2 (keys a then b, as in
the text) and on the members b, 1 and a, 2 (keys a then b again). -/
theorem object_keys_ascending_witness :
    ((([(['a'], 1), (['b'], 2)] : List (List Char × Nat)) ≠ []) ∧
      (([(['a'], 1), (['b'], 2)] : List (List Char × Nat)).map Prod.fst).Nodup ∧
      ∃ v m, ParseJsonString (objectText [(['a'], 1), (['b'], 2)]) = .ok v ∧
        v.GetType = .Object ∧ v.ToObject = .ok m ∧ (mapKeys m).Pairwise (· < ·) ∧
        (mapKeys m).Perm ([(['a'], 1), (['b'], 2)].map Prod.fst)) ∧
    (ParseJsonString (objectText [(['a'], 1), (['b'], 2)]) >>= JsonObject.ToObject) =
      .ok [(['a'], .Integer 1), (['b'], .Integer 2)] ∧
    (ParseJsonString (objectText [(['b'], 1), (['a'], 2)]) >>= JsonObject.ToObject) =
      .ok [(['a'], .Integer 2), (['b'], .Integer 1)] :=
  ⟨⟨by decide, by decide,
      object_keys_ascending [(['a'], 1), (['b'], 2)] (by decide) (by simp) (by simp)
        (by decide)⟩, rfl, rfl⟩

/-- Claim C9 fails on the object with the members a, 1 and a, 2: the key a
occurs twice and `ParseJsonString` returns the Object with the one entry
a, 1. -/
theorem duplicate_key_counterexample :
    objectText [(['a'], 1), (['a'], 2)] =
      ['{', '"', 'a', '"', ':', '1', ',', '"', 'a', '"', ':', '2', '}'] ∧
    ¬ (([(['a'], 1), (['a'], 2)] : List (List Char × Nat)).map Prod.fst).Nodup ∧
    ParseJsonString (objectText [(['a'], 1), (['a'], 2)]) =
      .ok (.Object [(['a'], .Integer 1)]) :=
  ⟨rfl, by decide, rfl⟩

/-- Claim C9 as amended: for every object document
`{"k1":n1,...,"km":nm}` (keys non-empty and without double quote,
integers in 0..2147483647) in which a key occurs in two members,
`ParseJsonString` does not fail: it returns an Object with one entry for
each key of the text, so fewer entries than members, and the entry of the
first member is the one of the text. -/
theorem duplicate_key_accepted (ms : List (List Char × Nat)) (hne : ms ≠ [])
    (hk : ∀ m ∈ ms, m.1 ≠ [] ∧ '"' ∉ m.1) (hn : ∀ m ∈ ms, m.2 ≤ 2147483647)
    (hdup : ¬ (ms.map Prod.fst).Nodup) :
    ∃ v m, ParseJsonString (objectText ms) = .ok v ∧ v.GetType = .Object ∧
      v.ToObject = .ok m ∧ (mapKeys m).Nodup ∧
      (∀ k, k ∈ mapKeys m ↔ k ∈ ms.map Prod.fst) ∧ m.length < ms.length ∧
      ∀ first ∈ ms.head?, (first.1, JsonObject.Integer (first.2 : Nat)) ∈ m := by
  have hs := insertMembers_sorted (ms.map memberDigits) [] (by simp [mapKeys])
  have hnd := pairwise_lt_nodup _ hs
  have hmem : ∀ k, k ∈ mapKeys (insertMembers [] (ms.map memberDigits)) ↔
      k ∈ ms.map Prod.fst := by
    intro k
    rw [mem_mapKeys_insertMembers, map_fst_memberDigits]
    simp [mapKeys]
  refine ⟨_, _, ParseJsonString_objectText ms hne hk hn, rfl, rfl, hnd, hmem, ?_, ?_⟩
  · have hsub : mapKeys (insertMembers [] (ms.map memberDigits)) ⊆ ms.map Prod.fst :=
      fun k hkm => (hmem k).mp hkm
    have hle := (List.subperm_of_subset hnd hsub).length_le
    have hlen : (mapKeys (insertMembers [] (ms.map memberDigits))).length ≠
        (ms.map Prod.fst).length := by
      intro he
      have hp := (List.subperm_of_subset hnd hsub).perm_of_length_le (le_of_eq he.symm)
      exact hdup (hp.nodup_iff.mp hnd)
    simp only [mapKeys, List.length_map] at hle hlen
    omega
  · intro first hfirst
    obtain ⟨a, rest, rfl⟩ := List.exists_cons_of_ne_nil hne
    simp only [List.head?_cons, Option.mem_def, Option.some.injEq] at hfirst
    subst hfirst
    simp only [List.map_cons, insertMembers, List.foldl_cons, memberDigits, mapInsert]
    have h := mem_insertMembers_of_mem (rest.map memberDigits)
      [(a.1, JsonObject.Integer (decVal (decimal a.2)))]
      (a.1, JsonObject.Integer (decVal (decimal a.2))) (by simp)
    rw [(decimal_spec a.2).2.2] at h
    simpa [insertMembers, memberDigits, (decimal_spec a.2).2.2] using h

/-- Claim C9 as amended, on the members a, 1 and a, 2: the result is the
Object with the one entry a, 1. -/
theorem duplicate_key_accepted_witness :
    (¬ (([(['a'], 1), (['a'], 2)] : List (List Char × Nat)).map Prod.fst).Nodup ∧
      ∃ v m, ParseJsonString (objectText [(['a'], 1), (['a'], 2)]) = .ok v ∧
        v.GetType = .Object ∧ v.ToObject = .ok m ∧ (mapKeys m).Nodup ∧
        (∀ k, k ∈ mapKeys m ↔ k ∈ [(['a'], 1), (['a'], 2)].map Prod.fst) ∧
        m.length < [(['a'], 1), (['a'], 2)].length ∧
        ∀ first ∈ [(['a'], 1), (['a'], 2)].head?,
          (first.1, JsonObject.Integer (first.2 : Nat)) ∈ m) ∧
    (ParseJsonString (objectText [(['a'], 1), (['a'], 2)]) >>= JsonObject.ToObject) =
      .ok [(['a'], .Integer 1)] :=
  ⟨⟨by decide,
      duplicate_key_accepted [(['a'], 1), (['a'], 2)] (by decide) (by simp) (by simp)
        (by decide)⟩, rfl⟩

/-- Claim C10 fails on the text 1 2 (digit, space, digit): the token
sequence has two tokens, the first value consumes one of them, and
`ParseJsonString` returns the Integer 1. -/
theorem trailing_tokens_counterexample :
    TokenizeAll ['1', ' ', '2'] = .ok [(1, ⟨.NUMBER, ['1']⟩), (1, ⟨.NUMBER, ['2']⟩)] ∧
    ParseJsonObject 6 [(1, ⟨.NUMBER, ['1']⟩), (1, ⟨.NUMBER, ['2']⟩)] 0 =
      .ok (1, .Integer 1) ∧
    ParseJsonString ['1', ' ', '2'] = .ok (.Integer 1) :=
  ⟨rfl, rfl, rfl⟩

/-- Claim C10 as amended: `ParseJsonString` returns the first top-level value
whether or not tokens follow it. Whenever the token sequence of a text is
`tokens ++ extra` and `Parse` returns `v` on `tokens` alone, `ParseJsonString`
returns `v` on the text. -/
theorem trailing_tokens_ignored (src : List Char) (tokens extra : List (Nat × Token))
    (v : JsonObject) (htok : TokenizeAll src = .ok (tokens ++ extra))
    (hval : Parse tokens = .ok v) : ParseJsonString src = .ok v := by
  unfold ParseJsonString
  rw [htok]
  exact Parse_append tokens extra v hval

/-- Claim C10 as amended, on the text 1 2: the value is the Integer 1. -/
theorem trailing_tokens_ignored_witness :
    TokenizeAll ['1', ' ', '2'] = .ok ([(1, ⟨.NUMBER, ['1']⟩)] ++ [(1, ⟨.NUMBER, ['2']⟩)]) ∧
    Parse [(1, ⟨.NUMBER, ['1']⟩)] = .ok (.Integer 1) ∧
    ParseJsonString ['1', ' ', '2'] = .ok (.Integer 1) :=
  ⟨rfl, rfl,
    trailing_tokens_ignored ['1', ' ', '2'] [(1, ⟨.NUMBER, ['1']⟩)] [(1, ⟨.NUMBER, ['2']⟩)]
      (.Integer 1) rfl rfl⟩

/-! ## Claims C11 to C20 -/

/-- Claim C11 fails for the limit 512: the text with 513 opening brackets,
the digit 1 and 513 closing brackets, 1027 characters, is nested deeper than
512 and `ParseJsonString` returns a value for it, the Integer 1 inside 513
Arrays. -/
theorem nesting_limit_counterexample :
    512 < 513 ∧ (nestedText 513).length = 1027 ∧
    ParseJsonString (nestedText 513) = .ok (nest 513 (.Integer 1)) ∧
    ¬ ∀ d, 512 < d → ∀ v, ParseJsonString (nestedText d) ≠ .ok v :=
  ⟨by decide,
    by simp only [nestedText, List.length_append, List.length_cons, List.length_replicate],
    ParseJsonString_nested 513,
    fun h => h 513 (by decide) _ (ParseJsonString_nested 513)⟩

/-- Claim C11 as amended: no nesting limit of 512 is applied. For every depth
`d` up to 513, so also for the depth 513 beyond 512, the text of `d` opening
brackets, the digit 1 and `d` closing brackets has `2 * d + 1` characters, at
most 1027, and `ParseJsonString` applied to it returns a value: the Integer 1
inside `d` Arrays of one element each, an Array when `d` is positive. The
bound 513 keeps the statement to texts for which the storage of the program,
which copies the token sequence at every level of the recursion, is of no
concern; storage is not part of the model. -/
theorem nesting_beyond_512_accepted (d : Nat) (hd : d ≤ 513) :
    (nestedText d).length = 2 * d + 1 ∧ (nestedText d).length ≤ 1027 ∧
      ParseJsonString (nestedText d) = .ok (nest d (.Integer 1)) ∧
      (0 < d → (nest d (.Integer 1)).GetType = .Array ∧
        (nest d (.Integer 1)).ToArray = .ok [nest (d - 1) (.Integer 1)]) := by
  have hlen : (nestedText d).length = 2 * d + 1 := by
    simp only [nestedText, List.length_append, List.length_cons, List.length_replicate]
    omega
  refine ⟨hlen, by omega, ParseJsonString_nested d, fun h => ?_⟩
  cases d with
  | zero => exact absurd h (by decide)
  | succ n => exact ⟨rfl, rfl⟩

/-- Claim C11 as amended, at the depth 513: the text of 1027 characters is
parsed to the Integer 1 inside 513 Arrays. -/
theorem nesting_beyond_512_accepted_witness :
    513 ≤ 513 ∧ 512 < 513 ∧
    ParseJsonString (nestedText 513) = .ok (nest 513 (.Integer 1)) ∧
    (nest 513 (.Integer 1)).GetType = .Array :=
  ⟨by decide, by decide, (nesting_beyond_512_accepted 513 (by decide)).2.2.1,
    ((nesting_beyond_512_accepted 513 (by decide)).2.2.2 (by decide)).1⟩

/-- Claim C12: for every token sequence and every in-range position whose
token is of kind UNKNOWN, or of kind OPERATOR with a lexeme other than the
opening brace and the opening bracket, `ParseJsonObject` at that position
(with any fuel left) throws the runtime_error "bad format." and returns no
value; and `ParseJsonString` fails in this way on the text with the member
key a, a colon and no value. -/
theorem unexpected_token_rejected (tokens : List (Nat × Token)) (position fuel : Nat)
    (hpos : position < tokens.length)
    (hkind : (tokens[position]).2.type = .UNKNOWN ∨
      ((tokens[position]).2.type = .OPERATOR ∧ (tokens[position]).2.value ≠ ['{'] ∧
        (tokens[position]).2.value ≠ ['['])) :
    ParseJsonObject (fuel + 1) tokens position = .error (.runtime_error "bad format.") ∧
      ParseJsonString ['{', '"', 'a', '"', ':', '}'] =
        .error (.runtime_error "bad format.") := by
  refine ⟨?_, rfl⟩
  have h : tokAt tokens position = .ok tokens[position] := by
    simp [tokAt, List.getElem?_eq_getElem hpos]
  unfold ParseJsonObject
  rw [h]
  simp only [ok_bind]
  rcases hkind with hk | ⟨hk, h1, h2⟩
  · simp [hk]
  · simp [hk, h1, h2]

/-- Claim C12 on the tokens of the text with the member key a, a colon and
no value: position 3, after the colon, holds the closing brace. -/
theorem unexpected_token_rejected_witness :
    TokenizeAll ['{', '"', 'a', '"', ':', '}'] =
      .ok [(1, ⟨.OPERATOR, ['{']⟩), (3, ⟨.STRING, ['a']⟩), (1, ⟨.OPERATOR, [':']⟩),
        (1, ⟨.OPERATOR, ['}']⟩)] ∧
    ParseJsonObject 7 [(1, ⟨.OPERATOR, ['{']⟩), (3, ⟨.STRING, ['a']⟩),
        (1, ⟨.OPERATOR, [':']⟩), (1, ⟨.OPERATOR, ['}']⟩)] 3 =
      .error (.runtime_error "bad format.") ∧
    ParseJsonString ['{', '"', 'a', '"', ':', '}'] = .error (.runtime_error "bad format.") :=
  ⟨rfl,
    unexpected_token_rejected [(1, ⟨.OPERATOR, ['{']⟩), (3, ⟨.STRING, ['a']⟩),
      (1, ⟨.OPERATOR, [':']⟩), (1, ⟨.OPERATOR, ['}']⟩)] 3 6 (by decide)
      (Or.inr ⟨rfl, by decide, by decide⟩)⟩

/-- Claim C13 fails on the texts `[1:2]`, the object with key a, a comma and
1, and the object whose two members are joined by a colon: the three are
parsed to values. -/
theorem punctuation_counterexample :
    ParseJsonString ['[', '1', ':', '2', ']'] = .ok (.Array [.Integer 1, .Integer 2]) ∧
    ParseJsonString ['{', '"', 'a', '"', ',', '1', '}'] =
      .ok (.Object [(['a'], .Integer 1)]) ∧
    looseObjectText [('{', ['a'], ':', 1), (':', ['b'], ':', 2)] =
      ['{', '"', 'a', '"', ':', '1', ':', '"', 'b', '"', ':', '2', '}'] ∧
    ParseJsonString (looseObjectText [('{', ['a'], ':', 1), (':', ['b'], ':', 2)]) =
      .ok (.Object [(['a'], .Integer 1), (['b'], .Integer 2)]) :=
  ⟨rfl, rfl, rfl, by
    rw [ParseJsonString_looseObject ['a'] ':' 1 [(':', ['b'], ':', 2)]
      (by simp [operators])]
    rfl⟩

/-- Claim C13 as amended: punctuation is checked in one place only, and by
kind. In an object, a token after a key that is not of kind OPERATOR makes
`ParseJsonObject` fail; any operator character is taken in the place of the
colon. The token after an array element or after a member value is compared
with the closing bracket only, and any other operator character is taken as
the separator: a text whose array elements (integers in 0..2147483647) or
object members (non-empty keys without double quote) are written so is
parsed like the text with commas and colons. -/
theorem punctuation_by_kind_only (n : Nat) (rest : List (Char × Nat)) (k : List Char)
    (col : Char) (v : Nat) (more : List (Char × List Char × Char × Nat))
    (hn : n ≤ 2147483647)
    (hrest : ∀ e ∈ rest, e.1 ∈ operators ∧ e.1 ≠ ']' ∧ e.2 ≤ 2147483647)
    (hmem : ∀ m ∈ ('{', k, col, v) :: more,
      m.1 ∈ operators ∧ m.1 ≠ '}' ∧ (m.2.1 ≠ [] ∧ '"' ∉ m.2.1) ∧ m.2.2.1 ∈ operators ∧
        m.2.2.2 ≤ 2147483647) :
    (ParseJsonString (looseArrayText (('[', n) :: rest)) =
        ParseJsonString (arrayText (n :: rest.map Prod.snd)) ∧
      ParseJsonString (looseArrayText (('[', n) :: rest)) =
        .ok (.Array ((n :: rest.map Prod.snd).map
          fun x : Nat => JsonObject.Integer (x : Int)))) ∧
    (ParseJsonString (looseObjectText (('{', k, col, v) :: more)) =
        ParseJsonString (objectText ((k, v) :: more.map fun m => (m.2.1, m.2.2.2))) ∧
      ∃ obj, ParseJsonString (looseObjectText (('{', k, col, v) :: more)) =
        .ok (.Object obj)) ∧
    ∀ (tokens : List (Nat × Token)) (init pos fuel : Nat)
      (acc : List (List Char × JsonObject)) (t key sep : Nat × Token),
      tokAt tokens pos = .ok t → t.2.value ≠ ['}'] →
      tokAt tokens (pos + 1) = .ok key → key.2.type = .STRING →
      tokAt tokens (pos + 1 + 1) = .ok sep → sep.2.type ≠ .OPERATOR →
      ParseJsonObject.objectLoop (fuel + 1) tokens init pos acc =
        .error (.runtime_error "bad format") := by
  have ha := ParseJsonString_looseArray n rest hn hrest
  have ho := ParseJsonString_looseObject k col v more hmem
  refine ⟨⟨?_, ha⟩, ⟨?_, _, ho⟩, ?_⟩
  · rw [ha, ParseJsonString_arrayText (n :: rest.map Prod.snd) (by simp)]
    intro x hx
    rcases List.mem_cons.mp hx with h | h
    · rw [h]; exact hn
    · obtain ⟨e, he, rfl⟩ := List.mem_map.mp h
      exact (hrest e he).2.2
  · rw [ho, ParseJsonString_objectText ((k, v) :: more.map fun m => (m.2.1, m.2.2.2))
      (by simp)]
    · intro m hm
      rcases List.mem_cons.mp hm with h | h
      · rw [h]; exact (hmem ('{', k, col, v) (by simp)).2.2.1
      · obtain ⟨e, he, rfl⟩ := List.mem_map.mp h
        exact (hmem e (by simp [he])).2.2.1
    · intro m hm
      rcases List.mem_cons.mp hm with h | h
      · rw [h]; exact (hmem ('{', k, col, v) (by simp)).2.2.2.2
      · obtain ⟨e, he, rfl⟩ := List.mem_map.mp h
        exact (hmem e (by simp [he])).2.2.2.2
  · intro tokens init pos fuel acc t key sep h0 hopen h1 hkey h2 hsep
    exact objectLoop_key_guard tokens init pos fuel acc t key sep h0 hopen h1 hkey h2 hsep

/-- Claim C13 as amended, on the array text `[1:2]` and on the object text
with key a, a comma in the place of the colon, and 1. -/
theorem punctuation_by_kind_only_witness :
    looseArrayText [('[', 1), (':', 2)] = ['[', '1', ':', '2', ']'] ∧
    looseObjectText [('{', ['a'], ',', 1)] = ['{', '"', 'a', '"', ',', '1', '}'] ∧
    ParseJsonString (looseArrayText (('[', 1) :: [(':', 2)])) =
      .ok (.Array (((1 : Nat) :: [(':', (2 : Nat))].map Prod.snd).map
        fun x : Nat => JsonObject.Integer (x : Int))) ∧
    ∃ obj, ParseJsonString (looseObjectText (('{', ['a'], ',', 1) :: [])) =
      .ok (.Object obj) :=
  ⟨rfl, rfl,
    (punctuation_by_kind_only 1 [(':', 2)] ['a'] ',' 1 [] (by decide)
      (by simp [operators]) (by simp [operators])).1.2,
    (punctuation_by_kind_only 1 [(':', 2)] ['a'] ',' 1 [] (by decide)
      (by simp [operators]) (by simp [operators])).2.1.2⟩

/-- Claim C14, evaluated on the code: on the texts with only an opening
bracket, only an opening brace, or an array that ends after a comma,
`ParseJsonObject` indexes the token sequence at `tokens.size()` (undefined
behaviour) and no runtime_error is thrown; the runtime_error is reached only
when the text ends right after an element or a member value. -/
theorem unterminated_container_out_of_bounds :
    TokenizeAll ['['] = .ok [(1, ⟨.OPERATOR, ['[']⟩)] ∧
    tokAt [(1, ⟨.OPERATOR, ['[']⟩)] 1 = .error .undefined ∧
    ParseJsonString ['['] = .error .undefined ∧
    ParseJsonString ['{'] = .error .undefined ∧
    ParseJsonString ['[', '1', ','] = .error .undefined ∧
    ParseJsonString ['[', '1'] = .error (.runtime_error "\"]\" missing.") ∧
    ParseJsonString ['{', '"', 'a', '"', ':', '1'] =
      .error (.runtime_error "\"\x7d\" missing.") :=
  ⟨rfl, rfl, rfl, rfl, rfl, rfl, rfl⟩

/-- Claim C15 fails on the text bracket, 1, quote, 2, bracket: the quote has
no closing quote, `TokenizeAll` returns five tokens, the quote among them as
an UNKNOWN token, and `ParseJsonString` returns the Array of 1 and 2. -/
theorem open_quote_counterexample :
    '"' ∉ ['2', ']'] ∧
    TokenizeAll ['[', '1', '"', '2', ']'] =
      .ok [(1, ⟨.OPERATOR, ['[']⟩), (1, ⟨.NUMBER, ['1']⟩), (1, ⟨.UNKNOWN, ['"']⟩),
        (1, ⟨.NUMBER, ['2']⟩), (1, ⟨.OPERATOR, [']']⟩)] ∧
    ParseJsonString ['[', '1', '"', '2', ']'] = .ok (.Array [.Integer 1, .Integer 2]) :=
  ⟨by decide, rfl, rfl⟩

/-- Claim C15 as amended: a double quote that opens a string literal with at
least one character after it and no double quote before the end of the text
does not make tokenizing fail. `TokenizeString` reports no match, `Tokenize`
returns the quote as an UNKNOWN token of consumed length 1, and `TokenizeAll`
returns a token sequence for the text. -/
theorem open_quote_unknown_token (pre rest : List Char) (hne : rest ≠ [])
    (hq : '"' ∉ rest) :
    TokenizeString (pre ++ '"' :: rest) pre.length = .ok emptyResult ∧
      Tokenize (pre ++ '"' :: rest) pre.length = .ok (1, ⟨.UNKNOWN, ['"']⟩) ∧
      ∃ toks, TokenizeAll (pre ++ '"' :: rest) = .ok toks := by
  obtain ⟨x, r, rfl⟩ := List.exists_cons_of_ne_nil hne
  have hr : '"' ∉ r := fun e => hq (by simp [e])
  have h1 := TokenizeString_open pre x r hr
  refine ⟨h1, ?_, ?_⟩
  · have h2 := TokenizeNumber_append pre ('"' :: x :: r)
    have h3 := TokenizeBool_nomatch pre ('"' :: x :: r) (by simp) (by simp)
    have h4 := TokenizeNull_nomatch pre ('"' :: x :: r) (by simp)
    have h0 := charAt_append_cons pre '"' (x :: r)
    have h5 : TokenizeOperator (pre ++ '"' :: x :: r) pre.length = .ok emptyResult := by
      unfold TokenizeOperator
      rw [h0]
      simp only [ok_bind]
      rw [if_neg (by decide)]
    have hd : isdigit '"' = false := by decide
    simp only [List.takeWhile_cons, hd] at h2
    unfold Tokenize
    simp only [tokenizers, Tokenize.run, h1, h2, h3, h4, h5, h0, ok_bind, emptyResult]
    simp
  · apply TokenizeAll_ok
    have hlast : (pre ++ '"' :: x :: r).getLast? = (x :: r).getLast? := by
      rw [show pre ++ '"' :: x :: r = (pre ++ ['"']) ++ (x :: r) by simp]
      exact List.getLast?_append_of_ne_nil _ (by simp)
    rw [hlast]
    intro h
    exact hq (List.mem_of_getLast?_eq_some h)

/-- Claim C15 as amended, on the text bracket, 1, quote, 2, bracket. -/
theorem open_quote_unknown_token_witness :
    (['2', ']'] ≠ [] ∧ '"' ∉ ['2', ']'] ∧
      TokenizeString (['[', '1'] ++ '"' :: ['2', ']']) 2 = .ok emptyResult ∧
      Tokenize (['[', '1'] ++ '"' :: ['2', ']']) 2 = .ok (1, ⟨.UNKNOWN, ['"']⟩) ∧
      ∃ toks, TokenizeAll (['[', '1'] ++ '"' :: ['2', ']']) = .ok toks) ∧
    ParseJsonString ['[', '1', '"', '2', ']'] = .ok (.Array [.Integer 1, .Integer 2]) :=
  ⟨⟨by decide, by decide,
      open_quote_unknown_token ['[', '1'] ['2', ']'] (by decide) (by decide)⟩, rfl⟩

/-- Claim C16: each accessor returns the stored payload exactly when the value
holds the accessor's own kind, which is when `GetType` reports that kind, and
ends in `std::terminate` without a value for every other kind, `Unknown`
included; after an assignment of a native value `GetType` is the kind of that
value and the matching accessor returns it; `ToString` fails on an Integer. -/
theorem accessors_checked (v : JsonObject) :
    ((∀ x, v.ToInteger = .ok x ↔ v = .Integer x) ∧
      (v.GetType = .Integer ↔ ∃ x, v = .Integer x) ∧
      (v.GetType ≠ .Integer → v.ToInteger = .error .terminate)) ∧
    ((∀ x, v.ToString = .ok x ↔ v = .String x) ∧
      (v.GetType = .String ↔ ∃ x, v = .String x) ∧
      (v.GetType ≠ .String → v.ToString = .error .terminate)) ∧
    ((∀ x, v.ToBoolean = .ok x ↔ v = .Boolean x) ∧
      (v.GetType = .Boolean ↔ ∃ x, v = .Boolean x) ∧
      (v.GetType ≠ .Boolean → v.ToBoolean = .error .terminate)) ∧
    ((∀ x, v.ToObject = .ok x ↔ v = .Object x) ∧
      (v.GetType = .Object ↔ ∃ x, v = .Object x) ∧
      (v.GetType ≠ .Object → v.ToObject = .error .terminate)) ∧
    ((∀ x, v.ToArray = .ok x ↔ v = .Array x) ∧
      (v.GetType = .Array ↔ ∃ x, v = .Array x) ∧
      (v.GetType ≠ .Array → v.ToArray = .error .terminate)) ∧
    (∀ x, (v.assignInt x).GetType = .Integer ∧ (v.assignInt x).ToInteger = .ok x) ∧
    (∀ x, (v.assignString x).GetType = .String ∧ (v.assignString x).ToString = .ok x) ∧
    (∀ x, (v.assignBool x).GetType = .Boolean ∧ (v.assignBool x).ToBoolean = .ok x) ∧
    (∀ x, (v.assignObject x).GetType = .Object ∧ (v.assignObject x).ToObject = .ok x) ∧
    (∀ x, (v.assignArray x).GetType = .Array ∧ (v.assignArray x).ToArray = .ok x) ∧
    (v.GetType = .Integer → v.ToString = .error .terminate) := by
  refine ⟨?_, ?_, ?_, ?_, ?_, fun x => ⟨rfl, rfl⟩, fun x => ⟨rfl, rfl⟩, fun x => ⟨rfl, rfl⟩,
    fun x => ⟨rfl, rfl⟩, fun x => ⟨rfl, rfl⟩, ?_⟩ <;>
  cases v <;>
  simp [JsonObject.ToInteger, JsonObject.ToString, JsonObject.ToBoolean,
    JsonObject.ToObject, JsonObject.ToArray, JsonObject.GetType]

/-- Claim C17 fails for the carriage return: in front of the text 1 it
becomes an UNKNOWN token, the token sequence has two tokens instead of one,
and `ParseJsonString` ends in the runtime_error "bad format." instead of
returning the Integer 1. -/
theorem carriage_return_counterexample :
    TokenizeAll ['1'] = .ok [(1, ⟨.NUMBER, ['1']⟩)] ∧
    TokenizeAll (['\r'] ++ ['1']) =
      .ok [(1, ⟨.UNKNOWN, ['\r']⟩), (1, ⟨.NUMBER, ['1']⟩)] ∧
    ParseJsonString ['1'] = .ok (.Integer 1) ∧
    ParseJsonString (['\r'] ++ ['1']) = .error (.runtime_error "bad format.") :=
  ⟨rfl, rfl, rfl, rfl⟩

/-- Claim C17 as amended: for every text `t` and every string `w` made only
of space, tab and newline characters, `TokenizeAll (w ++ t)` returns what
`TokenizeAll t` returns, and `ParseJsonString (w ++ t)` has the outcome of
`ParseJsonString t`. -/
theorem blank_prefix_ignored (w t : List Char)
    (hw : ∀ c ∈ w, c = ' ' ∨ c = '\t' ∨ c = '\n') :
    TokenizeAll (w ++ t) = TokenizeAll t ∧ ParseJsonString (w ++ t) = ParseJsonString t := by
  have hb : ∀ c ∈ w, isBlank c = true := by
    intro c hc
    rcases hw c hc with h | h | h <;> simp [isBlank, h]
  have h := TokenizeAll_blank_prefix w t hb
  exact ⟨h, by unfold ParseJsonString; rw [h]⟩

/-- Claim C17 as amended, on space, tab, newline in front of the text 1. -/
theorem blank_prefix_ignored_witness :
    (∀ c ∈ [' ', '\t', '\n'], c = ' ' ∨ c = '\t' ∨ c = '\n') ∧
    (TokenizeAll ([' ', '\t', '\n'] ++ ['1']) = TokenizeAll ['1'] ∧
      ParseJsonString ([' ', '\t', '\n'] ++ ['1']) = ParseJsonString ['1']) ∧
    ParseJsonString ['1'] = .ok (.Integer 1) :=
  ⟨by decide, blank_prefix_ignored [' ', '\t', '\n'] ['1'] (by decide), rfl⟩

/-- Claim C18: for every non-empty list of members with non-empty keys
without double quote and integers in 0..2147483647, `ParseJsonString` of the
text of the object succeeds and returns a value with `GetType = Object` whose
keys are exactly the keys of the text and in which each key is mapped to the
Integer of the first member of the text with that key. -/
theorem object_first_occurrence (ms : List (List Char × Nat)) (hne : ms ≠ [])
    (hk : ∀ m ∈ ms, m.1 ≠ [] ∧ '"' ∉ m.1) (hn : ∀ m ∈ ms, m.2 ≤ 2147483647) :
    ∃ v m, ParseJsonString (objectText ms) = .ok v ∧ v.GetType = .Object ∧
      v.ToObject = .ok m ∧ (∀ k, k ∈ mapKeys m ↔ k ∈ ms.map Prod.fst) ∧
      ∀ (pre : List (List Char × Nat)) (k : List Char) (n : Nat)
        (post : List (List Char × Nat)),
        ms = pre ++ (k, n) :: post → k ∉ pre.map Prod.fst →
        mapFind k m = some (.Integer (n : Int)) := by
  refine ⟨_, _, ParseJsonString_objectText ms hne hk hn, rfl, rfl, ?_, ?_⟩
  · intro k
    rw [mem_mapKeys_insertMembers, map_fst_memberDigits]
    simp [mapKeys]
  · intro pre k n post hms hpre
    have h := mapFind_insertMembers_first (pre.map memberDigits) (post.map memberDigits) k
      (decimal n) (by rw [map_fst_memberDigits]; exact hpre)
    rw [(decimal_spec n).2.2] at h
    rw [hms]
    simpa [memberDigits] using h

/-- Claim C18 on the members a, 1 then b, 2 then a, 3: the keys are a and b,
and a is mapped to 1, the value of its first member. -/
theorem object_first_occurrence_witness :
    ((([(['a'], 1), (['b'], 2), (['a'], 3)] : List (List Char × Nat)) ≠ []) ∧
      ∃ v m, ParseJsonString (objectText [(['a'], 1), (['b'], 2), (['a'], 3)]) = .ok v ∧
        v.GetType = .Object ∧ v.ToObject = .ok m ∧
        (∀ k, k ∈ mapKeys m ↔ k ∈ [(['a'], 1), (['b'], 2), (['a'], 3)].map Prod.fst) ∧
        ∀ (pre : List (List Char × Nat)) (k : List Char) (n : Nat)
          (post : List (List Char × Nat)),
          [(['a'], 1), (['b'], 2), (['a'], 3)] = pre ++ (k, n) :: post →
          k ∉ pre.map Prod.fst → mapFind k m = some (.Integer (n : Int))) ∧
    objectText [(['a'], 1), (['b'], 2), (['a'], 3)] =
      ['{', '"', 'a', '"', ':', '1', ',', '"', 'b', '"', ':', '2', ',', '"', 'a', '"', ':',
        '3', '}'] ∧
    insertMembers [] ([(['a'], 1), (['b'], 2), (['a'], 3)].map memberDigits) =
      [(['a'], .Integer 1), (['b'], .Integer 2)] ∧
    mapFind ['a'] [(['a'], .Integer 1), (['b'], .Integer 2)] = some (.Integer 1) :=
  ⟨⟨by decide,
      object_first_occurrence [(['a'], 1), (['b'], 2), (['a'], 3)] (by decide) (by simp)
        (by simp)⟩, by rfl, by rfl, by rfl⟩

/-- Claim C19, evaluated on the code at the text that is one double quote,
position 0: `TokenizeString` steps to position 2 before it looks at the text
again and reads `src[2]` in a text of size 1, so `Tokenize` returns no token
there; the same happens at a double quote that ends a longer text. -/
theorem lone_quote_out_of_bounds :
    charAt ['"'] 2 = .error .undefined ∧
    TokenizeString ['"'] 0 = .error .undefined ∧
    Tokenize ['"'] 0 = .error .undefined ∧
    TokenizeAll ['"'] = .error .undefined ∧
    Tokenize ['[', '1', '"'] 2 = .error .undefined ∧
    TokenizeAll ['[', '1', '"'] = .error .undefined :=
  ⟨rfl, rfl, rfl, rfl, rfl, rfl⟩

/-- Claim C20, evaluated on the code: in the text bracket, 1, quote, bracket,
quote the third token is a STRING with lexeme `]`; the array loop compares
the lexeme only, takes that token for the end of the array and
`ParseJsonString` returns the Array with the element 1. A STRING token with
the lexeme of the closing brace ends an object in the same way. -/
theorem string_token_closes_container :
    TokenizeAll ['[', '1', '"', ']', '"'] =
      .ok [(1, ⟨.OPERATOR, ['[']⟩), (1, ⟨.NUMBER, ['1']⟩), (3, ⟨.STRING, [']']⟩)] ∧
    ParseJsonObject 8 [(1, ⟨.OPERATOR, ['[']⟩), (1, ⟨.NUMBER, ['1']⟩),
        (3, ⟨.STRING, [']']⟩)] 0 = .ok (3, .Array [.Integer 1]) ∧
    ParseJsonString ['[', '1', '"', ']', '"'] = .ok (.Array [.Integer 1]) ∧
    ParseJsonString ['{', '"', 'a', '"', ':', '1', '"', '}', '"'] =
      .ok (.Object [(['a'], .Integer 1)]) :=
  ⟨rfl, rfl, rfl, by
    unfold ParseJsonString
    rw [show TokenizeAll ['{', '"', 'a', '"', ':', '1', '"', '}', '"'] =
      .ok [(1, ⟨.OPERATOR, ['{']⟩), (3, ⟨.STRING, ['a']⟩), (1, ⟨.OPERATOR, [':']⟩),
        (1, ⟨.NUMBER, ['1']⟩), (3, ⟨.STRING, ['}']⟩)] from rfl]
    rfl⟩

end JsonLit
